import Mathlib

/-! A shallow embedding of `fastrouter.go` of gorpher/fastrouter.

Go strings are byte sequences; they are embedded as `List Char`, one `Char`
per byte.  Go maps are embedded as association lists kept in insertion order
with unique keys (Go leaves the iteration order unspecified).  Route pointers
(`*route`) are embedded as positions in `FastRouter.routes`: every route is
appended to `routes` at the moment it is created, so the position identifies
the pointer and a write through the pointer is a write at that position.
-/

namespace Fastrouter

/-! ## constants and `splitPath` -/

/-- A Go string, as its sequence of bytes. -/
abbrev Str := List Char

/-- Constant `SplitPathMAXSize`. -/
def SplitPathMAXSize : Nat := 100

/-- Constant `URLSep`. -/
def URLSep : Str := ['/']

/-- Constant `PathMaxSize`. -/
def PathMaxSize : Nat := 8182

/-- Go `strings.Index(s, "/")`: position of the first `'/'`, `none` for `-1`. -/
def indexSep : Str → Option Nat
  | [] => none
  | c :: cs => if c = '/' then some 0 else (indexSep cs).map (· + 1)

/-- The `for i < n` loop of `splitPath`, on the state `(a, i, s)`.
`a` is the slice `make([]string, 100)`, `n` is `SplitPathMAXSize - 1` after
`n--`.  Every iteration that does not leave the loop removes at least one
byte of `s`, so the loop is run on a fuel of `len(s) + 1` iterations; `none`
is the result only when the fuel is exhausted (see `splitLoop_isSome`). -/
def splitLoop : Nat → List Str → Nat → Str → Option (List Str × Nat × Str)
  | 0, _, _, _ => none
  | fuel + 1, a, i, s =>
    if i < SplitPathMAXSize - 1 then
      match indexSep s with
      | none => some (a, i, s)
      | some m =>
        let a1 := if m ≠ 0 ∧ i > 0 then a.set (i - 1) (a.getD (i - 1) [] ++ s.take m) else a
        if i > 0 ∧ a1.getD (i - 1) [] = URLSep then
          splitLoop fuel a1 i (s.drop (m + 1))
        else
          splitLoop fuel (a1.set i URLSep) (i + 1) (s.drop (m + 1))
    else some (a, i, s)

/-- The statements of `splitPath` after the loop, on the loop's final state
`(a, i, s)`: `if i > 0 && len(s) > 0 { a[i-1] += s }; return a[:i]`. -/
def splitFinish (r : List Str × Nat × Str) : List Str :=
  (if r.2.1 > 0 ∧ r.2.2.length > 0 then
      r.1.set (r.2.1 - 1) (r.1.getD (r.2.1 - 1) [] ++ r.2.2)
    else r.1).take r.2.1

/-- Go `splitPath`, with the loop result still optional. -/
def splitPathAux (s : Str) : Option (List Str) :=
  if s.length = 0 then some [URLSep]
  else
    let s1 := if s.head? ≠ some '/' then URLSep ++ s else s
    (splitLoop (s1.length + 1) (List.replicate SplitPathMAXSize []) 0 s1).map splitFinish

/-- Go `splitPath`.  The default `[]` is never taken (`splitPathAux_isSome`). -/
def splitPath (s : Str) : List Str := (splitPathAux s).getD []

/-! ## request context, handlers and the ghost log -/

/-- Result of calling Go code that may panic: a normal return, or a panic
carrying a value (represented by its `%v` rendering). -/
inductive Outcome (α : Type) where
  | ret (v : α)
  | panic (p : Str)

/-- The part of `fasthttp.RequestCtx` the router reads and writes: the request
path and method, the user values, and of the response the `Allow` header (as
the list of methods that `strings.Join` joins), the status code and the body. -/
structure Ctx where
  path : Str
  method : Str
  userValues : List (Str × Str)
  allow : Option (List Str)
  statusCode : Nat
  body : Str

/-- Go `fasthttp.RequestHandler`; a nil function value is the handler that
panics at once. -/
abbrev RequestHandler := Ctx → Ctx × Outcome Unit

/-- Go `PreHandler`. -/
abbrev PreHandler := Ctx → Ctx × Outcome Bool

/-- Type of the `Recover` field. -/
abbrev RecoverFunc := Ctx → Str → Ctx × Outcome Unit

/-- Calls made during one dispatch, recorded in order.  A filter event
carries what the filter returned, `none` when it panicked.  The log is ghost
state: handlers and filters cannot read or write it. -/
inductive Event where
  | attempt (k : Nat)
  | setAllow (k : Nat) (allows : List Str)
  | matched (k : Nat)
  | setUserValue (key val : Str)
  | globalPre (j : Nat) (res : Option Bool)
  | routePre (k j : Nat) (res : Option Bool)
  | handler (k : Nat)
  | notFoundHook
  | notFoundDefault
  | notAllowedHook
  | setStatus (code : Nat)
  | recoverHook (p : Str)
  | defaultRecover (p : Str)
  deriving DecidableEq, Repr

/-- Request context together with the ghost log. -/
structure St where
  ctx : Ctx
  log : List Event

/-- Append an event to the ghost log. -/
def St.emit (st : St) (e : Event) : St := { st with log := st.log ++ [e] }

/-- Write to a Go map: overwrite the entry of `k` or add one. -/
def mapSet {β : Type} : List (Str × β) → Str → β → List (Str × β)
  | [], k, v => [(k, v)]
  | (k1, v1) :: m, k, v => if k1 = k then (k, v) :: m else (k1, v1) :: mapSet m k v

/-- Read from a Go map. -/
def mapGet {β : Type} : List (Str × β) → Str → Option β
  | [], _ => none
  | (k1, v1) :: m, k => if k1 = k then some v1 else mapGet m k

/-- Write `m[k] = struct{}{}` on a `map[string]struct{}`. -/
def setAdd (m : List Str) (k : Str) : List Str := if k ∈ m then m else m ++ [k]

/-- Go `ctx.SetUserValue`. -/
def Ctx.setUserValue (c : Ctx) (key val : Str) : Ctx :=
  { c with userValues := mapSet c.userValues key val }

/-- Go `ctx.UserValue`. -/
def Ctx.userValue (c : Ctx) (key : Str) : Option Str := mapGet c.userValues key

/-- Go `ctx.SetStatusCode`. -/
def Ctx.setStatusCode (c : Ctx) (code : Nat) : Ctx := { c with statusCode := code }

/-- Go `ctx.NotFound()`: the response is reset, then status 404 and the
default body are written. -/
def Ctx.notFound (c : Ctx) : Ctx :=
  { c with allow := none, statusCode := 404, body := "404 Page not found".toList }

/-- Go `ctx.Error(msg, code)`: the response is reset, then the status and the
message are written. -/
def Ctx.error (c : Ctx) (msg : Str) (code : Nat) : Ctx :=
  { c with allow := none, statusCode := code, body := msg }

/-- Go `defaultRecover`. -/
def defaultRecover (c : Ctx) (p : Str) : Ctx := c.error p 500

/-- Go `strings.ToUpper` on one byte (ASCII letters; other bytes unchanged). -/
def upperByte (c : Char) : Char :=
  if 'a' ≤ c ∧ c ≤ 'z' then Char.ofNat (c.toNat - 32) else c

/-- Go `strings.ToUpper`, on ASCII: the letters `a` to `z` are mapped and every
other character is left as it is (Go also maps letters outside ASCII). -/
def toUpper (s : Str) : Str := s.map upperByte

/-- The runtime panic of an index or slice expression out of range. -/
def indexPanic : Str := "runtime error: index out of range".toList

/-! ## routes, the router and registration -/

/-- Go `route`.  The field `prefix` is named `prefixStr`. -/
structure Route where
  deepPath : List Str
  varsN : List (Str × Nat)
  prefixStr : Str
  urlPath : Str
  method : Str
  allowMethods : List Str
  isPrefixHandler : Bool
  preHandlers : List PreHandler
  handler : RequestHandler

/-- Go `FastRouter` (without the mutex).  `indexRoutes` maps a prefix to the
positions in `routes` of the routes of its bucket. -/
structure FastRouter where
  indexRoutes : List (Str × List Nat)
  routes : List Route
  NotFound : Option RequestHandler
  NotAllowed : Option RequestHandler
  Recover : Option RecoverFunc
  preHandlers : List PreHandler

/-- Go `NewRouter`. -/
def NewRouter : FastRouter :=
  { indexRoutes := [], routes := [], NotFound := none, NotAllowed := none,
    Recover := some (fun c p => (defaultRecover c p, Outcome.ret ())),
    preHandlers := [] }

/-- Go `FastRouter.Use`. -/
def Use (a : FastRouter) (handler : PreHandler) : FastRouter :=
  { a with preHandlers := a.preHandlers ++ [handler] }

/-- The panic value of a repeated variable name in `genRoute`. -/
def varPanic (urlPath seg : Str) : Str :=
  "路由变量变量名重复：".toList ++ urlPath ++ " ".toList ++ seg

/-- The body of `if deepPath[i] != "/" { ... }` in the loop of `genRoute`: the
variable map after the segment `seg` at position `i`. -/
def genRouteVars (urlPath seg : Str) (i : Nat) (varN : List (Str × Nat)) :
    Outcome (List (Str × Nat)) :=
  if seg ≠ URLSep then
    match seg.get? 1 with
    | none => .panic indexPanic
    | some c =>
      if c = ':' then
        let key := seg.drop 2
        match mapGet varN key with
        | some v => if v ≠ 0 then .panic (varPanic urlPath seg) else .ret (mapSet varN key i)
        | none => .ret (mapSet varN key i)
      else .ret varN
  else .ret varN

/-- The loop `for i := range deepPath` of `genRoute`, from position `i` on,
on the state `(varN, prefix)`. -/
def genRouteLoop (urlPath : Str) :
    List Str → Nat → List (Str × Nat) → Str → Outcome (List (Str × Nat) × Str)
  | [], _, varN, pfx => .ret (varN, pfx)
  | seg :: rest, i, varN, pfx =>
    match genRouteVars urlPath seg i varN with
    | .panic p => .panic p
    | .ret varN1 =>
      genRouteLoop urlPath rest (i + 1) varN1 (if varN1.length = 0 then pfx ++ seg else pfx)

/-- Go `FastRouter.genRoute`. -/
def genRoute (method urlPath : Str) (isPrefixHandler : Bool)
    (handler : RequestHandler) (preHandler : List PreHandler) : Outcome Route :=
  let deepPath := splitPath urlPath
  match genRouteLoop urlPath deepPath 0 [] [] with
  | .panic p => .panic p
  | .ret (varN, pfx) =>
    .ret { deepPath := deepPath
           varsN := varN
           prefixStr := if pfx.length = 0 then URLSep else pfx
           method := method
           handler := handler
           urlPath := urlPath
           preHandlers := preHandler
           isPrefixHandler := isPrefixHandler
           allowMethods := [method] }

/-- Outcome of a registration: the router after a normal return, or the panic
value together with the router as the panic leaves it. -/
inductive Registered where
  | ok (a : FastRouter)
  | panicked (p : Str) (a : FastRouter)

/-- The panic value of a duplicate registration in `handle`. -/
def existPanic (r : Route) : Str :=
  "route already exist : ".toList ++ r.urlPath ++ " ".toList ++ r.method

/-- The loop `for i := range h` of `handle` over the bucket `h`, acting on the
routes the bucket points to; the second component is the panic, if any. -/
def mergeLoop (r : Route) : List Nat → List Route → List Route × Option Str
  | [], routes => (routes, none)
  | k :: ks, routes =>
    match routes.get? k with
    | none => mergeLoop r ks routes
    | some h =>
      if h.deepPath.length = r.deepPath.length then
        if h.method = r.method then (routes, some (existPanic r))
        else
          mergeLoop r ks
            (routes.set k { h with allowMethods := setAdd h.allowMethods r.method })
      else mergeLoop r ks routes

/-- Go `FastRouter.handle`. -/
def handle (a : FastRouter) (method urlPath : Str) (isPrefixHandler : Bool)
    (handler : RequestHandler) (preHandler : List PreHandler) : Registered :=
  if urlPath = [] then
    .panicked "'URL Path' Cannot be an empty string".toList a
  else if urlPath.head? ≠ some '/' then
    .panicked "'URL Path' must start with '/'".toList a
  else
    match genRoute method urlPath isPrefixHandler handler preHandler with
    | .panic p => .panicked p a
    | .ret r =>
      match mapGet a.indexRoutes r.prefixStr with
      | none =>
        .ok { a with
              indexRoutes := mapSet a.indexRoutes r.prefixStr [a.routes.length]
              routes := a.routes ++ [r] }
      | some h =>
        match mergeLoop r h a.routes with
        | (routes1, some p) => .panicked p { a with routes := routes1 }
        | (routes1, none) =>
          .ok { a with
                indexRoutes := mapSet a.indexRoutes r.prefixStr (h ++ [routes1.length])
                routes := routes1 ++ [r] }

/-- Go `FastRouter.PrefixHandler`. -/
def PrefixHandler (a : FastRouter) (method prefixPath : Str)
    (handler : RequestHandler) (preHandler : List PreHandler) : Registered :=
  handle a method prefixPath true handler preHandler

/-- Go `FastRouter.Handle`. -/
def Handle (a : FastRouter) (method urlPath : Str)
    (handler : RequestHandler) (preHandler : List PreHandler) : Registered :=
  handle a method urlPath false handler preHandler

/-- The inner loop of `Routers` over the bucket `h`: the patterns of the routes
the bucket points to.  A bucket entry is a pointer in Go; a position outside
`routes`, which no registration produces, contributes nothing. -/
def bucketPaths (routes : List Route) (h : List Nat) : List Str :=
  h.filterMap (fun k => (routes.get? k).map Route.urlPath)

/-- Go `FastRouter.Routers`, with the keys of `indexRoutes` visited in the
order `keys` (Go leaves the order of `range` over a map unspecified). -/
def RoutersIn (a : FastRouter) (keys : List Str) : List Str :=
  keys.flatMap (fun key => bucketPaths a.routes ((mapGet a.indexRoutes key).getD []))

/-- Go `FastRouter.Routers`, with the keys visited in the order of insertion. -/
def Routers (a : FastRouter) : List Str := RoutersIn a (a.indexRoutes.map Prod.fst)

/-! ## dispatch -/

/-- The `Allow` header value of `serve`: the upper-cased keys of
`allowMethods`, then `OPTIONS` when it is not a key (before `strings.Join`).
Go visits the keys of the map in an unspecified order; here they come in the
order of insertion. -/
def allowList (allowMethods : List Str) : List Str :=
  allowMethods.map toUpper ++
    (if "OPTIONS".toList ∈ allowMethods then [] else ["OPTIONS".toList])

/-- The loop `for key, index := range v.varsN` of `serve`. -/
def bindVars (deepPath : List Str) : List (Str × Nat) → St → St × Outcome Unit
  | [], st => (st, .ret ())
  | (key, index) :: rest, st =>
    match deepPath.get? index with
    | none => (st, .panic indexPanic)
    | some seg =>
      if seg.length < 1 then (st, .panic indexPanic)
      else
        bindVars deepPath rest
          { ctx := st.ctx.setUserValue key (seg.drop 1)
            log := st.log ++ [Event.setUserValue key (seg.drop 1)] }

/-- A loop `for j := range preHandlers` of `serve`, from position `j` on; `ev`
names the filter in the log.  `ret false` is the early `return true, true`. -/
def runPre (ev : Nat → Option Bool → Event) : List PreHandler → Nat → St → St × Outcome Bool
  | [], _, st => (st, .ret true)
  | f :: fs, j, st =>
    match f st.ctx with
    | (c, .panic p) => ({ ctx := c, log := st.log ++ [ev j none] }, .panic p)
    | (c, .ret false) => ({ ctx := c, log := st.log ++ [ev j (some false)] }, .ret false)
    | (c, .ret true) => runPre ev fs (j + 1) { ctx := c, log := st.log ++ [ev j (some true)] }

/-- The path-shape test `p` of `serve`. -/
def shapeMatch (v : Route) (deepPath : List Str) : Bool :=
  let p := v.deepPath.length == deepPath.length &&
    ((v.deepPath.getLastD [] == URLSep && deepPath.getLastD [] == URLSep) ||
      (v.deepPath.getLastD [] != URLSep && deepPath.getLastD [] != URLSep))
  if v.isPrefixHandler && v.deepPath.length ≤ deepPath.length then true else p

/-- The block of `serve` that writes the `Allow` header. -/
def setAllowHeader (k : Nat) (v : Route) (st : St) : St :=
  if v.allowMethods.length ≠ 0 then
    { ctx := { st.ctx with allow := some (allowList v.allowMethods) }
      log := st.log ++ [Event.setAllow k (allowList v.allowMethods)] }
  else st

/-- The end of `serve` after the variables are bound: the global filters, the
filters of the route, then the handler; it returns `true, true` on every
normal return. -/
def runChain (a : FastRouter) (k : Nat) (v : Route) (st : St) : St × Outcome (Bool × Bool) :=
  match runPre Event.globalPre a.preHandlers 0 st with
  | (st3, .panic e) => (st3, .panic e)
  | (st3, .ret false) => (st3, .ret (true, true))
  | (st3, .ret true) =>
    match runPre (Event.routePre k) v.preHandlers 0 st3 with
    | (st4, .panic e) => (st4, .panic e)
    | (st4, .ret false) => (st4, .ret (true, true))
    | (st4, .ret true) =>
      match v.handler st4.ctx with
      | (c, .panic e) => ({ ctx := c, log := st4.log ++ [Event.handler k] }, .panic e)
      | (c, .ret ()) => ({ ctx := c, log := st4.log ++ [Event.handler k] }, .ret (true, true))

/-- Go `FastRouter.serve` on the route `v`, which is at position `k` of
`routes`; the result is `(m, p)`.  The events `attempt` and `matched` mark
the entry and the point after `if !(m && p)`. -/
def serve (a : FastRouter) (k : Nat) (v : Route) (method urlPath : Str) (st : St) :
    St × Outcome (Bool × Bool) :=
  let deepPath := splitPath urlPath
  let p := shapeMatch v deepPath
  let m := v.method == method
  let st1 := setAllowHeader k v (st.emit (Event.attempt k))
  if !(m && p) then (st1, .ret (m, p))
  else
    match bindVars deepPath v.varsN (st1.emit (Event.matched k)) with
    | (st2, .panic e) => (st2, .panic e)
    | (st2, .ret ()) => runChain a k v st2

/-- Control after a match attempt inside `Handler`: the function has
returned, or it goes on with the current `(m, p)`. -/
inductive Flow where
  | done
  | next (m p : Bool)
  deriving DecidableEq, Repr

/-- The loop `for i := range handlers` of the exact-prefix pass.  A bucket
entry is a pointer in Go; a position outside `routes`, which no registration
produces, ends the loop with a panic. -/
def passOne (a : FastRouter) (method urlPath : Str) :
    List Nat → Bool → Bool → St → St × Outcome Flow
  | [], m, p, st => (st, .ret (.next m p))
  | k :: ks, _, _, st =>
    match a.routes.get? k with
    | none => (st, .panic indexPanic)
    | some v =>
      match serve a k v method urlPath st with
      | (st1, .panic e) => (st1, .panic e)
      | (st1, .ret (m1, p1)) =>
        if m1 && p1 then (st1, .ret .done) else passOne a method urlPath ks m1 p1 st1

/-- The four variables of the fallback scan. -/
structure Scan where
  normalMaxDeep : Nat
  normalDeepLen : Nat
  prefixMaxDeep : Nat
  prefixDeepLen : Nat
  deriving DecidableEq, Repr

/-- One iteration of the loop `for j := range a.routes`. -/
def scanStep (urlPath : Str) (sc : Scan) (j : Nat) (r : Route) : Scan :=
  if r.prefixStr.isPrefixOf urlPath then
    if r.prefixStr.length > sc.prefixMaxDeep && r.isPrefixHandler then
      { sc with prefixDeepLen := r.prefixStr.length, prefixMaxDeep := j }
    else if r.prefixStr.length > sc.normalMaxDeep then
      { sc with normalDeepLen := r.prefixStr.length, normalMaxDeep := j }
    else sc
  else sc

/-- The loop `for j := range a.routes`, from position `j` on. -/
def scanLoop (urlPath : Str) : List Route → Nat → Scan → Scan
  | [], _, sc => sc
  | r :: rs, j, sc => scanLoop urlPath rs (j + 1) (scanStep urlPath sc j r)

/-- The fallback scan of `Handler` over all routes. -/
def scan (a : FastRouter) (urlPath : Str) : Scan :=
  scanLoop urlPath a.routes 0 ⟨0, 0, 0, 0⟩

/-- A block `if deepLen > 0 { m, p = a.serve(ctx, a.routes[idx], ...) ... }`. -/
def tryWinner (a : FastRouter) (method urlPath : Str) (deepLen idx : Nat)
    (m p : Bool) (st : St) : St × Outcome Flow :=
  if deepLen > 0 then
    match a.routes.get? idx with
    | none => (st, .panic indexPanic)
    | some v =>
      match serve a idx v method urlPath st with
      | (st1, .panic e) => (st1, .panic e)
      | (st1, .ret (m1, p1)) => if m1 && p1 then (st1, .ret .done) else (st1, .ret (.next m1 p1))
  else (st, .ret (.next m p))

/-- The tail of `Handler`: not-found and method-not-allowed handling. -/
def finish (a : FastRouter) (m p : Bool) (st : St) : St × Outcome Unit :=
  if !p then
    match a.NotFound with
    | some f =>
      match f st.ctx with
      | (c, o) => ({ ctx := c, log := st.log ++ [Event.notFoundHook] }, o)
    | none => ({ ctx := st.ctx.notFound, log := st.log ++ [Event.notFoundDefault] }, .ret ())
  else if !m then
    match a.NotAllowed with
    | some f =>
      match f st.ctx with
      | (c, .panic e) => ({ ctx := c, log := st.log ++ [Event.notAllowedHook] }, .panic e)
      | (c, .ret ()) =>
        ({ ctx := c.setStatusCode 405
           log := st.log ++ [Event.notAllowedHook, Event.setStatus 405] }, .ret ())
    | none => ({ ctx := st.ctx.setStatusCode 405, log := st.log ++ [Event.setStatus 405] }, .ret ())
  else (st, .ret ())

/-- The exact-prefix pass of `Handler`: the lookup `a.indexRoutes[urlPath]`
and the loop over the bucket. -/
def exactPass (a : FastRouter) (method urlPath : Str) (st : St) : St × Outcome Flow :=
  match mapGet a.indexRoutes urlPath with
  | some handlers => passOne a method urlPath handlers false false st
  | none => (st, .ret (.next false false))

/-- The fallback pass of `Handler`: the scan, then the attempt on the
catch-all winner, then the attempt on the other winner. -/
def fallbackPass (a : FastRouter) (method urlPath : Str) (m p : Bool) (st : St) :
    St × Outcome Flow :=
  let sc := scan a urlPath
  match tryWinner a method urlPath sc.prefixDeepLen sc.prefixMaxDeep m p st with
  | (st2, .panic e) => (st2, .panic e)
  | (st2, .ret .done) => (st2, .ret .done)
  | (st2, .ret (.next m2 p2)) =>
    tryWinner a method urlPath sc.normalDeepLen sc.normalMaxDeep m2 p2 st2

/-- The body of `Handler` below the `defer`: both passes and the tail. -/
def routeRequest (a : FastRouter) (method urlPath : Str) (st : St) : St × Outcome Unit :=
  match exactPass a method urlPath st with
  | (st1, .panic e) => (st1, .panic e)
  | (st1, .ret .done) => (st1, .ret ())
  | (st1, .ret (.next m1 p1)) =>
    match fallbackPass a method urlPath m1 p1 st1 with
    | (st2, .panic e) => (st2, .panic e)
    | (st2, .ret .done) => (st2, .ret ())
    | (st2, .ret (.next m2 p2)) => finish a m2 p2 st2

/-- The deferred function of `Handler`, run on the panic value `err`: the
`Recover` hook when set, then `defaultRecover`.  A panic of the hook leaves
the deferred function and is the second component. -/
def recoverFrom (a : FastRouter) (err : Str) (st : St) : St × Option Str :=
  match a.Recover with
  | some f =>
    match f st.ctx err with
    | (c, .panic e) => ({ ctx := c, log := st.log ++ [Event.recoverHook err] }, some e)
    | (c, .ret ()) =>
      ({ ctx := defaultRecover c err
         log := st.log ++ [Event.recoverHook err, Event.defaultRecover err] }, none)
  | none => ({ ctx := defaultRecover st.ctx err, log := st.log ++ [Event.defaultRecover err] }, none)

/-- The function returned by Go `FastRouter.Handler`, on the request held in
the context; the second component is a panic that leaves it. -/
def Handler (a : FastRouter) (st : St) : St × Option Str :=
  let urlPath := st.ctx.path
  if urlPath.length > PathMaxSize then
    ({ ctx := st.ctx.setStatusCode 414, log := st.log ++ [Event.setStatus 414] }, none)
  else
    let method := st.ctx.method
    match routeRequest a method urlPath st with
    | (st1, .ret ()) => (st1, none)
    | (st1, .panic err) => recoverFrom a err st1

/-! ## reference segmentation (from the specification's words) -/

/-- The pieces of a path between `'/'` separators. -/
def pieces (path : Str) : List Str := path.splitOn '/'

/-- Reference segmentation: the non-empty pieces, each prefixed with `'/'`,
followed by the marker `"/"` exactly when the path is empty or ends with `'/'`. -/
def refSegments (path : Str) : List Str :=
  ((pieces path).filter (fun p => p ≠ [])).map (fun p => '/' :: p) ++
    (if path = [] ∨ path.getLast? = some '/' then [URLSep] else [])

/-! ## auxiliary descriptions of what the loop of `splitPath` computes -/

/-- Segments of a list of pieces: the non-empty pieces, each prefixed with
`'/'`, then the marker when the last piece is empty. -/
def pieceSegs (ps : List Str) : List Str :=
  (ps.filter (fun p => p ≠ [])).map (fun p => '/' :: p) ++
    (if ps.getLast? = some [] then [URLSep] else [])

/-- Segments of a list of pieces when at most `b` more segments may be opened
after the current one: once the budget is used up, the rest of the path,
separators included, goes into the current segment. -/
def segsB : Nat → List Str → List Str
  | _, [] => []
  | _, [p] => ['/' :: p]
  | 0, p :: q :: ps => ['/' :: List.intercalate ['/'] (p :: q :: ps)]
  | b + 1, p :: q :: ps =>
    if p = [] then segsB (b + 1) (q :: ps) else ('/' :: p) :: segsB b (q :: ps)

/-! ## routers built by registration and their invariant -/

/-- The router a registration leaves behind, whatever its outcome. -/
def Registered.router : Registered → FastRouter
  | .ok a => a
  | .panicked _ a => a

/-- Routers built from `NewRouter` by registrations that returned normally,
`Use`, and assignments to the hook fields. -/
inductive Built : FastRouter → Prop where
  | new : Built NewRouter
  | handle {a a1 : FastRouter} (method urlPath : Str) (isPrefixHandler : Bool)
      (handler : RequestHandler) (preHandler : List PreHandler) :
      Built a → Fastrouter.handle a method urlPath isPrefixHandler handler preHandler = .ok a1 →
      Built a1
  | use {a : FastRouter} (f : PreHandler) : Built a → Built (Use a f)
  | setNotFound {a : FastRouter} (f : Option RequestHandler) :
      Built a → Built { a with NotFound := f }
  | setNotAllowed {a : FastRouter} (f : Option RequestHandler) :
      Built a → Built { a with NotAllowed := f }
  | setRecover {a : FastRouter} (f : Option RecoverFunc) :
      Built a → Built { a with Recover := f }

/-- Routers built like `Built`, together with the patterns of the
registrations that returned normally, in their order. -/
inductive BuiltWith : FastRouter → List Str → Prop where
  | new : BuiltWith NewRouter []
  | handle {a a1 : FastRouter} {ps : List Str} (method urlPath : Str) (isPrefixHandler : Bool)
      (handler : RequestHandler) (preHandler : List PreHandler) :
      BuiltWith a ps →
      Fastrouter.handle a method urlPath isPrefixHandler handler preHandler = .ok a1 →
      BuiltWith a1 (ps ++ [urlPath])
  | use {a : FastRouter} {ps : List Str} (f : PreHandler) : BuiltWith a ps → BuiltWith (Use a f) ps
  | setNotFound {a : FastRouter} {ps : List Str} (f : Option RequestHandler) :
      BuiltWith a ps → BuiltWith { a with NotFound := f } ps
  | setNotAllowed {a : FastRouter} {ps : List Str} (f : Option RequestHandler) :
      BuiltWith a ps → BuiltWith { a with NotAllowed := f } ps
  | setRecover {a : FastRouter} {ps : List Str} (f : Option RecoverFunc) :
      BuiltWith a ps → BuiltWith { a with Recover := f } ps

/-- The router `a2` is reached from `a1` by registrations that returned
normally, `Use`, and assignments to the hook fields. -/
inductive Grows (a1 : FastRouter) : FastRouter → Prop where
  | refl : Grows a1 a1
  | handle {a a2 : FastRouter} (method urlPath : Str) (isPrefixHandler : Bool)
      (handler : RequestHandler) (preHandler : List PreHandler) :
      Grows a1 a → Fastrouter.handle a method urlPath isPrefixHandler handler preHandler = .ok a2 →
      Grows a1 a2
  | use {a : FastRouter} (f : PreHandler) : Grows a1 a → Grows a1 (Use a f)
  | setNotFound {a : FastRouter} (f : Option RequestHandler) :
      Grows a1 a → Grows a1 { a with NotFound := f }
  | setNotAllowed {a : FastRouter} (f : Option RequestHandler) :
      Grows a1 a → Grows a1 { a with NotAllowed := f }
  | setRecover {a : FastRouter} (f : Option RecoverFunc) :
      Grows a1 a → Grows a1 { a with Recover := f }

/-- A route with its `allowMethods` emptied: what `genRoute` fixes for good
(later registrations write only to `allowMethods`). -/
def Route.erase (r : Route) : Route := { r with allowMethods := [] }

/-- What `genRoute` establishes for a route. -/
def RouteOK (r : Route) : Prop :=
  r.deepPath = splitPath r.urlPath ∧
  ∃ pfx, genRouteLoop r.urlPath r.deepPath 0 [] [] = .ret (r.varsN, pfx) ∧
    r.prefixStr = (if pfx.length = 0 then URLSep else pfx)

/-- The variable map of a route: names are distinct and positions are below `n`. -/
def VarsInv (n : Nat) (varN : List (Str × Nat)) : Prop :=
  (varN.map Prod.fst).Nodup ∧ ∀ x ∈ varN, x.2 < n

/-- Invariant of the registry: every route is as `genRoute` made it, a bucket
holds exactly the routes with its key as prefix, and no two routes agree on
prefix, segment count and method. -/
structure WF (a : FastRouter) : Prop where
  routeOK : ∀ k r, a.routes.get? k = some r → RouteOK r
  sound : ∀ key h, mapGet a.indexRoutes key = some h →
    ∀ k ∈ h, ∃ r, a.routes.get? k = some r ∧ r.prefixStr = key
  complete : ∀ k r, a.routes.get? k = some r →
    ∃ h, mapGet a.indexRoutes r.prefixStr = some h ∧ k ∈ h
  unique : ∀ k1 k2 r1 r2, a.routes.get? k1 = some r1 → a.routes.get? k2 = some r2 →
    r1.prefixStr = r2.prefixStr → r1.deepPath.length = r2.deepPath.length →
    r1.method = r2.method → k1 = k2

/-- Invariant of the allowed methods: in a bucket, a route that comes before
another one with the same number of segments allows the method of the later
one. -/
def Merged (a : FastRouter) : Prop :=
  ∀ key h, mapGet a.indexRoutes key = some h → ∀ pre k2 post, h = pre ++ k2 :: post →
    ∀ k1 ∈ pre, ∀ r1 r2, a.routes.get? k1 = some r1 → a.routes.get? k2 = some r2 →
      r1.deepPath.length = r2.deepPath.length → r2.method ∈ r1.allowMethods

/-- No repeated separators: no two adjacent bytes of the path are both `'/'`. -/
def NoRepeatedSep (path : Str) : Prop :=
  path.Chain' (fun x y => ¬ (x = '/' ∧ y = '/'))

/-- No variable segment: no segment of the path begins with `':'`. -/
def NoVarSegment (path : Str) : Prop :=
  ∀ seg ∈ splitPath path, seg.get? 1 ≠ some ':'

instance (path : Str) : Decidable (NoVarSegment path) := by
  unfold NoVarSegment; infer_instance

/-! ## notions used to state what dispatch does -/

/-- Events of a filter or handler being run. -/
def Event.isRun : Event → Bool
  | .globalPre _ _ => true
  | .routePre _ _ _ => true
  | .handler _ => true
  | _ => false

/-- Events of a match attempt that did not get past `if !(m && p)`. -/
def Event.isQuiet : Event → Bool
  | .attempt _ => true
  | .setAllow _ _ => true
  | _ => false

/-- Events a call of `serve` on the route at position `k` can log. -/
def Event.ofRoute (k : Nat) : Event → Bool
  | .attempt k1 => k1 == k
  | .setAllow k1 _ => k1 == k
  | .matched k1 => k1 == k
  | .setUserValue _ _ => true
  | .globalPre _ _ => true
  | .routePre k1 _ _ => k1 == k
  | .handler k1 => k1 == k
  | _ => false

/-- Events of the tail of `Handler` and of its deferred function. -/
def Event.isTail : Event → Bool
  | .notFoundHook => true
  | .notFoundDefault => true
  | .notAllowedHook => true
  | .setStatus _ => true
  | .recoverHook _ => true
  | .defaultRecover _ => true
  | _ => false

/-- A filter event whose filter did not return `true`. -/
def Event.isStop : Event → Bool
  | .globalPre _ res => res != some true
  | .routePre _ _ res => res != some true
  | _ => false

/-- The state `st1` is `st` followed by match attempts that all failed. -/
def Quiet (st st1 : St) : Prop :=
  ∃ l, st1.log = st.log ++ l ∧ ∀ e ∈ l, e.isQuiet = true

/-- What `Handler` does with the result of a successful match attempt: it
returns, or the panic goes on. -/
def chainDone (r : St × Outcome (Bool × Bool)) : St × Outcome Flow :=
  match r with
  | (s, .ret _) => (s, .ret .done)
  | (s, .panic e) => (s, .panic e)

/-- The result of `routeRequest` when a match attempt succeeded. -/
def chainUnit (r : St × Outcome (Bool × Bool)) : St × Outcome Unit :=
  match r with
  | (s, .ret _) => (s, .ret ())
  | (s, .panic e) => (s, .panic e)

/-- The winners of the scan are positions of routes whose prefix is a string
prefix of the path. -/
def ScanOK (all : List Route) (path : Str) (sc : Scan) : Prop :=
  (sc.prefixDeepLen > 0 →
    ∃ r, all.get? sc.prefixMaxDeep = some r ∧ r.prefixStr.isPrefixOf path = true) ∧
  (sc.normalDeepLen > 0 →
    ∃ r, all.get? sc.normalMaxDeep = some r ∧ r.prefixStr.isPrefixOf path = true)

/-- The route at position `k` is one `Handler` attempts on `path`: it is in
the bucket of `path`, or one of the two winners of the fallback scan. -/
def Attempted (a : FastRouter) (path : Str) (k : Nat) : Prop :=
  (∃ h, mapGet a.indexRoutes path = some h ∧ k ∈ h) ∨
  ((scan a path).prefixDeepLen > 0 ∧ k = (scan a path).prefixMaxDeep) ∨
  ((scan a path).normalDeepLen > 0 ∧ k = (scan a path).normalMaxDeep)

/-- Path-shape match in the specification's words: equal segment counts with
the same trailing-slash state, or a catch-all route with at most as many
segments as the request. -/
def ShapeOK (v : Route) (segs : List Str) : Prop :=
  (v.deepPath.length = segs.length ∧
    (v.deepPath.getLastD [] = URLSep ↔ segs.getLastD [] = URLSep)) ∨
  (v.isPrefixHandler = true ∧ v.deepPath.length ≤ segs.length)

instance (v : Route) (segs : List Str) : Decidable (ShapeOK v segs) := by
  unfold ShapeOK; infer_instance

/-- The route `v` matches the request: method and path shape. -/
def Hit (v : Route) (method path : Str) : Prop :=
  v.method = method ∧ shapeMatch v (splitPath path) = true

/-- The events of the first `n` global filters, each returning `true`. -/
def passedGlobal (n : Nat) : List Event :=
  (List.range n).map (fun i => Event.globalPre i (some true))

/-- The events of the first `n` filters of the route at position `k`, each
returning `true`. -/
def passedRoute (k n : Nat) : List Event :=
  (List.range n).map (fun i => Event.routePre k i (some true))

/-- The trace of the chain of the route at position `k`, with `g` global
filters and `p` filters of the route.  Either every filter returned `true`,
the global ones first, and the handler ran; or a global filter is the first
not to return `true` and nothing follows it; or every global filter returned
`true`, a filter of the route is the first not to return `true`, and nothing
follows it.  The result `res` of the last filter is `some false` when it
returned `false` and `none` when it failed. -/
def ChainTrace (g p k : Nat) (l : List Event) : Prop :=
  l = passedGlobal g ++ passedRoute k p ++ [Event.handler k] ∨
  (∃ j res, j < g ∧ res ≠ some true ∧ l = passedGlobal j ++ [Event.globalPre j res]) ∨
  (∃ j res, j < p ∧ res ≠ some true ∧
    l = passedGlobal g ++ passedRoute k j ++ [Event.routePre k j res])

/-- The chain trace `l` ends with a handler or a filter that failed. -/
def EndsFailed (k : Nat) (l : List Event) : Prop :=
  l.getLast? = some (Event.handler k) ∨
  ∃ j, l.getLast? = some (Event.globalPre j none) ∨ l.getLast? = some (Event.routePre k j none)

/-- Events of the deferred function of `Handler`. -/
def RecoverEvents (l : List Event) : Prop :=
  ∀ e ∈ l, ∃ err, e = Event.recoverHook err ∨ e = Event.defaultRecover err

/-- The context `c1` is the context `c` up to the `Allow` header. -/
def SameButAllow (c c1 : Ctx) : Prop := c1 = { c with allow := c1.allow }

/-- The state `st1` is `st` after match attempts that all failed: they logged
their attempts and wrote nothing but the `Allow` header. -/
def Tried (st st1 : St) : Prop := Quiet st st1 ∧ SameButAllow st.ctx st1.ctx

/-- Reference for a run of filters (specification 4.5): the filters are
applied in list order from the context `c`, each to the context the one before
it left, as long as they return `true`.  The result is the context left by the
last filter applied and its outcome, `ret true` when every filter returned
`true`. -/
def refFilters : List PreHandler → Ctx → Ctx × Outcome Bool
  | [], c => (c, .ret true)
  | f :: fs, c =>
    match f c with
    | (c1, .ret true) => refFilters fs c1
    | (c1, o) => (c1, o)

/-- A filter whose outcome `ob` is not `true` ends the chain: with a normal
return when it returned `false`, with its panic when it failed; `res` is its
result as the log records it and `o` the outcome of the chain. -/
def Stopped (ob : Outcome Bool) (res : Option Bool) (o : Outcome Unit) : Prop :=
  (ob = .ret false ∧ res = some false ∧ o = .ret ()) ∨
  (∃ e, ob = .panic e ∧ res = none ∧ o = .panic e)

/-- What the chain of the route `v` at position `k` does from the context
`c`, in terms of the functions themselves; `C` is the trace, `cF` the context
the chain leaves and `o` its outcome.  Either every global filter and then
every filter of the route, applied in order, returned `true`, and the handler
of the route was applied to the context they left; or the global filter at
position `j`, applied to the context the `j` global filters before it left, is
the first not to return `true`, and nothing is applied after it; or every
global filter returned `true` and the same holds of the filter of the route at
position `j`. -/
def ChainRun (a : FastRouter) (k : Nat) (v : Route) (c : Ctx) (C : List Event) (cF : Ctx)
    (o : Outcome Unit) : Prop :=
  (∃ c1, refFilters (a.preHandlers ++ v.preHandlers) c = (c1, .ret true) ∧
    v.handler c1 = (cF, o) ∧
    C = passedGlobal a.preHandlers.length ++ passedRoute k v.preHandlers.length ++
      [Event.handler k]) ∨
  (∃ j f c1 ob res, a.preHandlers.get? j = some f ∧
    refFilters (a.preHandlers.take j) c = (c1, .ret true) ∧ f c1 = (cF, ob) ∧
    Stopped ob res o ∧ C = passedGlobal j ++ [Event.globalPre j res]) ∨
  (∃ j f c1 ob res, v.preHandlers.get? j = some f ∧
    refFilters (a.preHandlers ++ v.preHandlers.take j) c = (c1, .ret true) ∧
    f c1 = (cF, ob) ∧ Stopped ob res o ∧
    C = passedGlobal a.preHandlers.length ++ passedRoute k j ++ [Event.routePre k j res])

/-- The result `r` is that of a successful match attempt on the route at
position `k`, started in `st`: failed attempts, which leave the `Allow` header
of the route, then `matched k`, the variables `U` bound by `bindVars`, and the
chain of the route. -/
def HitAt (a : FastRouter) (method path : Str) (k : Nat) (st : St)
    (r : St × Outcome (Bool × Bool)) : Prop :=
  ∃ v st1 st2 U, a.routes.get? k = some v ∧ Hit v method path ∧ Quiet st st1 ∧
    st2.log = st1.log ++ Event.matched k :: U ∧
    (∀ e ∈ U, ∃ key val, e = Event.setUserValue key val) ∧ r = runChain a k v st2 ∧
    Tried st st1 ∧
    (v.allowMethods ≠ [] → st1.ctx.allow = some (allowList v.allowMethods)) ∧
    bindVars (splitPath path) v.varsN (st1.emit (Event.matched k)) = (st2, .ret ())

/-- Dispatch of the request held in `st` serves the route `v` at position `k`,
in terms of the contexts: after failed attempts, which write nothing but the
`Allow` header, the variables of the route are bound; from the context this
leaves the chain of the route runs as `ChainRun` says; `Handler` returns with
the context the chain left, or, when the chain failed, with what the deferred
function makes of it. -/
def Served (a : FastRouter) (st : St) (k : Nat) (v : Route) : Prop :=
  ∃ st1 st2 C cF o, Tried st st1 ∧
    bindVars (splitPath st.ctx.path) v.varsN (st1.emit (Event.matched k)) = (st2, .ret ()) ∧
    ChainRun a k v st2.ctx C cF o ∧
    (o = .ret () → Handler a st = ({ ctx := cF, log := st2.log ++ C }, none)) ∧
    (∀ e, o = .panic e → Handler a st = recoverFrom a e { ctx := cF, log := st2.log ++ C })

/-- A path as `ctx.Path()` delivers it to `Handler`: fasthttp has normalised
it, so it starts with `'/'` and has no repeated separator. -/
def Normalized (path : Str) : Prop := path.head? = some '/' ∧ NoRepeatedSep path

/-- The event of a route handler being invoked. -/
def Event.isHandler : Event → Bool
  | .handler _ => true
  | _ => false

/-- Events of the not-found and method-not-allowed handling at the end of
`Handler`. -/
def Event.isFinish : Event → Bool
  | .notFoundHook => true
  | .notFoundDefault => true
  | .notAllowedHook => true
  | .setStatus code => code == 405
  | _ => false

/-- A log with at most one handler invocation and no not-found or
method-not-allowed handling. -/
def HitLog (l : List Event) : Prop :=
  l.countP Event.isHandler ≤ 1 ∧ ∀ e ∈ l, e.isFinish = false

/-- The event `e` comes from a match attempt of `Handler` on some route, and
is more than the trace of a failed attempt only when that route is hit. -/
def RouteEvent (a : FastRouter) (method path : Str) (e : Event) : Prop :=
  ∃ k v, Attempted a path k ∧ a.routes.get? k = some v ∧ e.ofRoute k = true ∧
    e.isTail = false ∧ (e.isQuiet = true ∨ Hit v method path)

/-- The context `c` with its path replaced by `p`. -/
def Ctx.withPath (c : Ctx) (p : Str) : Ctx := { c with path := p }

/-- The state `st` with the path of its context replaced by `p`. -/
def St.withPath (st : St) (p : Str) : St := { st with ctx := st.ctx.withPath p }

/-- The function `f` of user code does not read the path: on a context whose
path is replaced by `p` it does what it does on the context itself. -/
def BlindTo {α : Type} (p : Str) (f : Ctx → Ctx × Outcome α) : Prop :=
  ∀ c, f (c.withPath p) = ((f c).1.withPath p, (f c).2)

/-- No filter, handler or hook of the router reads the path. -/
def PathBlind (a : FastRouter) (p : Str) : Prop :=
  (∀ f ∈ a.preHandlers, BlindTo p f) ∧
  (∀ r ∈ a.routes, BlindTo p r.handler ∧ ∀ f ∈ r.preHandlers, BlindTo p f) ∧
  (∀ f, a.NotFound = some f → BlindTo p f) ∧
  (∀ f, a.NotAllowed = some f → BlindTo p f) ∧
  (∀ f, a.Recover = some f → ∀ e, BlindTo p (fun c => f c e))

/-- A fresh request context for `method` and `path`, with an empty log.  The
path is the value of `ctx.Path()`, which fasthttp delivers normalised (see
`Normalized`); statements that depend on this say so. -/
def request (method path : Str) : St :=
  { ctx := { path := path, method := method, userValues := [], allow := none,
             statusCode := 200, body := [] }
    log := [] }

/-- The ghost log of dispatching `method path` on `a`. -/
def dispatchLog (a : FastRouter) (method path : Str) : List Event :=
  (Handler a (request method path)).1.log

/-- The context after dispatching `method path` on `a`. -/
def dispatchCtx (a : FastRouter) (method path : Str) : Ctx :=
  (Handler a (request method path)).1.ctx

/-- Literal segments matched verbatim, for the router `a` and the request `c`:
whenever dispatch invokes the handler of a route, every segment of the route
that is not a variable equals the request's segment at the same position. -/
def LiteralsVerbatim (a : FastRouter) (c : Ctx) : Prop :=
  ∀ k r, a.routes.get? k = some r → Event.handler k ∈ (Handler a ⟨c, []⟩).1.log →
    ∀ i seg, r.deepPath.get? i = some seg → seg.get? 1 ≠ some ':' →
      (splitPath c.path).get? i = some seg

/-- Dispatch of the request `c` on `a` reaches the route at position `k`: the
match on this route succeeds and on no other, no handler and no filter of
another route runs, the handler of the route runs if no filter stops the
chain, and neither the not-found nor the not-allowed handling takes place. -/
def Reached (a : FastRouter) (c : Ctx) (k : Nat) : Prop :=
  Event.matched k ∈ (Handler a ⟨c, []⟩).1.log ∧
  (∀ k1, Event.matched k1 ∈ (Handler a ⟨c, []⟩).1.log → k1 = k) ∧
  (∀ k1, Event.handler k1 ∈ (Handler a ⟨c, []⟩).1.log → k1 = k) ∧
  (∀ k1 j res, Event.routePre k1 j res ∈ (Handler a ⟨c, []⟩).1.log → k1 = k) ∧
  ((∀ e ∈ (Handler a ⟨c, []⟩).1.log, e.isStop = false) →
    Event.handler k ∈ (Handler a ⟨c, []⟩).1.log) ∧
  Event.notFoundHook ∉ (Handler a ⟨c, []⟩).1.log ∧
  Event.notFoundDefault ∉ (Handler a ⟨c, []⟩).1.log ∧
  Event.notAllowedHook ∉ (Handler a ⟨c, []⟩).1.log ∧
  Event.setStatus 405 ∉ (Handler a ⟨c, []⟩).1.log

/-! ## concrete handlers, routers and requests -/

/-- A handler that returns at once. -/
def okHandler : RequestHandler := fun c => (c, .ret ())

/-- Registration of `method pattern` with `okHandler` and no filter. -/
def reg (a : FastRouter) (method pattern : String) (isPrefixHandler : Bool) : FastRouter :=
  (handle a method.toList pattern.toList isPrefixHandler okHandler []).router

/-- The first route of a router (an empty route when there is none). -/
def firstRoute (a : FastRouter) : Route :=
  a.routes.headD
    { deepPath := [], varsN := [], prefixStr := [], urlPath := [], method := [],
      allowMethods := [], isPrefixHandler := false, preHandlers := [], handler := okHandler }

/-- The pattern `'/'` followed by `n` times `'a'`. -/
def aPattern (n : Nat) : Str := '/' :: List.replicate n 'a'

/-- The router with the single route `GET aPattern n`. -/
def aRouter (n : Nat) : FastRouter :=
  (handle NewRouter "GET".toList (aPattern n) false okHandler []).router

/-- A pattern of 8183 bytes: `'/'` followed by 8182 times `'a'`. -/
def longPattern : Str := aPattern 8182

/-- The router with the single route `GET longPattern`. -/
def longRouter : FastRouter := aRouter 8182

/-- The router with `GET /user/:name`, then `PUT /user/:name`. -/
def userRouter : FastRouter :=
  reg (reg NewRouter "GET" "/user/:name" false) "PUT" "/user/:name" false

/-- The router with the catch-all `GET /aaa`, then the catch-all `GET /a`. -/
def nestedRouter : FastRouter :=
  reg (reg NewRouter "GET" "/aaa" true) "GET" "/a" true

/-- The router with `POST /path`, then `POST /:v/x`. -/
def shadowRouter : FastRouter :=
  reg (reg NewRouter "POST" "/path" false) "POST" "/:v/x" false

/-- The router with `POST /path`, `DELETE /path`, `OPTIONS /path`, as in
`TestRouterNotAllowed`. -/
def pathRouter : FastRouter :=
  reg (reg (reg NewRouter "POST" "/path" false) "DELETE" "/path" false) "OPTIONS" "/path" false

/-- The routes of `example/main.go`, in its order and without its global
filters: `/`, `/a`, `/:a/:b`, `/a/:y`, the catch-all `/a/:b/:c` and the
catch-all `/a/` of `Static`. -/
def exampleRouter : FastRouter :=
  reg (reg (reg (reg (reg (reg NewRouter "GET" "/" false) "GET" "/a" false)
    "GET" "/:a/:b" false) "GET" "/a/:y" false) "GET" "/a/:b/:c" true) "GET" "/a/" true

/-- The path made of 101 times `"/a"`: its full segmentation has 101 segments. -/
def manySegments : Str := (List.replicate 101 "/a".toList).flatten

/-- The router after `GET /:a/:a` is registered on a new router. -/
def repeatRouter : FastRouter := reg NewRouter "GET" "/:a/:a" false

/-- The router with `GET /x`, then `POST /x`. -/
def methodsRouter : FastRouter := reg (reg NewRouter "GET" "/x" false) "POST" "/x" false

/-- The router with `GET /user/:name`, then `PUT /user/:name`, then `GET /x`. -/
def grownRouter : FastRouter := reg userRouter "GET" "/x" false

/-- A filter that appends `t` to the body and returns `res`. -/
def tagFilter (t : String) (res : Bool) : PreHandler :=
  fun c => ({ c with body := c.body ++ t.toList }, .ret res)

/-- A handler that appends `t` to the body. -/
def tagHandler (t : String) : RequestHandler :=
  fun c => ({ c with body := c.body ++ t.toList }, .ret ())

/-- The router with the global filters `g1`, `g2` and the route `GET /x`,
whose filters are `r1`, `r2` and whose handler is `h`; each appends its name
to the body, and `r1` returns `res`. -/
def tagRouter (res : Bool) : FastRouter :=
  Use (Use (handle NewRouter "GET".toList "/x".toList false (tagHandler "h")
    [tagFilter "r1" res, tagFilter "r2" true]).router (tagFilter "g1" true))
    (tagFilter "g2" true)

/-- The request `GET /x`. -/
def xRequest : St := request "GET".toList "/x".toList

/-- A handler that panics with `"oops!"`. -/
def oopsHandler : RequestHandler := fun c => (c, .panic "oops!".toList)

/-- A recovery hook that writes a body of its own and returns. -/
def noteRecover : RecoverFunc := fun c _ => ({ c with body := "recovered".toList }, .ret ())

/-- The router with `PUT /user/:name` handled by `oopsHandler`, and the
recovery hook `noteRecover`. -/
def oopsRouter : FastRouter :=
  { (handle NewRouter "PUT".toList "/user/:name".toList false oopsHandler []).router with
    Recover := some noteRecover }

/-- The router with the catch-all route `GET /a/:b/:c`, whose handler writes
`catch`, and the route `GET /a/:y`, whose handler writes `exact`. -/
def precedenceRouter : FastRouter :=
  (handle (handle NewRouter "GET".toList "/a/:b/:c".toList true (tagHandler "catch") []).router
    "GET".toList "/a/:y".toList false (tagHandler "exact") []).router

/-- The router with the catch-all route `GET /a/:b/:c`, the route `GET /a/:y`
and the route `GET /a/1/:z`. -/
def thirdRouter : FastRouter :=
  reg (reg (reg NewRouter "GET" "/a/:b/:c" true) "GET" "/a/:y" false) "GET" "/a/1/:z" false

/-- The router with the route `GET /a` and a `NotFound` hook that writes `nf`
to the body. -/
def hookRouter : FastRouter :=
  { reg NewRouter "GET" "/a" false with NotFound := some (tagHandler "nf") }

/-- The request `GET /x/y`. -/
def xyRequest : St := request "GET".toList "/x/y".toList

/-! # Theorems -/

theorem indexSep_none {s : Str} : indexSep s = none ↔ '/' ∉ s := by
  induction s with
  | nil => simp [indexSep]
  | cons c cs ih =>
    by_cases hc : c = '/'
    · simp [indexSep, hc]
    · simp [indexSep, hc, ih, Ne.symm hc]

theorem indexSep_some {s : Str} {m : Nat} (h : indexSep s = some m) :
    '/' ∉ s.take m ∧ s = s.take m ++ '/' :: s.drop (m + 1) := by
  induction s generalizing m with
  | nil => simp [indexSep] at h
  | cons c cs ih =>
    by_cases hc : c = '/'
    · simp [indexSep, hc] at h
      subst h; simp [hc]
    · simp only [indexSep, hc, if_false, Option.map_eq_some'] at h
      obtain ⟨m1, hm1, rfl⟩ := h
      obtain ⟨h1, h2⟩ := ih hm1
      refine ⟨?_, ?_⟩
      · simp [List.take_succ_cons, Ne.symm hc, h1]
      · simp only [List.take_succ_cons, List.drop_succ_cons, List.cons_append]
        rw [← h2]

theorem splitOn_sep_ne_nil (s : Str) : s.splitOn '/' ≠ [] := List.splitOnP_ne_nil _ _

theorem splitOn_sep_free {s : Str} (h : '/' ∉ s) : s.splitOn '/' = [s] := by
  apply List.splitOnP_eq_single
  intro x hx hp
  simp at hp
  exact h (hp ▸ hx)

theorem splitOn_sep_first {pre rest : Str} (h : '/' ∉ pre) :
    (pre ++ '/' :: rest).splitOn '/' = pre :: rest.splitOn '/' := by
  apply List.splitOnP_first
  · intro x hx hp
    simp at hp
    exact h (hp ▸ hx)
  · simp

theorem pieceSegs_single (p : Str) : pieceSegs [p] = ['/' :: p] := by
  by_cases hp : p = []
  · simp [pieceSegs, hp, URLSep]
  · simp [pieceSegs, hp]

theorem pieceSegs_cons (p : Str) {ps : List Str} (h : ps ≠ []) :
    pieceSegs (p :: ps) = (if p = [] then [] else ['/' :: p]) ++ pieceSegs ps := by
  obtain ⟨q, qs, rfl⟩ := List.exists_cons_of_ne_nil h
  by_cases hp : p = []
  · simp [pieceSegs, hp, List.getLast?_cons_cons]
  · simp [pieceSegs, hp, List.getLast?_cons_cons]

theorem sep_cases (s : Str) :
    '/' ∉ s ∨ ∃ pre rest, '/' ∉ pre ∧ s = pre ++ '/' :: rest := by
  cases h : indexSep s with
  | none => exact Or.inl (indexSep_none.1 h)
  | some m => exact Or.inr ⟨_, _, (indexSep_some h).1, (indexSep_some h).2⟩

theorem splitOn_getLast_nil (s : Str) :
    (s.splitOn '/').getLast? = some [] ↔ (s = [] ∨ s.getLast? = some '/') := by
  generalize hn : s.length = n
  induction n using Nat.strong_induction_on generalizing s with
  | _ n ih =>
    rcases sep_cases s with h | ⟨pre, rest, hpre, rfl⟩
    · rw [splitOn_sep_free h]
      constructor
      · intro h1; left; simpa using h1.symm
      · rintro (h1 | h1)
        · simp [h1]
        · exact absurd (List.mem_of_getLast?_eq_some h1) h
    · rw [splitOn_sep_first hpre]
      obtain ⟨q, qs, hq⟩ := List.exists_cons_of_ne_nil (splitOn_sep_ne_nil rest)
      have ih1 := ih rest.length (by subst hn; simp; omega) rest rfl
      rw [hq] at ih1 ⊢
      rw [List.getLast?_cons_cons, ih1]
      rcases rest with _ | ⟨c, cs⟩
      · simp
      · simp [List.getLast?_append, List.getLast?_cons_cons]

theorem refSegments_eq (path : Str) : refSegments path = pieceSegs (path.splitOn '/') := by
  unfold refSegments pieceSegs pieces
  simp only [splitOn_getLast_nil]

theorem getD_mid (front back : List Str) (x d : Str) :
    (front ++ x :: back).getD front.length d = x := by
  rw [List.getD_eq_getElem?_getD, List.getElem?_append_right (le_refl _)]
  simp

theorem set_mid (front back : List Str) (x y : Str) :
    (front ++ x :: back).set front.length y = front ++ y :: back := by
  simp

theorem take_mid (front back : List Str) (x : Str) :
    (front ++ x :: back).take (front.length + 1) = front ++ [x] := by
  simp [List.take_append_eq_append_take]

theorem indexSep_lt {s : Str} {m : Nat} (h : indexSep s = some m) : m < s.length := by
  induction s generalizing m with
  | nil => simp [indexSep] at h
  | cons c cs ih =>
    by_cases hc : c = '/'
    · simp [indexSep, hc] at h
      subst h; simp
    · simp only [indexSep, hc, if_false, Option.map_eq_some'] at h
      obtain ⟨m1, hm1, rfl⟩ := h
      have := ih hm1
      simp; omega

theorem splitFinish_free (front back : List Str) (s : Str) :
    splitFinish (front ++ URLSep :: back, front.length + 1, s) = front ++ ['/' :: s] := by
  unfold splitFinish
  by_cases hs : s = []
  · simp [hs, take_mid, URLSep]
  · have : 0 < s.length := List.length_pos.2 hs
    simp only [Nat.add_sub_cancel, getD_mid, set_mid, this, and_true, Nat.succ_pos, if_true,
      gt_iff_lt, take_mid, URLSep]
    simp

theorem segsB_single (b : Nat) (p : Str) : segsB b [p] = ['/' :: p] := by
  cases b <;> rfl

theorem intercalate_splitOn_sep (s : Str) : List.intercalate ['/'] (s.splitOn '/') = s :=
  List.intercalate_splitOn s '/'

theorem splitLoop_inv (fuel : Nat) : ∀ (front back : List Str) (s : Str),
    s.length < fuel → front.length + 1 ≤ 99 →
    front.length + 1 + back.length = 100 →
    (splitLoop fuel (front ++ URLSep :: back) (front.length + 1) s).map splitFinish =
      some (front ++ segsB (98 - front.length) (s.splitOn '/')) := by
  induction fuel with
  | zero => intro _ _ s h; simp at h
  | succ fuel ih =>
    intro front back s hlen hcnt hroom
    have hfree : '/' ∉ s →
        (some (front ++ URLSep :: back, front.length + 1, s)).map splitFinish =
          some (front ++ segsB (98 - front.length) (s.splitOn '/')) := by
      intro h
      rw [splitOn_sep_free h, segsB_single, Option.map_some', splitFinish_free]
    unfold splitLoop
    by_cases hi : front.length + 1 < SplitPathMAXSize - 1
    · rw [if_pos hi]
      have hi1 : front.length + 1 < 99 := by simpa [SplitPathMAXSize] using hi
      cases hidx : indexSep s with
      | none => exact hfree (indexSep_none.1 hidx)
      | some m =>
        obtain ⟨hpre, hdec⟩ := indexSep_some hidx
        have hm := indexSep_lt hidx
        have hl : (s.drop (m + 1)).length < fuel := by
          simp only [List.length_drop]; omega
        have hsp : s.splitOn '/' = s.take m :: (s.drop (m + 1)).splitOn '/' := by
          conv_lhs => rw [hdec]
          exact splitOn_sep_first hpre
        obtain ⟨q, qs, hq⟩ := List.exists_cons_of_ne_nil (splitOn_sep_ne_nil (s.drop (m + 1)))
        obtain ⟨b, hb⟩ : ∃ b, 98 - front.length = b + 1 := ⟨97 - front.length, by omega⟩
        simp only [Nat.add_sub_cancel, getD_mid, set_mid, gt_iff_lt, Nat.succ_pos, and_true]
        by_cases hm0 : m = 0
        · subst hm0
          simp only [ne_eq, not_true_eq_false, if_false, getD_mid, if_true, and_self]
          rw [ih front back _ hl (by omega) hroom, hsp, hq, hb]
          simp [segsB]
        · have hne : s.take m ≠ [] := by
            intro h
            have h1 : (s.take m).length = 0 := by rw [h]; rfl
            rw [List.length_take] at h1
            omega
          have hne2 : URLSep ++ s.take m ≠ URLSep := by
            intro h
            have := congrArg List.length h
            simp [URLSep] at this
            exact hne (List.length_eq_zero.1 (by simpa using this))
          simp only [ne_eq, hm0, not_false_eq_true, if_true, getD_mid, hne2, if_false]
          obtain ⟨b0, back1, rfl⟩ : ∃ b0 back1, back = b0 :: back1 := by
            cases back with
            | nil => simp at hroom; omega
            | cons b0 back1 => exact ⟨b0, back1, rfl⟩
          have hset : (front ++ (URLSep ++ s.take m) :: b0 :: back1).set (front.length + 1) URLSep =
              (front ++ [URLSep ++ s.take m]) ++ URLSep :: back1 := by
            simp
          rw [hset]
          have hlen2 : front.length + 1 = (front ++ [URLSep ++ s.take m]).length := by simp
          simp only [and_false, if_false]
          rw [hlen2, ih _ back1 _ hl (by simp; omega) (by simp at hroom ⊢; omega), hsp, hq, hb]
          have hb2 : 98 - (front ++ [URLSep ++ s.take m]).length = b := by simp; omega
          rw [hb2]
          simp [segsB, hne, URLSep]
    · rw [if_neg hi]
      have h98 : 98 - front.length = 0 := by simp [SplitPathMAXSize] at hi; omega
      rw [Option.map_some', h98]
      have hfin : splitFinish (front ++ URLSep :: back, front.length + 1, s) = front ++ ['/' :: s] :=
        splitFinish_free front back s
      rw [hfin]
      obtain ⟨q, qs, hq⟩ := List.exists_cons_of_ne_nil (splitOn_sep_ne_nil s)
      have hint := intercalate_splitOn_sep s
      rw [hq] at hint ⊢
      cases qs with
      | nil =>
        have hq2 : q = s := by simpa [List.intercalate] using hint
        simp [segsB, hq2]
      | cons q2 qs2 => simp only [segsB]; rw [hint]

theorem splitPathAux_slash (t : Str) :
    splitPathAux ('/' :: t) = some (segsB 98 (t.splitOn '/')) := by
  unfold splitPathAux
  simp only [List.length_cons, Nat.succ_ne_zero, if_false, List.head?_cons, ne_eq,
    not_true_eq_false]
  unfold splitLoop
  have h0 : indexSep ('/' :: t) = some 0 := by simp [indexSep]
  simp only [SplitPathMAXSize, h0]
  have hrep : (List.replicate 100 ([] : Str)).set 0 URLSep = [] ++ URLSep :: List.replicate 99 [] := by
    rfl
  simp only [Nat.lt_irrefl, false_and, and_false, if_false, ne_eq, not_true_eq_false, gt_iff_lt,
    List.drop_succ_cons, List.drop_zero, hrep]
  have := splitLoop_inv (t.length + 1) [] (List.replicate 99 []) t (by omega) (by simp) (by simp)
  simpa using this

theorem splitPathAux_prepend (c : Char) (t : Str) (hc : c ≠ '/') :
    splitPathAux (c :: t) = splitPathAux ('/' :: c :: t) := by
  unfold splitPathAux
  simp [URLSep, hc]

theorem splitPath_nil : splitPath [] = [URLSep] := rfl

theorem splitPath_slash (t : Str) : splitPath ('/' :: t) = segsB 98 (t.splitOn '/') := by
  simp [splitPath, splitPathAux_slash]

theorem splitPath_other (c : Char) (t : Str) (hc : c ≠ '/') :
    splitPath (c :: t) = segsB 98 ((c :: t).splitOn '/') := by
  simp [splitPath, splitPathAux_prepend c t hc, splitPathAux_slash]

theorem splitPathAux_isSome (s : Str) : (splitPathAux s).isSome = true := by
  cases s with
  | nil => rfl
  | cons c t =>
    by_cases hc : c = '/'
    · subst hc; simp [splitPathAux_slash]
    · simp [splitPathAux_prepend c t hc, splitPathAux_slash]

theorem segsB_eq_pieceSegs (b : Nat) : ∀ (ps : List Str), ps ≠ [] → ps.length ≤ b + 1 →
    segsB b ps = pieceSegs ps := by
  induction b with
  | zero =>
    intro ps hne hlen
    match ps, hne, hlen with
    | [p], _, _ => rw [segsB_single, pieceSegs_single]
  | succ b ih =>
    intro ps
    induction ps with
    | nil => intro h; exact absurd rfl h
    | cons p ps ihp =>
      intro _ hlen
      cases ps with
      | nil => rw [segsB_single, pieceSegs_single]
      | cons q qs =>
        rw [pieceSegs_cons _ (by simp)]
        simp only [segsB]
        by_cases hp : p = []
        · simp only [hp, if_true, List.nil_append]
          exact ihp (by simp) (by simp at hlen ⊢; omega)
        · simp only [hp, if_false]
          rw [ih _ (by simp) (by simp at hlen ⊢; omega)]
          simp

theorem splitOn_sep_length (s : Str) : (s.splitOn '/').length = s.count '/' + 1 := by
  generalize hn : s.length = n
  induction n using Nat.strong_induction_on generalizing s with
  | _ n ih =>
    rcases sep_cases s with h | ⟨pre, rest, hpre, rfl⟩
    · rw [splitOn_sep_free h, List.count_eq_zero_of_not_mem h]; rfl
    · rw [splitOn_sep_first hpre, List.length_cons,
        ih rest.length (by subst hn; simp; omega) rest rfl]
      simp [List.count_append, List.count_eq_zero_of_not_mem hpre]

/-- C10: on every path with fewer than 99 `'/'` bytes `splitPath` returns the
reference segmentation. -/
theorem splitPath_eq_refSegments (path : Str) (h : path.count '/' < 99) :
    splitPath path = refSegments path := by
  rw [refSegments_eq]
  cases path with
  | nil => simp [splitPath_nil, pieceSegs]
  | cons c t =>
    by_cases hc : c = '/'
    · subst hc
      have ht : t.count '/' ≤ 97 := by simp at h; omega
      rw [splitPath_slash, show ('/' :: t) = [] ++ '/' :: t from rfl,
        splitOn_sep_first (by simp), pieceSegs_cons _ (splitOn_sep_ne_nil _),
        segsB_eq_pieceSegs 98 _ (splitOn_sep_ne_nil _) (by rw [splitOn_sep_length]; omega)]
      simp
    · rw [splitPath_other c t hc,
        segsB_eq_pieceSegs 98 _ (splitOn_sep_ne_nil _) (by rw [splitOn_sep_length]; omega)]

theorem splitPath_eq_refSegments_witness :
    ("a/b/c/".toList.count '/' < 99) ∧
    splitPath "a/b/c/".toList = refSegments "a/b/c/".toList ∧
    refSegments "a/b/c/".toList = ["/a".toList, "/b".toList, "/c".toList, "/".toList] ∧
    splitPath "".toList = ["/".toList] ∧ splitPath "/".toList = ["/".toList] ∧
    splitPath "//".toList = ["/".toList] ∧
    splitPath "/a//b".toList = ["/a".toList, "/b".toList] :=
  ⟨by decide, splitPath_eq_refSegments _ (by decide), by decide, by decide, by decide,
    by decide, by decide⟩

/-! ## dispatch: what a call can add to the log -/

theorem Quiet.refl (st : St) : Quiet st st := ⟨[], by simp, by simp⟩

theorem Quiet.trans {s1 s2 s3 : St} (h1 : Quiet s1 s2) (h2 : Quiet s2 s3) : Quiet s1 s3 := by
  obtain ⟨l1, e1, q1⟩ := h1
  obtain ⟨l2, e2, q2⟩ := h2
  refine ⟨l1 ++ l2, by rw [e2, e1, List.append_assoc], ?_⟩
  intro e he
  rcases List.mem_append.1 he with h | h
  · exact q1 e h
  · exact q2 e h

theorem quiet_setAllowHeader (k : Nat) (v : Route) (st : St) :
    Quiet st (setAllowHeader k v (st.emit (Event.attempt k))) := by
  unfold setAllowHeader St.emit
  split
  · exact ⟨[Event.attempt k, Event.setAllow k (allowList v.allowMethods)], by simp,
      by simp [Event.isQuiet]⟩
  · exact ⟨[Event.attempt k], by simp, by simp [Event.isQuiet]⟩

theorem quiet_ofRoute (k : Nat) (v : Route) (st : St) :
    ∃ l, (setAllowHeader k v (st.emit (Event.attempt k))).log = st.log ++ l ∧
      ∀ e ∈ l, e.ofRoute k = true ∧ e.isQuiet = true := by
  unfold setAllowHeader St.emit
  split
  · exact ⟨[Event.attempt k, Event.setAllow k (allowList v.allowMethods)], by simp,
      by simp [Event.isQuiet, Event.ofRoute]⟩
  · exact ⟨[Event.attempt k], by simp, by simp [Event.isQuiet, Event.ofRoute]⟩

theorem serve_miss (a : FastRouter) (k : Nat) (v : Route) (method path : Str) (st : St)
    (h : (v.method == method && shapeMatch v (splitPath path)) = false) :
    serve a k v method path st =
      (setAllowHeader k v (st.emit (Event.attempt k)),
        .ret (v.method == method, shapeMatch v (splitPath path))) := by
  unfold serve
  simp [h]

theorem serve_hit (a : FastRouter) (k : Nat) (v : Route) (method path : Str) (st : St)
    (h : Hit v method path) :
    serve a k v method path st =
      match bindVars (splitPath path) v.varsN
          ((setAllowHeader k v (st.emit (Event.attempt k))).emit (Event.matched k)) with
      | (st2, .panic e) => (st2, .panic e)
      | (st2, .ret ()) => runChain a k v st2 := by
  unfold serve
  simp [h.1, h.2]

theorem bindVars_log (deepPath : List Str) : ∀ (vars : List (Str × Nat)) (st : St),
    ∃ l, (bindVars deepPath vars st).1.log = st.log ++ l ∧
      ∀ e ∈ l, ∃ key val, e = Event.setUserValue key val := by
  intro vars
  induction vars with
  | nil => intro st; exact ⟨[], by simp [bindVars], by simp⟩
  | cons kv rest ih =>
    intro st
    obtain ⟨key, index⟩ := kv
    unfold bindVars
    cases hg : deepPath.get? index with
    | none => exact ⟨[], by simp, by simp⟩
    | some seg =>
      simp only
      split
      · exact ⟨[], by simp, by simp⟩
      · obtain ⟨l, hl, hq⟩ := ih { ctx := st.ctx.setUserValue key (seg.drop 1),
                                    log := st.log ++ [Event.setUserValue key (seg.drop 1)] }
        refine ⟨Event.setUserValue key (seg.drop 1) :: l, by rw [hl]; simp, ?_⟩
        intro e he
        rcases List.mem_cons.1 he with h | h
        · exact ⟨_, _, h⟩
        · exact hq e h

theorem runPre_spec (ev : Nat → Option Bool → Event) : ∀ (fs : List PreHandler) (j : Nat) (st : St),
    ∃ l, (runPre ev fs j st).1.log = st.log ++ l ∧
      (∀ e ∈ l, ∃ j1 res, e = ev j1 res) ∧
      ((∀ j1 res, ev j1 res ∈ l → res = some true) → (runPre ev fs j st).2 = .ret true) ∧
      ((runPre ev fs j st).2 = .ret true → l = (List.range fs.length).map (fun i => ev (j + i) (some true))) := by
  intro fs
  induction fs with
  | nil => intro j st; exact ⟨[], by simp [runPre], by simp, by simp [runPre], by simp⟩
  | cons f fs ih =>
    intro j st
    unfold runPre
    rcases hf : f st.ctx with ⟨c, b | p⟩
    · cases b with
      | false =>
        refine ⟨[ev j (some false)], by simp, ?_, ?_, ?_⟩
        · intro e he; exact ⟨j, some false, by simpa using he⟩
        · intro h; have := h j (some false) (by simp); simp at this
        · intro h; simp at h
      | true =>
        obtain ⟨l, hl, h1, h2, h3⟩ := ih (j + 1) { ctx := c, log := st.log ++ [ev j (some true)] }
        refine ⟨ev j (some true) :: l, by simp only; rw [hl]; simp, ?_, ?_, ?_⟩
        · intro e he
          rcases List.mem_cons.1 he with h | h
          · exact ⟨j, some true, h⟩
          · exact h1 e h
        · intro h
          exact h2 (fun j1 res hm => h j1 res (List.mem_cons_of_mem _ hm))
        · intro h
          simp only at h
          rw [h3 h, List.length_cons, List.range_succ_eq_map]
          simp [Function.comp_def, Nat.add_assoc, Nat.add_comm 1]
    · refine ⟨[ev j none], by simp, ?_, ?_, ?_⟩
      · intro e he; exact ⟨j, none, by simpa using he⟩
      · intro h; have := h j none (by simp); simp at this
      · intro h; simp at h

theorem emit_log (st : St) (e : Event) : (st.emit e).log = st.log ++ [e] := rfl

theorem emit_ctx (st : St) (e : Event) : (st.emit e).ctx = st.ctx := rfl

theorem runChain_spec (a : FastRouter) (k : Nat) (v : Route) (st : St) :
    ∃ l, (runChain a k v st).1.log = st.log ++ l ∧
      (∀ e ∈ l, (∃ j res, e = Event.globalPre j res) ∨ (∃ j res, e = Event.routePre k j res) ∨
        e = Event.handler k) ∧
      ((∀ e ∈ l, e.isStop = false) → Event.handler k ∈ l) ∧
      (∀ mp, (runChain a k v st).2 = .ret mp → mp = (true, true)) := by
  unfold runChain
  obtain ⟨l1, hl1, hq1, hr1, -⟩ := runPre_spec Event.globalPre a.preHandlers 0 st
  rcases hg : runPre Event.globalPre a.preHandlers 0 st with ⟨st3, b | p⟩
  · rw [hg] at hl1 hr1
    cases b with
    | false =>
      refine ⟨l1, hl1, ?_, ?_, ?_⟩
      · intro e he; exact Or.inl (hq1 e he)
      · intro h
        have := hr1 (fun j1 res hm => by
          have := h _ hm
          simpa [Event.isStop] using this)
        simp at this
      · intro mp h; simpa using h.symm
    | true =>
      simp only
      obtain ⟨l2, hl2, hq2, hr2, -⟩ := runPre_spec (Event.routePre k) v.preHandlers 0 st3
      rcases hr : runPre (Event.routePre k) v.preHandlers 0 st3 with ⟨st4, b2 | p2⟩
      · rw [hr] at hl2 hr2
        simp only at hl1 hl2
        cases b2 with
        | false =>
          refine ⟨l1 ++ l2, by simp only; rw [hl2, hl1, List.append_assoc], ?_, ?_, ?_⟩
          · intro e he
            rcases List.mem_append.1 he with h | h
            · exact Or.inl (hq1 e h)
            · exact Or.inr (Or.inl (hq2 e h))
          · intro h
            have := hr2 (fun j1 res hm => by
              have := h _ (List.mem_append_right _ hm)
              simpa [Event.isStop] using this)
            simp at this
          · intro mp h; simpa using h.symm
        | true =>
          simp only
          rcases hh : v.handler st4.ctx with ⟨c, u | p3⟩
          · refine ⟨l1 ++ l2 ++ [Event.handler k], by simp only; rw [hl2, hl1]; simp, ?_, ?_, ?_⟩
            · intro e he
              rcases List.mem_append.1 he with h | h
              · rcases List.mem_append.1 h with h | h
                · exact Or.inl (hq1 e h)
                · exact Or.inr (Or.inl (hq2 e h))
              · exact Or.inr (Or.inr (by simpa using h))
            · intro _; simp
            · intro mp h; simpa using h.symm
          · refine ⟨l1 ++ l2 ++ [Event.handler k], by simp only; rw [hl2, hl1]; simp, ?_, ?_, ?_⟩
            · intro e he
              rcases List.mem_append.1 he with h | h
              · rcases List.mem_append.1 h with h | h
                · exact Or.inl (hq1 e h)
                · exact Or.inr (Or.inl (hq2 e h))
              · exact Or.inr (Or.inr (by simpa using h))
            · intro _; simp
            · intro mp h; simp at h
      · rw [hr] at hl2 hr2
        simp only at hl1 hl2
        refine ⟨l1 ++ l2, by simp only; rw [hl2, hl1, List.append_assoc], ?_, ?_, ?_⟩
        · intro e he
          rcases List.mem_append.1 he with h | h
          · exact Or.inl (hq1 e h)
          · exact Or.inr (Or.inl (hq2 e h))
        · intro h
          have := hr2 (fun j1 res hm => by
            have := h _ (List.mem_append_right _ hm)
            simpa [Event.isStop] using this)
          simp at this
        · intro mp h; simp at h
  · rw [hg] at hl1 hr1
    refine ⟨l1, hl1, ?_, ?_, ?_⟩
    · intro e he; exact Or.inl (hq1 e he)
    · intro h
      have := hr1 (fun j1 res hm => by
        have := h _ hm
        simpa [Event.isStop] using this)
      simp at this
    · intro mp h; simp at h

theorem runChain_ofRoute (a : FastRouter) (k : Nat) (v : Route) (st : St) :
    ∃ l, (runChain a k v st).1.log = st.log ++ l ∧
      ∀ e ∈ l, e.ofRoute k = true ∧ e.isTail = false := by
  obtain ⟨l, hl, hq, -, -⟩ := runChain_spec a k v st
  refine ⟨l, hl, ?_⟩
  intro e he
  rcases hq e he with ⟨j, res, rfl⟩ | ⟨j, res, rfl⟩ | rfl <;> simp [Event.ofRoute, Event.isTail]

/-- What `serve` adds to the log belongs to its route; beyond the quiet
events of the attempt it adds something only on a hit. -/
theorem serve_log (a : FastRouter) (k : Nat) (v : Route) (method path : Str) (st : St) :
    ∃ l, (serve a k v method path st).1.log = st.log ++ l ∧
      ∀ e ∈ l, e.ofRoute k = true ∧ e.isTail = false ∧
        (e.isQuiet = true ∨ Hit v method path) := by
  by_cases h : (v.method == method && shapeMatch v (splitPath path)) = false
  · rw [serve_miss a k v method path st h]
    obtain ⟨l, hl, hq⟩ := quiet_ofRoute k v st
    refine ⟨l, hl, fun e he => ⟨(hq e he).1, ?_, Or.inl (hq e he).2⟩⟩
    have := (hq e he).2
    cases e <;> simp_all [Event.isQuiet, Event.isTail]
  · have hh : Hit v method path := by
      simp only [Bool.and_eq_false_imp, beq_iff_eq, not_forall, Bool.not_eq_false] at h
      exact ⟨h.1, h.2⟩
    rw [serve_hit a k v method path st hh]
    obtain ⟨l0, hl0, hq0⟩ := quiet_ofRoute k v st
    obtain ⟨l1, hl1, hq1⟩ := bindVars_log (splitPath path) v.varsN
      ((setAllowHeader k v (st.emit (Event.attempt k))).emit (Event.matched k))
    have base : ∀ e ∈ l0 ++ Event.matched k :: l1,
        e.ofRoute k = true ∧ e.isTail = false ∧ (e.isQuiet = true ∨ Hit v method path) := by
      intro e he
      rcases List.mem_append.1 he with h1 | h1
      · have := (hq0 e h1)
        refine ⟨this.1, ?_, Or.inl this.2⟩
        have h2 := this.2
        cases e <;> simp_all [Event.isQuiet, Event.isTail]
      · rcases List.mem_cons.1 h1 with h2 | h2
        · subst h2; exact ⟨by simp [Event.ofRoute], by simp [Event.isTail], Or.inr hh⟩
        · obtain ⟨key, val, rfl⟩ := hq1 e h2
          exact ⟨by simp [Event.ofRoute], by simp [Event.isTail], Or.inr hh⟩
    rcases hb : bindVars (splitPath path) v.varsN
      ((setAllowHeader k v (st.emit (Event.attempt k))).emit (Event.matched k)) with ⟨st2, u | p⟩
    · rw [hb] at hl1
      rw [emit_log] at hl1
      simp only
      obtain ⟨l2, hl2, hq2⟩ := runChain_ofRoute a k v st2
      refine ⟨l0 ++ Event.matched k :: l1 ++ l2, by rw [hl2, hl1, hl0]; simp, ?_⟩
      intro e he
      rcases List.mem_append.1 he with h1 | h1
      · exact base e h1
      · exact ⟨(hq2 e h1).1, (hq2 e h1).2, Or.inr hh⟩
    · rw [hb] at hl1
      rw [emit_log] at hl1
      simp only
      exact ⟨l0 ++ Event.matched k :: l1, by rw [hl1, hl0]; simp, base⟩

theorem passOne_log (a : FastRouter) (method path : Str) : ∀ (ks : List Nat) (m0 p0 : Bool) (st : St),
    ∃ l, (passOne a method path ks m0 p0 st).1.log = st.log ++ l ∧
      ∀ e ∈ l, ∃ k ∈ ks, ∃ v, a.routes.get? k = some v ∧ e.ofRoute k = true ∧
        e.isTail = false ∧ (e.isQuiet = true ∨ Hit v method path) := by
  intro ks
  induction ks with
  | nil => intro m0 p0 st; exact ⟨[], by simp [passOne], by simp⟩
  | cons k ks ih =>
    intro m0 p0 st
    unfold passOne
    cases hg : a.routes.get? k with
    | none => exact ⟨[], by simp, by simp⟩
    | some v =>
      simp only
      obtain ⟨l1, hl1, hq1⟩ := serve_log a k v method path st
      have base : ∀ e ∈ l1, ∃ k1 ∈ k :: ks, ∃ v, a.routes.get? k1 = some v ∧ e.ofRoute k1 = true ∧
          e.isTail = false ∧ (e.isQuiet = true ∨ Hit v method path) :=
        fun e he => ⟨k, List.mem_cons_self _ _, v, hg, hq1 e he⟩
      rcases hs : serve a k v method path st with ⟨st1, mp | e⟩
      · obtain ⟨m1, p1⟩ := mp
        rw [hs] at hl1
        simp only at hl1 ⊢
        split
        · exact ⟨l1, hl1, base⟩
        · obtain ⟨l2, hl2, hq2⟩ := ih m1 p1 st1
          refine ⟨l1 ++ l2, by rw [hl2, hl1, List.append_assoc], ?_⟩
          intro e he
          rcases List.mem_append.1 he with h | h
          · exact base e h
          · obtain ⟨k1, hk1, rest⟩ := hq2 e h
            exact ⟨k1, List.mem_cons_of_mem _ hk1, rest⟩
      · rw [hs] at hl1
        exact ⟨l1, hl1, base⟩

theorem tryWinner_log (a : FastRouter) (method path : Str) (deepLen idx : Nat) (m p : Bool)
    (st : St) :
    ∃ l, (tryWinner a method path deepLen idx m p st).1.log = st.log ++ l ∧
      ∀ e ∈ l, deepLen > 0 ∧ ∃ v, a.routes.get? idx = some v ∧ e.ofRoute idx = true ∧
        e.isTail = false ∧ (e.isQuiet = true ∨ Hit v method path) := by
  unfold tryWinner
  by_cases hd : deepLen > 0
  · rw [if_pos hd]
    cases hg : a.routes.get? idx with
    | none => exact ⟨[], by simp, by simp⟩
    | some v =>
      simp only
      obtain ⟨l1, hl1, hq1⟩ := serve_log a idx v method path st
      rcases hs : serve a idx v method path st with ⟨st1, mp | e⟩
      · obtain ⟨m1, p1⟩ := mp
        rw [hs] at hl1
        simp only at hl1 ⊢
        refine ⟨l1, ?_, fun e he => ⟨hd, v, rfl, hq1 e he⟩⟩
        split <;> exact hl1
      · rw [hs] at hl1
        exact ⟨l1, hl1, fun e he => ⟨hd, v, rfl, hq1 e he⟩⟩
  · rw [if_neg hd]
    exact ⟨[], by simp, by simp⟩

theorem finish_log (a : FastRouter) (m p : Bool) (st : St) :
    ∃ l, (finish a m p st).1.log = st.log ++ l ∧ ∀ e ∈ l, e.isTail = true := by
  unfold finish
  split
  · split
    · exact ⟨[Event.notFoundHook], by simp, by simp [Event.isTail]⟩
    · exact ⟨[Event.notFoundDefault], by simp, by simp [Event.isTail]⟩
  · split
    · split
      · split
        · exact ⟨[Event.notAllowedHook], by simp, by simp [Event.isTail]⟩
        · exact ⟨[Event.notAllowedHook, Event.setStatus 405], by simp, by simp [Event.isTail]⟩
      · exact ⟨[Event.setStatus 405], by simp, by simp [Event.isTail]⟩
    · exact ⟨[], by simp, by simp⟩

theorem recoverFrom_log (a : FastRouter) (err : Str) (st : St) :
    ∃ l, (recoverFrom a err st).1.log = st.log ++ l ∧ ∀ e ∈ l, e.isTail = true := by
  unfold recoverFrom
  split
  · split
    · exact ⟨[Event.recoverHook err], by simp, by simp [Event.isTail]⟩
    · exact ⟨[Event.recoverHook err, Event.defaultRecover err], by simp, by simp [Event.isTail]⟩
  · exact ⟨[Event.defaultRecover err], by simp, by simp [Event.isTail]⟩

theorem exactPass_log (a : FastRouter) (method path : Str) (st : St) :
    ∃ l, (exactPass a method path st).1.log = st.log ++ l ∧
      ∀ e ∈ l, RouteEvent a method path e := by
  unfold exactPass
  cases hb : mapGet a.indexRoutes path with
  | none => exact ⟨[], by simp, by simp⟩
  | some hs =>
    obtain ⟨l, hl, hq⟩ := passOne_log a method path hs false false st
    refine ⟨l, hl, ?_⟩
    intro e he
    obtain ⟨k, hk, v, hv, rest⟩ := hq e he
    exact ⟨k, v, Or.inl ⟨hs, hb, hk⟩, hv, rest⟩

theorem fallbackPass_log (a : FastRouter) (method path : Str) (m p : Bool) (st : St) :
    ∃ l, (fallbackPass a method path m p st).1.log = st.log ++ l ∧
      ∀ e ∈ l, RouteEvent a method path e := by
  unfold fallbackPass
  simp only
  obtain ⟨l2, hl2, hq2⟩ := tryWinner_log a method path (scan a path).prefixDeepLen
    (scan a path).prefixMaxDeep m p st
  have hq2' : ∀ e ∈ l2, RouteEvent a method path e := by
    intro e he
    obtain ⟨hd, v, hv, rest⟩ := hq2 e he
    exact ⟨_, v, Or.inr (Or.inl ⟨hd, rfl⟩), hv, rest⟩
  rcases hr2 : tryWinner a method path (scan a path).prefixDeepLen
    (scan a path).prefixMaxDeep m p st with ⟨st2, f2 | e2⟩
  · rw [hr2] at hl2
    simp only at hl2
    cases f2 with
    | done => exact ⟨l2, hl2, hq2'⟩
    | next m2 p2 =>
      simp only
      obtain ⟨l3, hl3, hq3⟩ := tryWinner_log a method path (scan a path).normalDeepLen
        (scan a path).normalMaxDeep m2 p2 st2
      refine ⟨l2 ++ l3, by rw [hl3, hl2, List.append_assoc], ?_⟩
      intro e he
      rcases List.mem_append.1 he with h | h
      · exact hq2' e h
      · obtain ⟨hd, v, hv, rest⟩ := hq3 e h
        exact ⟨_, v, Or.inr (Or.inr ⟨hd, rfl⟩), hv, rest⟩
  · rw [hr2] at hl2
    exact ⟨l2, hl2, hq2'⟩

theorem routeRequest_log (a : FastRouter) (method path : Str) (st : St) :
    ∃ l, (routeRequest a method path st).1.log = st.log ++ l ∧
      ∀ e ∈ l, e.isTail = true ∨ RouteEvent a method path e := by
  unfold routeRequest
  obtain ⟨l1, hl1, hq1⟩ := exactPass_log a method path st
  rcases hr1 : exactPass a method path st with ⟨st1, f1 | e1⟩
  · rw [hr1] at hl1
    simp only at hl1
    cases f1 with
    | done => exact ⟨l1, hl1, fun e he => Or.inr (hq1 e he)⟩
    | next m1 p1 =>
      simp only
      obtain ⟨l2, hl2, hq2⟩ := fallbackPass_log a method path m1 p1 st1
      have h12 : ∀ e ∈ l1 ++ l2, e.isTail = true ∨ RouteEvent a method path e := by
        intro e he
        rcases List.mem_append.1 he with h | h
        · exact Or.inr (hq1 e h)
        · exact Or.inr (hq2 e h)
      rcases hr2 : fallbackPass a method path m1 p1 st1 with ⟨st2, f2 | e2⟩
      · rw [hr2] at hl2
        simp only at hl2
        cases f2 with
        | done => exact ⟨l1 ++ l2, by rw [hl2, hl1, List.append_assoc], h12⟩
        | next m2 p2 =>
          simp only
          obtain ⟨l4, hl4, hq4⟩ := finish_log a m2 p2 st2
          refine ⟨l1 ++ l2 ++ l4, by rw [hl4, hl2, hl1]; simp, ?_⟩
          intro e he
          rcases List.mem_append.1 he with h | h
          · exact h12 e h
          · exact Or.inl (hq4 e h)
      · rw [hr2] at hl2
        exact ⟨l1 ++ l2, by simp only at hl2 ⊢; rw [hl2, hl1, List.append_assoc], h12⟩
  · rw [hr1] at hl1
    exact ⟨l1, hl1, fun e he => Or.inr (hq1 e he)⟩

/-- Every event `Handler` logs is an event of its tail or deferred function,
or comes from a match attempt on a route it attempts. -/
theorem Handler_log (a : FastRouter) (st : St) :
    ∃ l, (Handler a st).1.log = st.log ++ l ∧
      ∀ e ∈ l, e.isTail = true ∨ RouteEvent a st.ctx.method st.ctx.path e := by
  unfold Handler
  simp only
  split
  · exact ⟨[Event.setStatus 414], by simp, by simp [Event.isTail]⟩
  · obtain ⟨l1, hl1, hq1⟩ := routeRequest_log a st.ctx.method st.ctx.path st
    rcases hr : routeRequest a st.ctx.method st.ctx.path st with ⟨st1, u | err⟩
    · rw [hr] at hl1
      exact ⟨l1, hl1, hq1⟩
    · rw [hr] at hl1
      simp only at hl1 ⊢
      obtain ⟨l2, hl2, hq2⟩ := recoverFrom_log a err st1
      refine ⟨l1 ++ l2, by rw [hl2, hl1, List.append_assoc], ?_⟩
      intro e he
      rcases List.mem_append.1 he with h | h
      · exact hq1 e h
      · exact Or.inl (hq2 e h)

/-! ## the registry invariant -/

theorem mapGet_mapSet_same {β : Type} (m : List (Str × β)) (k : Str) (v : β) :
    mapGet (mapSet m k v) k = some v := by
  induction m with
  | nil => simp [mapSet, mapGet]
  | cons kv m ih =>
    obtain ⟨k1, v1⟩ := kv
    by_cases h : k1 = k
    · simp [mapSet, mapGet, h]
    · simp [mapSet, mapGet, h, ih]

theorem mapGet_mapSet_ne {β : Type} (m : List (Str × β)) (k k2 : Str) (v : β) (h : k2 ≠ k) :
    mapGet (mapSet m k v) k2 = mapGet m k2 := by
  induction m with
  | nil => simp [mapSet, mapGet, Ne.symm h]
  | cons kv m ih =>
    obtain ⟨k1, v1⟩ := kv
    by_cases h1 : k1 = k
    · subst h1; simp [mapSet, mapGet, Ne.symm h]
    · by_cases h2 : k1 = k2
      · subst h2; simp [mapSet, mapGet, h]
      · simp [mapSet, mapGet, h1, h2, ih]

theorem routeOK_erase (r : Route) : RouteOK r.erase ↔ RouteOK r := Iff.rfl

theorem erase_get? {l1 l2 : List Route} (h : l1.map Route.erase = l2.map Route.erase) (k : Nat) :
    (l1.get? k).map Route.erase = (l2.get? k).map Route.erase := by
  have := congrArg (fun l => l.get? k) h
  simpa [List.get?_eq_getElem?] using this

theorem erase_length {l1 l2 : List Route} (h : l1.map Route.erase = l2.map Route.erase) :
    l1.length = l2.length := by
  have := congrArg List.length h
  simpa using this

theorem set_get?_self {α : Type} : ∀ (l : List α) (k : Nat) (x : α),
    l.get? k = some x → l.set k x = l := by
  intro l
  induction l with
  | nil => intro k x h; simp at h
  | cons y ys ih =>
    intro k x h
    cases k with
    | zero => simp at h; simp [h]
    | succ k => simp at h; simp [ih k x (by simpa [List.get?_eq_getElem?] using h)]

theorem erase_set (routes : List Route) (k : Nat) (v : Route) (am : List Str)
    (hg : routes.get? k = some v) :
    (routes.set k { v with allowMethods := am }).map Route.erase = routes.map Route.erase := by
  rw [List.map_set]
  have h1 : ({ v with allowMethods := am } : Route).erase = v.erase := rfl
  rw [h1]
  apply set_get?_self
  simp [List.get?_eq_getElem?] at hg ⊢
  exact ⟨v, hg, rfl⟩

theorem erase_deepPath {v1 v : Route} (h : v1.erase = v.erase) : v1.deepPath = v.deepPath :=
  show v1.erase.deepPath = v.erase.deepPath from congrArg Route.deepPath h

theorem erase_method {v1 v : Route} (h : v1.erase = v.erase) : v1.method = v.method :=
  show v1.erase.method = v.erase.method from congrArg Route.method h

theorem erase_prefixStr {v1 v : Route} (h : v1.erase = v.erase) : v1.prefixStr = v.prefixStr :=
  show v1.erase.prefixStr = v.erase.prefixStr from congrArg Route.prefixStr h

theorem mergeLoop_erase (r : Route) : ∀ (h : List Nat) (routes : List Route),
    (mergeLoop r h routes).1.map Route.erase = routes.map Route.erase := by
  intro h
  induction h with
  | nil => intro routes; rfl
  | cons k ks ih =>
    intro routes
    unfold mergeLoop
    cases hg : routes.get? k with
    | none => exact ih routes
    | some v =>
      simp only
      split
      · split
        · rfl
        · rw [ih, erase_set routes k v _ hg]
      · exact ih routes

theorem mergeLoop_none (r : Route) : ∀ (h : List Nat) (routes : List Route),
    (mergeLoop r h routes).2 = none →
    ∀ k ∈ h, ∀ v, routes.get? k = some v → v.deepPath.length = r.deepPath.length →
      v.method ≠ r.method := by
  intro h
  induction h with
  | nil => intro routes _ k hk; simp at hk
  | cons k0 ks ih =>
    intro routes hres k hk v hv hlen
    unfold mergeLoop at hres
    cases hg : routes.get? k0 with
    | none =>
      rw [hg] at hres
      rcases List.mem_cons.1 hk with h1 | h1
      · subst h1; rw [hg] at hv; simp at hv
      · exact ih routes hres k h1 v hv hlen
    | some v0 =>
      rw [hg] at hres
      simp only at hres
      by_cases hl0 : v0.deepPath.length = r.deepPath.length
      · rw [if_pos hl0] at hres
        by_cases hm0 : v0.method = r.method
        · rw [if_pos hm0] at hres; simp at hres
        · rw [if_neg hm0] at hres
          rcases List.mem_cons.1 hk with h1 | h1
          · subst h1; rw [hg] at hv; cases hv; exact hm0
          · -- the later iterations read the updated slice
            have he := @erase_get? (routes.set k0
              { v0 with allowMethods := setAdd v0.allowMethods r.method }) routes
              (erase_set routes k0 v0 _ hg) k
            rw [hv] at he
            cases hv1 : (routes.set k0
              { v0 with allowMethods := setAdd v0.allowMethods r.method }).get? k with
            | none => rw [hv1] at he; simp at he
            | some v1 =>
              rw [hv1] at he
              simp only [Option.map_some', Option.some.injEq] at he
              have hd : v1.deepPath = v.deepPath := erase_deepPath he
              have hm : v1.method = v.method := erase_method he
              have := ih _ hres k h1 v1 hv1 (by rw [hd]; exact hlen)
              rwa [hm] at this
      · rw [if_neg hl0] at hres
        rcases List.mem_cons.1 hk with h1 | h1
        · subst h1; rw [hg] at hv; cases hv; exact absurd hlen hl0
        · exact ih routes hres k h1 v hv hlen

theorem get?_snoc {α : Type} (l : List α) (x y : α) (k : Nat) :
    (l ++ [x]).get? k = some y ↔ (l.get? k = some y ∨ (k = l.length ∧ y = x)) := by
  simp only [List.get?_eq_getElem?]
  by_cases h : k < l.length
  · rw [List.getElem?_append_left h]
    constructor
    · intro h1; exact Or.inl h1
    · rintro (h1 | ⟨h1, _⟩)
      · exact h1
      · omega
  · rw [List.getElem?_append_right (by omega)]
    have hn : l[k]? = none := List.getElem?_eq_none (by omega)
    rw [hn]
    by_cases hk : k = l.length
    · subst hk; simp [eq_comm]
    · have : k - l.length ≠ 0 := by omega
      obtain ⟨j, hj⟩ := Nat.exists_eq_succ_of_ne_zero this
      rw [hj]; simp [hk]

theorem get?_lt {α : Type} {l : List α} {k : Nat} {x : α} (h : l.get? k = some x) :
    k < l.length := by
  rw [List.get?_eq_getElem?] at h
  exact (List.getElem?_eq_some_iff.1 h).1

theorem genRoute_ok {method urlPath : Str} {b : Bool} {handler : RequestHandler}
    {pre : List PreHandler} {r : Route}
    (h : genRoute method urlPath b handler pre = .ret r) :
    RouteOK r ∧ r.method = method ∧ r.urlPath = urlPath ∧ r.isPrefixHandler = b ∧
      r.handler = handler ∧ r.preHandlers = pre ∧ r.allowMethods = [method] := by
  unfold genRoute at h
  simp only at h
  rcases hl : genRouteLoop urlPath (splitPath urlPath) 0 [] [] with ⟨varN, pfx⟩ | p
  · rw [hl] at h
    simp only [Outcome.ret.injEq] at h
    subst h
    exact ⟨⟨rfl, pfx, hl, rfl⟩, rfl, rfl, rfl, rfl, rfl, rfl⟩
  · rw [hl] at h; simp at h

/-- What a registration that returns normally does to the router. -/
theorem handle_ok {a a1 : FastRouter} {method urlPath : Str} {b : Bool}
    {handler : RequestHandler} {pre : List PreHandler}
    (h : handle a method urlPath b handler pre = .ok a1) :
    ∃ r routes1, genRoute method urlPath b handler pre = .ret r ∧
      routes1.map Route.erase = a.routes.map Route.erase ∧
      a1.routes = routes1 ++ [r] ∧
      a1.indexRoutes = mapSet a.indexRoutes r.prefixStr
        ((mapGet a.indexRoutes r.prefixStr).getD [] ++ [a.routes.length]) ∧
      (∀ k ∈ (mapGet a.indexRoutes r.prefixStr).getD [], ∀ v, a.routes.get? k = some v →
        v.deepPath.length = r.deepPath.length → v.method ≠ r.method) ∧
      a1.NotFound = a.NotFound ∧ a1.NotAllowed = a.NotAllowed ∧ a1.Recover = a.Recover ∧
      a1.preHandlers = a.preHandlers ∧ urlPath.head? = some '/' := by
  unfold handle at h
  by_cases h1 : urlPath = []
  · rw [if_pos h1] at h; simp at h
  · rw [if_neg h1] at h
    by_cases h2 : urlPath.head? ≠ some '/'
    · rw [if_pos h2] at h; simp at h
    · rw [if_neg h2] at h
      rcases hg : genRoute method urlPath b handler pre with r | p
      · rw [hg] at h
        simp only at h
        cases hb : mapGet a.indexRoutes r.prefixStr with
        | none =>
          rw [hb] at h
          simp only [Registered.ok.injEq] at h
          subst h
          exact ⟨r, a.routes, rfl, rfl, rfl, by simp [hb], by simp [hb], rfl, rfl, rfl, rfl,
            by simpa using h2⟩
        | some bucket =>
          rw [hb] at h
          simp only at h
          have he := mergeLoop_erase r bucket a.routes
          have hn := mergeLoop_none r bucket a.routes
          rcases hm : mergeLoop r bucket a.routes with ⟨routes1, _ | p⟩
          · rw [hm] at h he hn
            simp only [Registered.ok.injEq] at h
            subst h
            refine ⟨r, routes1, rfl, he, rfl, ?_, ?_, rfl, rfl, rfl, rfl, by simpa using h2⟩
            · simp [hb, erase_length he]
            · simpa [hb] using hn rfl
          · rw [hm] at h; simp at h
      · rw [hg] at h; simp at h

theorem WF_new : WF NewRouter := by
  refine ⟨?_, ?_, ?_, ?_⟩ <;> simp [NewRouter, mapGet]

theorem WF_handle {a a1 : FastRouter} {method urlPath : Str} {b : Bool}
    {handler : RequestHandler} {pre : List PreHandler} (hw : WF a)
    (h : handle a method urlPath b handler pre = .ok a1) : WF a1 := by
  obtain ⟨r, routes1, hg, he, hr, hi, hu, -, -, -, -, -⟩ := handle_ok h
  have hrok := (genRoute_ok hg).1
  have hlen := erase_length he
  -- a route of the new router is an old one up to `allowMethods`, or the new one
  have old : ∀ k x, routes1.get? k = some x →
      ∃ v, a.routes.get? k = some v ∧ x.erase = v.erase := by
    intro k x hx
    have := erase_get? he k
    rw [hx] at this
    cases hv : a.routes.get? k with
    | none => rw [hv] at this; simp at this
    | some v => rw [hv] at this; exact ⟨v, rfl, by simpa using this⟩
  have old' : ∀ k v, a.routes.get? k = some v →
      ∃ x, routes1.get? k = some x ∧ x.erase = v.erase := by
    intro k v hv
    have := erase_get? he k
    rw [hv] at this
    cases hx : routes1.get? k with
    | none => rw [hx] at this; simp at this
    | some x => rw [hx] at this; exact ⟨x, rfl, by simpa using this⟩
  have split : ∀ k x, a1.routes.get? k = some x →
      (∃ v, a.routes.get? k = some v ∧ x.erase = v.erase) ∨ (k = a.routes.length ∧ x = r) := by
    intro k x hx
    rw [hr, get?_snoc] at hx
    rcases hx with h1 | ⟨h1, h2⟩
    · exact Or.inl (old k x h1)
    · exact Or.inr ⟨by rw [h1, hlen], h2⟩
  refine ⟨?_, ?_, ?_, ?_⟩
  · intro k x hx
    rcases split k x hx with ⟨v, hv, hxe⟩ | ⟨-, rfl⟩
    · have := hw.routeOK k v hv
      rw [← routeOK_erase] at this ⊢
      rwa [hxe]
    · exact hrok
  · intro key bucket hb k hk
    rw [hi] at hb
    by_cases hkey : key = r.prefixStr
    · subst hkey
      rw [mapGet_mapSet_same] at hb
      simp only [Option.some.injEq] at hb
      subst hb
      rcases List.mem_append.1 hk with h1 | h1
      · cases hb0 : mapGet a.indexRoutes r.prefixStr with
        | none => rw [hb0] at h1; simp at h1
        | some b0 =>
          rw [hb0] at h1
          obtain ⟨v, hv, hp⟩ := hw.sound _ b0 hb0 k (by simpa using h1)
          obtain ⟨x, hx, hxe⟩ := old' k v hv
          refine ⟨x, by rw [hr, get?_snoc]; exact Or.inl hx, ?_⟩
          rw [erase_prefixStr hxe, hp]
      · simp only [List.mem_singleton] at h1
        subst h1
        exact ⟨r, by rw [hr, get?_snoc]; exact Or.inr ⟨hlen.symm, rfl⟩, rfl⟩
    · rw [mapGet_mapSet_ne _ _ _ _ hkey] at hb
      obtain ⟨v, hv, hp⟩ := hw.sound _ bucket hb k hk
      obtain ⟨x, hx, hxe⟩ := old' k v hv
      refine ⟨x, by rw [hr, get?_snoc]; exact Or.inl hx, ?_⟩
      rw [erase_prefixStr hxe, hp]
  · intro k x hx
    rw [hi]
    rcases split k x hx with ⟨v, hv, hxe⟩ | ⟨hk, rfl⟩
    · obtain ⟨b0, hb0, hk0⟩ := hw.complete k v hv
      rw [erase_prefixStr hxe]
      by_cases hkey : v.prefixStr = r.prefixStr
      · rw [hkey, mapGet_mapSet_same]
        rw [hkey] at hb0
        exact ⟨_, rfl, by rw [hb0]; simp [hk0]⟩
      · rw [mapGet_mapSet_ne _ _ _ _ hkey]
        exact ⟨b0, hb0, hk0⟩
    · rw [mapGet_mapSet_same]
      exact ⟨_, rfl, by simp [hk]⟩
  · intro k1 k2 x1 x2 h1 h2 hp hl hm
    rcases split k1 x1 h1 with ⟨v1, hv1, he1⟩ | ⟨hk1, rfl⟩
    · rcases split k2 x2 h2 with ⟨v2, hv2, he2⟩ | ⟨hk2, rfl⟩
      · exact hw.unique k1 k2 v1 v2 hv1 hv2
          (by rw [← erase_prefixStr he1, ← erase_prefixStr he2, hp])
          (by rw [← erase_deepPath he1, ← erase_deepPath he2, hl])
          (by rw [← erase_method he1, ← erase_method he2, hm])
      · exfalso
        obtain ⟨b0, hb0, hk0⟩ := hw.complete k1 v1 hv1
        rw [← erase_prefixStr he1, hp] at hb0
        exact hu k1 (by rw [hb0]; simpa using hk0) v1 hv1
          (by rw [← erase_deepPath he1, hl]) (by rw [← erase_method he1, hm])
    · rcases split k2 x2 h2 with ⟨v2, hv2, he2⟩ | ⟨hk2, rfl⟩
      · exfalso
        obtain ⟨b0, hb0, hk0⟩ := hw.complete k2 v2 hv2
        rw [← erase_prefixStr he2, ← hp] at hb0
        exact hu k2 (by rw [hb0]; simpa using hk0) v2 hv2
          (by rw [← erase_deepPath he2, ← hl]) (by rw [← erase_method he2, ← hm])
      · rw [hk1, hk2]

/-- Every router built by registrations satisfies the registry invariant. -/
theorem Built.wf {a : FastRouter} (h : Built a) : WF a := by
  induction h with
  | new => exact WF_new
  | handle method urlPath b handler pre _ hh ih => exact WF_handle ih hh
  | use f _ ih => exact ⟨ih.routeOK, ih.sound, ih.complete, ih.unique⟩
  | setNotFound f _ ih => exact ⟨ih.routeOK, ih.sound, ih.complete, ih.unique⟩
  | setNotAllowed f _ ih => exact ⟨ih.routeOK, ih.sound, ih.complete, ih.unique⟩
  | setRecover f _ ih => exact ⟨ih.routeOK, ih.sound, ih.complete, ih.unique⟩

/-! ## dispatch when no route has the shape of the request -/

theorem shapeMatch_iff (v : Route) (segs : List Str) :
    shapeMatch v segs = true ↔ ShapeOK v segs := by
  unfold shapeMatch ShapeOK
  generalize v.deepPath.getLastD [] = x
  generalize segs.getLastD [] = y
  by_cases h1 : v.isPrefixHandler = true ∧ v.deepPath.length ≤ segs.length
  · simp [h1.1, h1.2]
  · have h1' : ¬ ((v.isPrefixHandler && decide (v.deepPath.length ≤ segs.length)) = true) := by
      simpa using h1
    simp only [h1', if_false, h1, or_false]
    by_cases ha : x = URLSep <;> by_cases hb : y = URLSep <;> simp [ha, hb]

theorem scanStep_ok (all : List Route) (path : Str) (sc : Scan) (j : Nat) (r : Route)
    (hj : all.get? j = some r) (h : ScanOK all path sc) :
    ScanOK all path (scanStep path sc j r) := by
  unfold scanStep
  by_cases hp : r.prefixStr.isPrefixOf path = true
  · rw [if_pos hp]
    split
    · exact ⟨fun _ => ⟨r, hj, hp⟩, h.2⟩
    · split
      · exact ⟨h.1, fun _ => ⟨r, hj, hp⟩⟩
      · exact h
  · rw [if_neg hp]; exact h

theorem scanLoop_ok (all : List Route) (path : Str) : ∀ (rs : List Route) (j : Nat) (sc : Scan),
    (∀ i r, rs.get? i = some r → all.get? (j + i) = some r) → ScanOK all path sc →
    ScanOK all path (scanLoop path rs j sc) := by
  intro rs
  induction rs with
  | nil => intro j sc _ h; exact h
  | cons r rs ih =>
    intro j sc hall h
    unfold scanLoop
    apply ih
    · intro i r1 hi
      have := hall (i + 1) r1 (by simpa using hi)
      rw [← this]; congr 1; omega
    · exact scanStep_ok all path sc j r (hall 0 r (by simp)) h

theorem scan_ok (a : FastRouter) (path : Str) : ScanOK a.routes path (scan a path) := by
  unfold scan
  apply scanLoop_ok
  · intro i r h; simpa using h
  · exact ⟨by simp, by simp⟩

theorem serve_noShape (a : FastRouter) (k : Nat) (v : Route) (method path : Str) (st : St)
    (h : shapeMatch v (splitPath path) = false) :
    ∃ st1 m1, serve a k v method path st = (st1, .ret (m1, false)) ∧ Quiet st st1 := by
  refine ⟨setAllowHeader k v (st.emit (Event.attempt k)), v.method == method, ?_,
    quiet_setAllowHeader k v st⟩
  rw [serve_miss a k v method path st (by simp [h]), h]

theorem passOne_noShape (a : FastRouter) (method path : Str)
    (hno : ∀ k v, a.routes.get? k = some v → shapeMatch v (splitPath path) = false) :
    ∀ (ks : List Nat) (m0 : Bool) (st : St), (∀ k ∈ ks, ∃ v, a.routes.get? k = some v) →
    ∃ st1 m1, passOne a method path ks m0 false st = (st1, .ret (.next m1 false)) ∧
      Quiet st st1 := by
  intro ks
  induction ks with
  | nil => intro m0 st _; exact ⟨st, m0, rfl, Quiet.refl st⟩
  | cons k ks ih =>
    intro m0 st hv
    obtain ⟨v, hk⟩ := hv k (List.mem_cons_self _ _)
    obtain ⟨st1, m1, hs, hq⟩ := serve_noShape a k v method path st (hno k v hk)
    obtain ⟨st2, m2, hp, hq2⟩ := ih m1 st1 (fun k1 h1 => hv k1 (List.mem_cons_of_mem _ h1))
    refine ⟨st2, m2, ?_, hq.trans hq2⟩
    unfold passOne
    rw [hk]
    simp only [hs, Bool.and_false]
    exact hp

theorem tryWinner_noShape (a : FastRouter) (method path : Str)
    (hno : ∀ k v, a.routes.get? k = some v → shapeMatch v (splitPath path) = false)
    (deepLen idx : Nat) (m0 : Bool) (st : St)
    (hv : deepLen > 0 → ∃ v, a.routes.get? idx = some v) :
    ∃ st1 m1, tryWinner a method path deepLen idx m0 false st = (st1, .ret (.next m1 false)) ∧
      Quiet st st1 := by
  unfold tryWinner
  by_cases hd : deepLen > 0
  · rw [if_pos hd]
    obtain ⟨v, hk⟩ := hv hd
    obtain ⟨st1, m1, hs, hq⟩ := serve_noShape a idx v method path st (hno idx v hk)
    refine ⟨st1, m1, ?_, hq⟩
    rw [hk]
    simp [hs]
  · rw [if_neg hd]
    exact ⟨st, m0, rfl, Quiet.refl st⟩

theorem routeRequest_noShape (a : FastRouter) (hw : WF a) (method path : Str) (st : St)
    (hno : ∀ k v, a.routes.get? k = some v → shapeMatch v (splitPath path) = false) :
    ∃ st1 m1, routeRequest a method path st = finish a m1 false st1 ∧ Quiet st st1 := by
  have h1 : ∃ st1 m1, exactPass a method path st = (st1, .ret (.next m1 false)) ∧
      Quiet st st1 := by
    unfold exactPass
    cases hb : mapGet a.indexRoutes path with
    | none => exact ⟨st, false, rfl, Quiet.refl st⟩
    | some hs =>
      exact passOne_noShape a method path hno hs false st (fun k hk => by
        obtain ⟨r, hr, -⟩ := hw.sound _ hs hb k hk
        exact ⟨r, hr⟩)
  obtain ⟨st1, m1, he1, hq1⟩ := h1
  have hsc := scan_ok a path
  obtain ⟨st2, m2, he2, hq2⟩ := tryWinner_noShape a method path hno
    (scan a path).prefixDeepLen (scan a path).prefixMaxDeep m1 st1
    (fun h => by obtain ⟨r, hr, -⟩ := hsc.1 h; exact ⟨r, hr⟩)
  obtain ⟨st3, m3, he3, hq3⟩ := tryWinner_noShape a method path hno
    (scan a path).normalDeepLen (scan a path).normalMaxDeep m2 st2
    (fun h => by obtain ⟨r, hr, -⟩ := hsc.2 h; exact ⟨r, hr⟩)
  refine ⟨st3, m3, ?_, (hq1.trans hq2).trans hq3⟩
  unfold routeRequest
  rw [he1]
  simp only
  unfold fallbackPass
  simp only [he2, he3]

theorem Handler_eq (a : FastRouter) (st : St) (hlen : st.ctx.path.length ≤ PathMaxSize) :
    Handler a st =
      match routeRequest a st.ctx.method st.ctx.path st with
      | (st1, .ret ()) => (st1, none)
      | (st1, .panic err) => recoverFrom a err st1 := by
  unfold Handler
  simp only
  rw [if_neg (by omega)]

theorem quiet_facts {e : Event} (h : e.isQuiet = true) :
    e.isRun = false ∧ e.isTail = false ∧ e.isStop = false ∧ (∀ k, e ≠ Event.matched k) := by
  cases e <;> simp_all [Event.isQuiet, Event.isRun, Event.isTail, Event.isStop]

/-- The log of a dispatch when no registered route has the path shape of the
request: no filter and no handler event, and the event of the not-found
handling, of the custom hook when one is set and of the default otherwise. -/
theorem not_found_log (a : FastRouter) (hb : Built a) (c : Ctx)
    (hlen : c.path.length ≤ PathMaxSize)
    (hno : ∀ r ∈ a.routes, ¬ ShapeOK r (splitPath c.path)) :
    (∀ e ∈ (Handler a ⟨c, []⟩).1.log, e.isRun = false) ∧
    Event.notAllowedHook ∉ (Handler a ⟨c, []⟩).1.log ∧
    Event.setStatus 405 ∉ (Handler a ⟨c, []⟩).1.log ∧
    (a.NotFound = none →
      Event.notFoundDefault ∈ (Handler a ⟨c, []⟩).1.log ∧
      Event.notFoundHook ∉ (Handler a ⟨c, []⟩).1.log ∧
      (Handler a ⟨c, []⟩).1.ctx.statusCode = 404 ∧ (Handler a ⟨c, []⟩).2 = none) ∧
    (∀ f, a.NotFound = some f →
      Event.notFoundHook ∈ (Handler a ⟨c, []⟩).1.log ∧
      Event.notFoundDefault ∉ (Handler a ⟨c, []⟩).1.log) := by
  have hno' : ∀ k v, a.routes.get? k = some v → shapeMatch v (splitPath c.path) = false := by
    intro k v hv
    have hmem : v ∈ a.routes := List.get?_mem hv
    have := hno v hmem
    rw [← shapeMatch_iff] at this
    simpa using this
  obtain ⟨st1, m1, hrr, l, hl, hq⟩ := routeRequest_noShape a hb.wf c.method c.path ⟨c, []⟩ hno'
  simp only [List.nil_append] at hl
  have hH := Handler_eq a ⟨c, []⟩ hlen
  simp only at hH
  rw [hrr] at hH
  have q1 : ∀ e ∈ l, e.isRun = false := fun e he => (quiet_facts (hq e he)).1
  have q2 : ∀ e ∈ l, e.isTail = false := fun e he => (quiet_facts (hq e he)).2.1
  have n1 : Event.notAllowedHook ∉ l := fun h => by simpa [Event.isTail] using q2 _ h
  have n2 : Event.setStatus 405 ∉ l := fun h => by simpa [Event.isTail] using q2 _ h
  have n3 : Event.notFoundHook ∉ l := fun h => by simpa [Event.isTail] using q2 _ h
  have n4 : Event.notFoundDefault ∉ l := fun h => by simpa [Event.isTail] using q2 _ h
  cases hnf : a.NotFound with
  | none =>
    have hfin : finish a m1 false st1 =
        ({ ctx := st1.ctx.notFound, log := st1.log ++ [Event.notFoundDefault] }, .ret ()) := by
      unfold finish; simp [hnf]
    rw [hfin] at hH
    simp only at hH
    rw [hH, hl]
    refine ⟨?_, ?_, ?_, ?_, ?_⟩
    · intro e he
      rcases List.mem_append.1 he with h | h
      · exact q1 e h
      · simp at h; subst h; rfl
    · simp [n1]
    · simp [n2]
    · intro _; exact ⟨by simp, by simp [n3], rfl, rfl⟩
    · intro f hf; simp at hf
  | some f =>
    have hfin : finish a m1 false st1 =
        ({ ctx := (f st1.ctx).1, log := st1.log ++ [Event.notFoundHook] }, (f st1.ctx).2) := by
      unfold finish; simp [hnf]
    rw [hfin] at hH
    rcases hf : (f st1.ctx).2 with u | err
    · rw [hf] at hH
      simp only at hH
      rw [hH, hl]
      refine ⟨?_, ?_, ?_, ?_, ?_⟩
      · intro e he
        rcases List.mem_append.1 he with h | h
        · exact q1 e h
        · simp at h; subst h; rfl
      · simp [n1]
      · simp [n2]
      · intro h; simp at h
      · intro _ _; exact ⟨by simp, by simp [n4]⟩
    · rw [hf] at hH
      simp only at hH
      rw [hH, hl]
      unfold recoverFrom
      cases hrec : a.Recover with
      | none =>
        simp only
        refine ⟨?_, ?_, ?_, ?_, ?_⟩
        · intro e he
          simp only [List.append_assoc, List.mem_append, List.mem_singleton, List.mem_cons,
            List.mem_nil_iff, or_false] at he
          rcases he with h | h | h
          · exact q1 e h
          · subst h; rfl
          · subst h; rfl
        · simp [n1]
        · simp [n2]
        · intro h; simp at h
        · intro _ _; exact ⟨by simp, by simp [n4]⟩
      | some g =>
        simp only
        rcases hg : g (f st1.ctx).1 err with ⟨c2, u | e2⟩
        · simp only
          refine ⟨?_, ?_, ?_, ?_, ?_⟩
          · intro e he
            simp only [List.append_assoc, List.mem_append, List.mem_singleton, List.mem_cons,
              List.mem_nil_iff, or_false] at he
            rcases he with h | h | h | h
            · exact q1 e h
            · subst h; rfl
            · subst h; rfl
            · subst h; rfl
          · simp [n1]
          · simp [n2]
          · intro h; simp at h
          · intro _ _; exact ⟨by simp, by simp [n4]⟩
        · simp only
          refine ⟨?_, ?_, ?_, ?_, ?_⟩
          · intro e he
            simp only [List.append_assoc, List.mem_append, List.mem_singleton, List.mem_cons,
              List.mem_nil_iff, or_false] at he
            rcases he with h | h | h
            · exact q1 e h
            · subst h; rfl
            · subst h; rfl
          · simp [n1]
          · simp [n2]
          · intro h; simp at h
          · intro _ _; exact ⟨by simp, by simp [n4]⟩

theorem built_reg (a : FastRouter) (hb : Built a) (method pattern : String) (b : Bool)
    (h : ∃ a1, handle a method.toList pattern.toList b okHandler [] = .ok a1) :
    Built (reg a method pattern b) := by
  obtain ⟨a1, h1⟩ := h
  have : reg a method pattern b = a1 := by unfold reg; rw [h1]; rfl
  rw [this]
  exact Built.handle _ _ _ _ _ hb h1

/-! ## variables of a route and their binding -/

theorem mem_mapSet {β : Type} {m : List (Str × β)} {k : Str} {v : β} {x : Str × β}
    (h : x ∈ mapSet m k v) : x ∈ m ∨ x = (k, v) := by
  induction m with
  | nil => simp [mapSet] at h; exact Or.inr h
  | cons kv m ih =>
    obtain ⟨k1, v1⟩ := kv
    unfold mapSet at h
    by_cases hk : k1 = k
    · rw [if_pos hk] at h
      rcases List.mem_cons.1 h with h1 | h1
      · exact Or.inr h1
      · exact Or.inl (List.mem_cons_of_mem _ h1)
    · rw [if_neg hk] at h
      rcases List.mem_cons.1 h with h1 | h1
      · exact Or.inl (h1 ▸ List.mem_cons_self _ _)
      · rcases ih h1 with h2 | h2
        · exact Or.inl (List.mem_cons_of_mem _ h2)
        · exact Or.inr h2

theorem keys_mapSet {β : Type} (m : List (Str × β)) (k : Str) (v : β) :
    ∀ x ∈ (mapSet m k v).map Prod.fst, x ∈ m.map Prod.fst ∨ x = k := by
  intro x hx
  obtain ⟨⟨k1, v1⟩, h1, rfl⟩ := List.mem_map.1 hx
  rcases mem_mapSet h1 with h2 | h2
  · exact Or.inl (List.mem_map.2 ⟨_, h2, rfl⟩)
  · exact Or.inr (by simp at h2; exact h2.1)

theorem nodup_mapSet {β : Type} (m : List (Str × β)) (k : Str) (v : β)
    (h : (m.map Prod.fst).Nodup) : ((mapSet m k v).map Prod.fst).Nodup := by
  induction m with
  | nil => simp [mapSet]
  | cons kv m ih =>
    obtain ⟨k1, v1⟩ := kv
    simp only [List.map_cons, List.nodup_cons] at h
    unfold mapSet
    by_cases hk : k1 = k
    · rw [if_pos hk]; subst hk
      simp only [List.map_cons, List.nodup_cons]
      exact h
    · rw [if_neg hk]
      simp only [List.map_cons, List.nodup_cons]
      refine ⟨?_, ih h.2⟩
      intro hmem
      rcases keys_mapSet m k v k1 hmem with h1 | h1
      · exact h.1 h1
      · exact hk h1

theorem genRouteVars_inv {urlPath seg : Str} {i : Nat} {varN varN1 : List (Str × Nat)}
    (h : genRouteVars urlPath seg i varN = .ret varN1) (hv : VarsInv i varN) :
    VarsInv (i + 1) varN1 := by
  have keep : VarsInv (i + 1) varN :=
    ⟨hv.1, fun x hx => Nat.lt_succ_of_lt (hv.2 x hx)⟩
  have new : VarsInv (i + 1) (mapSet varN (seg.drop 2) i) := by
    refine ⟨nodup_mapSet _ _ _ hv.1, ?_⟩
    intro x hx
    rcases mem_mapSet hx with h1 | h1
    · exact Nat.lt_succ_of_lt (hv.2 x h1)
    · rw [h1]; exact Nat.lt_succ_self i
  unfold genRouteVars at h
  split at h
  · split at h
    · simp at h
    · split at h
      · simp only at h
        split at h
        · split at h
          · simp at h
          · simp only [Outcome.ret.injEq] at h; rw [← h]; exact new
        · simp only [Outcome.ret.injEq] at h; rw [← h]; exact new
      · simp only [Outcome.ret.injEq] at h; rw [← h]; exact keep
  · simp only [Outcome.ret.injEq] at h; rw [← h]; exact keep

theorem genRouteLoop_inv (urlPath : Str) : ∀ (segs : List Str) (i : Nat)
    (varN : List (Str × Nat)) (pfx : Str) (varN1 : List (Str × Nat)) (pfx1 : Str),
    genRouteLoop urlPath segs i varN pfx = .ret (varN1, pfx1) → VarsInv i varN →
    VarsInv (i + segs.length) varN1 := by
  intro segs
  induction segs with
  | nil =>
    intro i varN pfx varN1 pfx1 h hv
    simp only [genRouteLoop, Outcome.ret.injEq, Prod.mk.injEq] at h
    rw [← h.1]; exact hv
  | cons seg rest ih =>
    intro i varN pfx varN1 pfx1 h hv
    unfold genRouteLoop at h
    rcases hs : genRouteVars urlPath seg i varN with varN2 | p
    · rw [hs] at h
      simp only at h
      have := ih (i + 1) varN2 _ varN1 pfx1 h (genRouteVars_inv hs hv)
      simpa [Nat.add_assoc, Nat.add_comm 1] using this
    · rw [hs] at h; simp at h

theorem routeOK_vars {r : Route} (h : RouteOK r) : VarsInv r.deepPath.length r.varsN := by
  obtain ⟨-, pfx, hl, -⟩ := h
  have := genRouteLoop_inv r.urlPath r.deepPath 0 [] [] r.varsN pfx hl ⟨by simp, by simp⟩
  simpa using this

theorem segsB_lead (b : Nat) : ∀ (ps : List Str), ∀ seg ∈ segsB b ps, ∃ rest, seg = '/' :: rest := by
  induction b with
  | zero =>
    intro ps seg h
    match ps, h with
    | [p], h => exact ⟨p, by simpa [segsB] using h⟩
    | p :: q :: ps, h => exact ⟨_, by simpa [segsB] using h⟩
  | succ b ih =>
    intro ps
    induction ps with
    | nil => intro seg h; simp [segsB] at h
    | cons p ps ihp =>
      intro seg h
      cases ps with
      | nil => exact ⟨p, by simpa [segsB] using h⟩
      | cons q qs =>
        simp only [segsB] at h
        split at h
        · exact ihp seg h
        · rcases List.mem_cons.1 h with h1 | h1
          · exact ⟨p, h1⟩
          · exact ih _ seg h1

theorem segsB_length (b : Nat) : ∀ (ps : List Str), ps ≠ [] →
    1 ≤ (segsB b ps).length ∧ (segsB b ps).length ≤ b + 1 := by
  induction b with
  | zero =>
    intro ps hne
    match ps, hne with
    | [p], _ => simp [segsB]
    | p :: q :: ps, _ => simp [segsB]
  | succ b ih =>
    intro ps
    induction ps with
    | nil => intro h; exact absurd rfl h
    | cons p ps ihp =>
      intro _
      cases ps with
      | nil => simp [segsB]
      | cons q qs =>
        simp only [segsB]
        split
        · exact ihp (by simp)
        · have := ih (q :: qs) (by simp)
          simp only [List.length_cons]
          omega

/-- Every segment `splitPath` returns starts with `'/'`. -/
theorem splitPath_lead (path : Str) : ∀ seg ∈ splitPath path, ∃ rest, seg = '/' :: rest := by
  cases path with
  | nil => intro seg h; exact ⟨[], by simpa [splitPath_nil, URLSep] using h⟩
  | cons c t =>
    by_cases hc : c = '/'
    · subst hc; rw [splitPath_slash]; exact segsB_lead _ _
    · rw [splitPath_other c t hc]; exact segsB_lead _ _

/-- The list `splitPath` returns has between 1 and 99 segments. -/
theorem splitPath_length (path : Str) :
    1 ≤ (splitPath path).length ∧ (splitPath path).length ≤ 99 := by
  cases path with
  | nil => simp [splitPath_nil]
  | cons c t =>
    by_cases hc : c = '/'
    · subst hc; rw [splitPath_slash]; exact segsB_length _ _ (splitOn_sep_ne_nil _)
    · rw [splitPath_other c t hc]; exact segsB_length _ _ (splitOn_sep_ne_nil _)

theorem mapGet_mapSet {β : Type} (m : List (Str × β)) (k k2 : Str) (v : β) :
    mapGet (mapSet m k v) k2 = if k2 = k then some v else mapGet m k2 := by
  by_cases h : k2 = k
  · subst h; simp [mapGet_mapSet_same]
  · simp [h, mapGet_mapSet_ne _ _ _ _ h]

theorem bindVars_spec (deepPath : List Str) : ∀ (vars : List (Str × Nat)) (st : St),
    (vars.map Prod.fst).Nodup →
    (∀ x ∈ vars, ∃ rest, deepPath.get? x.2 = some ('/' :: rest)) →
    ∃ st2, bindVars deepPath vars st = (st2, .ret ()) ∧
      (∀ x ∈ vars, ∃ rest, deepPath.get? x.2 = some ('/' :: rest) ∧
        st2.ctx.userValue x.1 = some rest) ∧
      (∀ name, name ∉ vars.map Prod.fst → st2.ctx.userValue name = st.ctx.userValue name) ∧
      st2.ctx.path = st.ctx.path ∧ st2.ctx.method = st.ctx.method := by
  intro vars
  induction vars with
  | nil => intro st _ _; exact ⟨st, rfl, by simp, by simp, rfl, rfl⟩
  | cons kv rest ih =>
    intro st hnd hseg
    obtain ⟨key, index⟩ := kv
    simp only [List.map_cons, List.nodup_cons] at hnd
    obtain ⟨tl, htl⟩ := hseg (key, index) (List.mem_cons_self _ _)
    simp only at htl
    obtain ⟨st2, h2, hb, hk, hp, hm⟩ := ih
      { ctx := st.ctx.setUserValue key tl, log := st.log ++ [Event.setUserValue key tl] }
      hnd.2 (fun x hx => hseg x (List.mem_cons_of_mem _ hx))
    refine ⟨st2, ?_, ?_, ?_, ?_, ?_⟩
    · unfold bindVars
      rw [htl]
      simpa using h2
    · intro x hx
      rcases List.mem_cons.1 hx with h1 | h1
      · subst h1
        refine ⟨tl, htl, ?_⟩
        rw [hk key hnd.1]
        simp [Ctx.userValue, Ctx.setUserValue, mapGet_mapSet_same]
      · exact hb x h1
    · intro name hname
      simp only [List.map_cons, List.mem_cons, not_or] at hname
      rw [hk name hname.2]
      simp [Ctx.userValue, Ctx.setUserValue, mapGet_mapSet_ne _ _ _ _ hname.1]
    · rw [hp]; rfl
    · rw [hm]; rfl

theorem shapeOK_length {v : Route} {segs : List Str} (h : ShapeOK v segs) :
    v.deepPath.length ≤ segs.length := by
  rcases h with ⟨h1, -⟩ | ⟨-, h1⟩
  · exact Nat.le_of_eq h1
  · exact h1

/-- C8: a successful match binds every variable `(name, index)` of the route to
the request segment at that index without its leading `'/'`, before the
filters and the handler run. -/
theorem serve_binds_vars (a : FastRouter) (hb : Built a) (k : Nat) (r : Route)
    (hk : a.routes.get? k = some r) (method path : Str) (st : St)
    (hm : r.method = method) (hs : ShapeOK r (splitPath path)) :
    ∃ st2, serve a k r method path st = runChain a k r st2 ∧
      ∀ name idx, (name, idx) ∈ r.varsN →
        ∃ rest, (splitPath path).get? idx = some ('/' :: rest) ∧
          st2.ctx.userValue name = some rest := by
  have hv := routeOK_vars (hb.wf.routeOK k r hk)
  have hseg : ∀ x ∈ r.varsN, ∃ rest, (splitPath path).get? x.2 = some ('/' :: rest) := by
    intro x hx
    have h1 : x.2 < (splitPath path).length :=
      Nat.lt_of_lt_of_le (hv.2 x hx) (shapeOK_length hs)
    have h2 : (splitPath path).get? x.2 = some ((splitPath path)[x.2]) := by
      rw [List.get?_eq_getElem?]; exact List.getElem?_eq_getElem h1
    obtain ⟨rest, hr⟩ := splitPath_lead path _ (List.getElem_mem h1)
    exact ⟨rest, by rw [h2, hr]⟩
  obtain ⟨st2, h2, hbind, -, -, -⟩ := bindVars_spec (splitPath path) r.varsN
    ((setAllowHeader k r (st.emit (Event.attempt k))).emit (Event.matched k)) hv.1 hseg
  refine ⟨st2, ?_, fun name idx hx => hbind (name, idx) hx⟩
  rw [serve_hit a k r method path st ⟨hm, (shapeMatch_iff _ _).2 hs⟩, h2]

theorem serve_binds_vars_witness :
    (∃ st2,
      serve (reg NewRouter "GET" "/:a/:b" false) 0
          (firstRoute (reg NewRouter "GET" "/:a/:b" false)) "GET".toList "/x/y".toList
          (request "GET".toList "/x/y".toList) =
        runChain (reg NewRouter "GET" "/:a/:b" false) 0
          (firstRoute (reg NewRouter "GET" "/:a/:b" false)) st2 ∧
      st2.ctx.userValue "a".toList = some "x".toList ∧
      st2.ctx.userValue "b".toList = some "y".toList) ∧
    (dispatchCtx (reg NewRouter "GET" "/:a/:b" false) "GET".toList "/x/y".toList).userValue
      "a".toList = some "x".toList ∧
    (dispatchCtx (reg NewRouter "GET" "/:a/:b" false) "GET".toList "/x/y".toList).userValue
      "b".toList = some "y".toList ∧
    (dispatchCtx (reg NewRouter "GET" "/user/:name" false) "GET".toList
      "/user/gopher".toList).userValue "name".toList = some "gopher".toList := by
  refine ⟨?_, by decide, by decide, by decide⟩
  obtain ⟨st2, h1, h2⟩ := serve_binds_vars (reg NewRouter "GET" "/:a/:b" false)
    (built_reg _ Built.new _ _ _ ⟨_, rfl⟩) 0 (firstRoute (reg NewRouter "GET" "/:a/:b" false))
    rfl "GET".toList "/x/y".toList (request "GET".toList "/x/y".toList) rfl (by decide)
  refine ⟨st2, h1, ?_, ?_⟩
  · obtain ⟨rest, hr, hv⟩ := h2 "a".toList 0 (by decide)
    have h3 : (splitPath "/x/y".toList).get? 0 = some "/x".toList := by decide
    rw [h3] at hr
    have : rest = "x".toList := by simpa using hr.symm
    rw [hv, this]
  · obtain ⟨rest, hr, hv⟩ := h2 "b".toList 1 (by decide)
    have h3 : (splitPath "/x/y".toList).get? 1 = some "/y".toList := by decide
    rw [h3] at hr
    have : rest = "y".toList := by simpa using hr.symm
    rw [hv, this]

/-! ## which routes can be invoked -/

theorem attempted_isPrefix {a : FastRouter} (hw : WF a) {path : Str} {k : Nat} {r : Route}
    (ha : Attempted a path k) (hk : a.routes.get? k = some r) : r.prefixStr <+: path := by
  rcases ha with ⟨h, hb, hmem⟩ | ⟨hd, rfl⟩ | ⟨hd, rfl⟩
  · obtain ⟨r1, hr1, hp⟩ := hw.sound _ h hb k hmem
    rw [hk] at hr1
    cases hr1
    rw [hp]
  · obtain ⟨r1, hr1, hp⟩ := (scan_ok a path).1 hd
    rw [hk] at hr1
    cases hr1
    exact List.isPrefixOf_iff_prefix.1 hp
  · obtain ⟨r1, hr1, hp⟩ := (scan_ok a path).2 hd
    rw [hk] at hr1
    cases hr1
    exact List.isPrefixOf_iff_prefix.1 hp

/-- C3 (amended): if dispatch invokes the handler of a route, the static prefix
of the route is a string prefix of the request path, its method is the
request's method and its path shape matches; no literal segment is compared
with the request segment by segment. -/
theorem handler_needs_prefix_match (a : FastRouter) (hb : Built a) (c : Ctx) (k : Nat)
    (h : Event.handler k ∈ (Handler a ⟨c, []⟩).1.log) :
    ∃ r, a.routes.get? k = some r ∧ r.prefixStr <+: c.path ∧ r.method = c.method ∧
      ShapeOK r (splitPath c.path) := by
  obtain ⟨l, hl, hq⟩ := Handler_log a ⟨c, []⟩
  rw [hl] at h
  simp only [List.nil_append] at h
  rcases hq _ h with ht | ⟨k1, v, hatt, hv, hof, -, hhit⟩
  · simp [Event.isTail] at ht
  · have hk1 : k = k1 := by simpa [Event.ofRoute] using hof
    subst hk1
    rcases hhit with hq1 | hh
    · simp [Event.isQuiet] at hq1
    · exact ⟨v, hv, attempted_isPrefix hb.wf hatt hv, hh.1, (shapeMatch_iff _ _).1 hh.2⟩

theorem handler_needs_prefix_match_witness :
    Event.handler 0 ∈ (Handler (reg NewRouter "GET" "/user/:name" false)
      (request "GET".toList "/user/gopher".toList)).1.log ∧
    ∃ r, (reg NewRouter "GET" "/user/:name" false).routes.get? 0 = some r ∧
      r.prefixStr <+: "/user/gopher".toList ∧ r.method = "GET".toList ∧
      ShapeOK r (splitPath "/user/gopher".toList) :=
  ⟨by decide, handler_needs_prefix_match (reg NewRouter "GET" "/user/:name" false)
    (built_reg _ Built.new _ _ _ ⟨_, rfl⟩) (request "GET".toList "/user/gopher".toList).ctx 0
    (by decide)⟩

/-- C3 as stated fails: with `GET /user/:name/profile` registered, the request
`GET /user/bob/settings` invokes the handler, although the literal segment
`/profile` differs from the request segment `/settings`. -/
theorem literals_not_verbatim :
    Built (reg NewRouter "GET" "/user/:name/profile" false) ∧
    ¬ LiteralsVerbatim (reg NewRouter "GET" "/user/:name/profile" false)
      (request "GET".toList "/user/bob/settings".toList).ctx := by
  refine ⟨built_reg _ Built.new _ _ _ ⟨_, rfl⟩, ?_⟩
  intro h
  have h1 := h 0 (firstRoute (reg NewRouter "GET" "/user/:name/profile" false)) rfl (by decide)
    2 "/profile".toList (by decide) (by decide)
  revert h1
  decide

/-! ## dispatch on concrete routers -/

theorem built_userRouter : Built userRouter :=
  built_reg (reg NewRouter "GET" "/user/:name" false)
    (built_reg NewRouter Built.new "GET" "/user/:name" false ⟨_, rfl⟩)
    "PUT" "/user/:name" false ⟨_, rfl⟩

theorem built_nestedRouter : Built nestedRouter :=
  built_reg (reg NewRouter "GET" "/aaa" true)
    (built_reg NewRouter Built.new "GET" "/aaa" true ⟨_, rfl⟩) "GET" "/a" true ⟨_, rfl⟩

theorem built_shadowRouter : Built shadowRouter :=
  built_reg (reg NewRouter "POST" "/path" false)
    (built_reg NewRouter Built.new "POST" "/path" false ⟨_, rfl⟩) "POST" "/:v/x" false ⟨_, rfl⟩

theorem built_pathRouter : Built pathRouter :=
  built_reg (reg (reg NewRouter "POST" "/path" false) "DELETE" "/path" false)
    (built_reg (reg NewRouter "POST" "/path" false)
      (built_reg NewRouter Built.new "POST" "/path" false ⟨_, rfl⟩)
      "DELETE" "/path" false ⟨_, rfl⟩)
    "OPTIONS" "/path" false ⟨_, rfl⟩

/-- C2 (the code fails the claim): with `/user/:name` registered for `GET` and
then for `PUT`, the request `GET /user/gopher` attempts only the `PUT` route,
invokes no handler and ends with status 405, while `PUT /user/gopher` is
served. -/
theorem get_lost_after_put :
    Built userRouter ∧
    userRouter.routes.map (fun r => (r.method, r.urlPath)) =
      [("GET".toList, "/user/:name".toList), ("PUT".toList, "/user/:name".toList)] ∧
    dispatchLog userRouter "GET".toList "/user/gopher".toList =
      [Event.attempt 1, Event.setAllow 1 ["PUT".toList, "OPTIONS".toList], Event.setStatus 405] ∧
    (dispatchCtx userRouter "GET".toList "/user/gopher".toList).statusCode = 405 ∧
    Event.handler 1 ∈ dispatchLog userRouter "PUT".toList "/user/gopher".toList :=
  ⟨built_userRouter, by decide⟩

/-- C4 (the code fails the claim): the scan compares the prefix length with the
position of the current winner.  With catch-all `/aaa` and then catch-all `/a`
registered, the request `/aaa/b` attempts the route with the shorter prefix
`/a`; and with two routes of equal prefix length the later one overrides the
earlier winner. -/
theorem scan_winner_not_longest :
    Built nestedRouter ∧
    nestedRouter.routes.map (fun r => (r.prefixStr, r.isPrefixHandler)) =
      [("/aaa".toList, true), ("/a".toList, true)] ∧
    "/aaa".toList <+: "/aaa/b".toList ∧ "/a".toList <+: "/aaa/b".toList ∧
    scan nestedRouter "/aaa/b".toList =
      { normalMaxDeep := 0, normalDeepLen := 0, prefixMaxDeep := 1, prefixDeepLen := 2 } ∧
    dispatchLog nestedRouter "GET".toList "/aaa/b".toList =
      [Event.attempt 1, Event.setAllow 1 ["GET".toList, "OPTIONS".toList], Event.matched 1,
        Event.handler 1] ∧
    userRouter.routes.map (fun r => (r.prefixStr, r.isPrefixHandler)) =
      [("/user".toList, false), ("/user".toList, false)] ∧
    (scan userRouter "/user/gopher".toList).normalMaxDeep = 1 :=
  ⟨built_nestedRouter, by decide⟩

/-- C5 (the code fails the claim): with `POST /path` and then `POST /:v/x`
registered, the request `GET /path` attempts `POST /path`, which has the shape
of the request but not its method, and still ends in the not-found outcome,
because only the result of the last attempt is kept. -/
theorem not_allowed_lost :
    Built shadowRouter ∧
    shadowRouter.routes.map (fun r => (r.method, r.urlPath)) =
      [("POST".toList, "/path".toList), ("POST".toList, "/:v/x".toList)] ∧
    (∀ r ∈ shadowRouter.routes, r.method ≠ "GET".toList) ∧
    ShapeOK (firstRoute shadowRouter) (splitPath "/path".toList) ∧
    dispatchLog shadowRouter "GET".toList "/path".toList =
      [Event.attempt 0, Event.setAllow 0 ["POST".toList, "OPTIONS".toList],
        Event.attempt 1, Event.setAllow 1 ["POST".toList, "OPTIONS".toList],
        Event.notFoundDefault] ∧
    (dispatchCtx shadowRouter "GET".toList "/path".toList).statusCode = 404 :=
  ⟨built_shadowRouter, by decide⟩

/-- C6 (the code fails the claim): with `POST /path`, `DELETE /path` and
`OPTIONS /path` registered, `GET /path` ends with status 405 and the `Allow`
header holds `OPTIONS` only; with `POST /path` alone it holds `POST` and
`OPTIONS`. -/
theorem allow_header_incomplete :
    Built pathRouter ∧
    pathRouter.routes.map (fun r => (r.method, r.urlPath, r.allowMethods)) =
      [("POST".toList, "/path".toList, ["POST".toList, "DELETE".toList, "OPTIONS".toList]),
       ("DELETE".toList, "/path".toList, ["DELETE".toList, "OPTIONS".toList]),
       ("OPTIONS".toList, "/path".toList, ["OPTIONS".toList])] ∧
    (dispatchCtx pathRouter "GET".toList "/path".toList).statusCode = 405 ∧
    (dispatchCtx pathRouter "GET".toList "/path".toList).allow = some ["OPTIONS".toList] ∧
    (dispatchCtx (reg NewRouter "POST" "/path" false) "GET".toList "/path".toList).allow =
      some ["POST".toList, "OPTIONS".toList] :=
  ⟨built_pathRouter, by decide⟩

/-! ## dispatch that reaches a route -/

theorem runPre_allow (ev : Nat → Option Bool → Event) : ∀ (fs : List PreHandler) (j : Nat) (st : St),
    (∀ f ∈ fs, ∀ c, (f c).2 = .ret true) → (runPre ev fs j st).2 = .ret true := by
  intro fs
  induction fs with
  | nil => intro j st _; rfl
  | cons f fs ih =>
    intro j st h
    unfold runPre
    have hf := h f (List.mem_cons_self _ _) st.ctx
    rcases hfc : f st.ctx with ⟨c, o⟩
    rw [hfc] at hf
    simp only at hf
    subst hf
    simp only
    exact ih _ _ (fun g hg => h g (List.mem_cons_of_mem _ hg))

/-- When every filter allows, the chain of a route ends with its handler. -/
theorem runChain_allow (a : FastRouter) (k : Nat) (v : Route) (st : St)
    (hg : ∀ f ∈ a.preHandlers, ∀ c, (f c).2 = .ret true)
    (hr : ∀ f ∈ v.preHandlers, ∀ c, (f c).2 = .ret true) :
    Event.handler k ∈ (runChain a k v st).1.log := by
  unfold runChain
  have h1 := runPre_allow Event.globalPre a.preHandlers 0 st hg
  rcases hp : runPre Event.globalPre a.preHandlers 0 st with ⟨st3, o⟩
  rw [hp] at h1
  simp only at h1
  subst h1
  simp only
  have h2 := runPre_allow (Event.routePre k) v.preHandlers 0 st3 hr
  rcases hp2 : runPre (Event.routePre k) v.preHandlers 0 st3 with ⟨st4, o2⟩
  rw [hp2] at h2
  simp only at h2
  subst h2
  simp only
  rcases v.handler st4.ctx with ⟨c, u | e⟩ <;> simp

theorem runChain_mono (a : FastRouter) (k : Nat) (v : Route) (st : St) (e : Event)
    (h : e ∈ st.log) : e ∈ (runChain a k v st).1.log := by
  obtain ⟨l, hl, -⟩ := runChain_spec a k v st
  rw [hl]; exact List.mem_append_left _ h

theorem chainDone_runChain_log (r : St × Outcome (Bool × Bool)) : (chainDone r).1.log = r.1.log := by
  obtain ⟨s, o | e⟩ := r <;> rfl

/-- A hit on a route as `genRoute` made it gets to the chain of the route: the
variables are bound without a panic. -/
theorem serve_hit_chain (a : FastRouter) (k : Nat) (r : Route) (hok : RouteOK r)
    (method path : Str) (st : St) (hh : Hit r method path) :
    ∃ st2 l, serve a k r method path st = runChain a k r st2 ∧
      st2.log = st.log ++ l ∧ Event.matched k ∈ l ∧
      (∀ e ∈ l, e.isRun = false ∧ e.isTail = false ∧ e.isStop = false ∧
        (∀ k1, e = Event.matched k1 → k1 = k)) ∧
      (∀ x ∈ r.varsN, ∃ rest, (splitPath path).get? x.2 = some ('/' :: rest) ∧
        st2.ctx.userValue x.1 = some rest) ∧
      st2.ctx.path = st.ctx.path ∧ st2.ctx.method = st.ctx.method := by
  have hv := routeOK_vars hok
  have hs := (shapeMatch_iff _ _).1 hh.2
  have hseg : ∀ x ∈ r.varsN, ∃ rest, (splitPath path).get? x.2 = some ('/' :: rest) := by
    intro x hx
    have h1 : x.2 < (splitPath path).length :=
      Nat.lt_of_lt_of_le (hv.2 x hx) (shapeOK_length hs)
    have h2 : (splitPath path).get? x.2 = some ((splitPath path)[x.2]) := by
      rw [List.get?_eq_getElem?]; exact List.getElem?_eq_getElem h1
    obtain ⟨rest, hr⟩ := splitPath_lead path _ (List.getElem_mem h1)
    exact ⟨rest, by rw [h2, hr]⟩
  obtain ⟨st2, h2, hbind, -, hp, hm⟩ := bindVars_spec (splitPath path) r.varsN
    ((setAllowHeader k r (st.emit (Event.attempt k))).emit (Event.matched k)) hv.1 hseg
  obtain ⟨l0, hl0, hq0⟩ := quiet_ofRoute k r st
  obtain ⟨l1, hl1, hq1⟩ := bindVars_log (splitPath path) r.varsN
    ((setAllowHeader k r (st.emit (Event.attempt k))).emit (Event.matched k))
  rw [h2, emit_log, hl0] at hl1
  simp only at hl1
  refine ⟨st2, l0 ++ Event.matched k :: l1, ?_, by rw [hl1]; simp, by simp, ?_, hbind, ?_, ?_⟩
  · rw [serve_hit a k r method path st hh, h2]
  · intro e he
    rcases List.mem_append.1 he with h | h
    · have := quiet_facts (hq0 e h).2
      exact ⟨this.1, this.2.1, this.2.2.1, fun k1 hk1 => absurd hk1 (this.2.2.2 k1)⟩
    · rcases List.mem_cons.1 h with h | h
      · subst h
        exact ⟨rfl, rfl, rfl, fun k1 hk1 => by cases hk1; rfl⟩
      · obtain ⟨key, val, rfl⟩ := hq1 e h
        exact ⟨rfl, rfl, rfl, fun k1 hk1 => by cases hk1⟩
  · rw [hp]
    simp only [emit_ctx]
    unfold setAllowHeader; split <;> rfl
  · rw [hm]
    simp only [emit_ctx]
    unfold setAllowHeader; split <;> rfl

theorem runChain_chainDone (a : FastRouter) (k : Nat) (v : Route) (st : St)
    (g : Bool → Bool → St → St × Outcome Flow) :
    (match runChain a k v st with
      | (st1, .panic e) => ((st1, Outcome.panic e) : St × Outcome Flow)
      | (st1, .ret (m1, p1)) => if m1 && p1 then (st1, .ret .done) else g m1 p1 st1)
      = chainDone (runChain a k v st) := by
  obtain ⟨-, -, -, -, hret⟩ := runChain_spec a k v st
  rcases h : runChain a k v st with ⟨s, mp | e⟩
  · rw [h] at hret
    have := hret mp rfl
    subst this
    rfl
  · rfl

/-- The exact-prefix loop over a bucket in which the route at position `k` is
the first hit: the routes before it only leave the trace of failed attempts,
then the chain of the route runs and `Handler` returns. -/
theorem passOne_reach (a : FastRouter) (method path : Str) (k : Nat) (v : Route)
    (hk : a.routes.get? k = some v) (hok : RouteOK v) (hh : Hit v method path) :
    ∀ (pre post : List Nat) (m0 p0 : Bool) (st : St),
    (∀ k1 ∈ pre, ∃ v1, a.routes.get? k1 = some v1 ∧ ¬ Hit v1 method path) →
    ∃ st1 st2 l, Quiet st st1 ∧
      passOne a method path (pre ++ k :: post) m0 p0 st = chainDone (runChain a k v st2) ∧
      st2.log = st1.log ++ l ∧ Event.matched k ∈ l ∧
      (∀ e ∈ l, e.isRun = false ∧ e.isTail = false ∧ e.isStop = false ∧
        (∀ k1, e = Event.matched k1 → k1 = k)) := by
  intro pre
  induction pre with
  | nil =>
    intro post m0 p0 st _
    obtain ⟨st2, l, hs, hl, hm, hq, -, -, -⟩ := serve_hit_chain a k v hok method path st hh
    refine ⟨st, st2, l, Quiet.refl st, ?_, hl, hm, hq⟩
    simp only [List.nil_append]
    unfold passOne
    rw [hk]
    simp only [hs]
    exact runChain_chainDone a k v st2 _
  | cons k0 pre ih =>
    intro post m0 p0 st hpre
    obtain ⟨v0, hv0, hmiss⟩ := hpre k0 (List.mem_cons_self _ _)
    have hmiss' : (v0.method == method && shapeMatch v0 (splitPath path)) = false := by
      by_contra hc
      simp only [Bool.not_eq_false, Bool.and_eq_true, beq_iff_eq] at hc
      exact hmiss ⟨hc.1, hc.2⟩
    obtain ⟨st1, st2, l, hq1, hp, hl, hm, hq⟩ := ih post (v0.method == method)
      (shapeMatch v0 (splitPath path)) (setAllowHeader k0 v0 (st.emit (Event.attempt k0)))
      (fun k1 h1 => hpre k1 (List.mem_cons_of_mem _ h1))
    refine ⟨st1, st2, l, (quiet_setAllowHeader k0 v0 st).trans hq1, ?_, hl, hm, hq⟩
    simp only [List.cons_append]
    unfold passOne
    rw [hv0]
    simp only [serve_miss a k0 v0 method path st hmiss', hmiss']
    exact hp

theorem recoverFrom_events (a : FastRouter) (err : Str) (st : St) :
    ∃ l, (recoverFrom a err st).1.log = st.log ++ l ∧
      ∀ e ∈ l, e = Event.recoverHook err ∨ e = Event.defaultRecover err := by
  unfold recoverFrom
  split
  · split
    · exact ⟨[Event.recoverHook err], by simp, by simp⟩
    · exact ⟨[Event.recoverHook err, Event.defaultRecover err], by simp, by simp⟩
  · exact ⟨[Event.defaultRecover err], by simp, by simp⟩

/-- What the log of `Handler` looks like when `routeRequest` ends in the chain
of the route at position `k`. -/
theorem reached_of_chain (a : FastRouter) (c : Ctx) (hlen : c.path.length ≤ PathMaxSize)
    (k : Nat) (v : Route) (st2 : St)
    (hrr : routeRequest a c.method c.path ⟨c, []⟩ = chainUnit (runChain a k v st2))
    (hm : Event.matched k ∈ st2.log)
    (hq : ∀ e ∈ st2.log, e.isRun = false ∧ e.isTail = false ∧ e.isStop = false ∧
      (∀ k1, e = Event.matched k1 → k1 = k)) :
    Reached a c k := by
  obtain ⟨l, hl, hev, hstop, -⟩ := runChain_spec a k v st2
  have hH := Handler_eq a ⟨c, []⟩ hlen
  simp only at hH
  rw [hrr] at hH
  -- the log of `Handler` is the log of the chain followed by recovery events
  have hlog : ∃ l2, (Handler a ⟨c, []⟩).1.log = st2.log ++ l ++ l2 ∧
      ∀ e ∈ l2, ∃ err, e = Event.recoverHook err ∨ e = Event.defaultRecover err := by
    rw [hH]
    rcases hrc : runChain a k v st2 with ⟨s, mp | err⟩
    · rw [hrc] at hl
      exact ⟨[], by simpa [chainUnit] using hl, by simp⟩
    · rw [hrc] at hl
      simp only [chainUnit]
      obtain ⟨l2, hl2, hq2⟩ := recoverFrom_events a err s
      exact ⟨l2, by rw [hl2]; simp only at hl; rw [hl], fun e he => ⟨err, hq2 e he⟩⟩
  obtain ⟨l2, hlog, hrec⟩ := hlog
  have mem : ∀ e, e ∈ (Handler a ⟨c, []⟩).1.log ↔ (e ∈ st2.log ∨ e ∈ l ∨ e ∈ l2) := by
    intro e; rw [hlog]; simp [or_assoc]
  -- an event that is neither of the chain nor of the recovery is in `st2.log`
  have cases3 : ∀ e, e ∈ (Handler a ⟨c, []⟩).1.log →
      (e ∈ st2.log) ∨
      ((∃ j res, e = Event.globalPre j res) ∨ (∃ j res, e = Event.routePre k j res) ∨
        e = Event.handler k) ∨
      (∃ err, e = Event.recoverHook err ∨ e = Event.defaultRecover err) := by
    intro e he
    rcases (mem e).1 he with h | h | h
    · exact Or.inl h
    · exact Or.inr (Or.inl (hev e h))
    · exact Or.inr (Or.inr (hrec e h))
  refine ⟨(mem _).2 (Or.inl hm), ?_, ?_, ?_, ?_, ?_, ?_, ?_, ?_⟩
  · intro k1 h
    rcases cases3 _ h with h1 | (⟨j, res, h1⟩ | ⟨j, res, h1⟩ | h1) | ⟨err, h1 | h1⟩
    · exact (hq _ h1).2.2.2 k1 rfl
    all_goals cases h1
  · intro k1 h
    rcases cases3 _ h with h1 | (⟨j, res, h1⟩ | ⟨j, res, h1⟩ | h1) | ⟨err, h1 | h1⟩
    · have := (hq _ h1).1; simp [Event.isRun] at this
    · cases h1
    · cases h1
    · cases h1; rfl
    · cases h1
    · cases h1
  · intro k1 j res h
    rcases cases3 _ h with h1 | (⟨j, res, h1⟩ | ⟨j, res, h1⟩ | h1) | ⟨err, h1 | h1⟩
    · have := (hq _ h1).1; simp [Event.isRun] at this
    · cases h1
    · cases h1; rfl
    · cases h1
    · cases h1
    · cases h1
  · intro hns
    exact (mem _).2 (Or.inr (Or.inl (hstop (fun e he => hns e ((mem e).2 (Or.inr (Or.inl he)))))))
  all_goals
    intro h
    rcases cases3 _ h with h1 | (⟨j, res, h1⟩ | ⟨j, res, h1⟩ | h1) | ⟨err, h1 | h1⟩
    · have := (hq _ h1).2.1; simp [Event.isTail] at this
    all_goals cases h1

/-! ## the static prefix of a route -/

theorem splitOn_sep_mem_free (s : Str) : ∀ p ∈ s.splitOn '/', '/' ∉ p := by
  generalize hn : s.length = n
  induction n using Nat.strong_induction_on generalizing s with
  | _ n ih =>
    rcases sep_cases s with h | ⟨pre, rest, hpre, rfl⟩
    · rw [splitOn_sep_free h]
      intro p hp
      simp only [List.mem_singleton] at hp
      rw [hp]; exact h
    · rw [splitOn_sep_first hpre]
      intro p hp
      rcases List.mem_cons.1 hp with h1 | h1
      · rw [h1]; exact hpre
      · exact ih rest.length (by subst hn; simp; omega) rest rfl p h1

theorem segsB_length_le (b : Nat) : ∀ (ps : List Str), (segsB b ps).length ≤ ps.length := by
  induction b with
  | zero =>
    intro ps
    match ps with
    | [] => simp [segsB]
    | [p] => simp [segsB]
    | p :: q :: ps => simp [segsB]
  | succ b ih =>
    intro ps
    induction ps with
    | nil => simp [segsB]
    | cons p ps ihp =>
      cases ps with
      | nil => simp [segsB]
      | cons q qs =>
        simp only [segsB]
        split
        · exact Nat.le_succ_of_le ihp
        · have := ih (q :: qs)
          simp only [List.length_cons] at this ⊢
          omega

/-- Every segment before position `b` holds exactly one `'/'`. -/
theorem segsB_count (b : Nat) : ∀ (ps : List Str), (∀ p ∈ ps, '/' ∉ p) →
    ∀ i seg, i < b → (segsB b ps).get? i = some seg → seg.count '/' = 1 := by
  induction b with
  | zero => intro ps _ i seg hi; omega
  | succ b ih =>
    intro ps
    induction ps with
    | nil => intro _ i seg _ h; simp [segsB] at h
    | cons p ps ihp =>
      intro hfree i seg hi h
      have hp : '/' ∉ p := hfree p (List.mem_cons_self _ _)
      have hone : ('/' :: p).count '/' = 1 := by
        simp [List.count_cons, List.count_eq_zero_of_not_mem hp]
      cases ps with
      | nil =>
        simp only [segsB] at h
        cases i with
        | zero => simp at h; rw [← h]; exact hone
        | succ i => simp at h
      | cons q qs =>
        simp only [segsB] at h
        split at h
        · exact ihp (fun x hx => hfree x (List.mem_cons_of_mem _ hx)) i seg hi h
        · cases i with
          | zero => simp at h; rw [← h]; exact hone
          | succ i =>
            simp only [List.get?_cons_succ] at h
            exact ih (q :: qs) (fun x hx => hfree x (List.mem_cons_of_mem _ hx)) i seg
              (by omega) h

/-- Every segment `splitPath` returns before position 98 holds exactly one `'/'`. -/
theorem splitPath_count (path : Str) (i : Nat) (seg : Str) (hi : i < 98)
    (h : (splitPath path).get? i = some seg) : seg.count '/' = 1 := by
  cases path with
  | nil =>
    rw [splitPath_nil] at h
    cases i with
    | zero => simp at h; rw [← h]; rfl
    | succ i => simp at h
  | cons c t =>
    by_cases hc : c = '/'
    · subst hc
      rw [splitPath_slash] at h
      exact segsB_count 98 _ (splitOn_sep_mem_free t) i seg hi h
    · rw [splitPath_other c t hc] at h
      exact segsB_count 98 _ (splitOn_sep_mem_free _) i seg hi h

/-- A path that starts with `'/'` has at most as many segments as `'/'` bytes. -/
theorem splitPath_length_le_count (t : Str) :
    (splitPath ('/' :: t)).length ≤ ('/' :: t).count '/' := by
  rw [splitPath_slash]
  have h1 := segsB_length_le 98 (t.splitOn '/')
  rw [splitOn_sep_length] at h1
  simpa [List.count_cons] using h1

theorem count_flatten_take (D : List Str) : ∀ (j : Nat), j ≤ D.length →
    (∀ i seg, i < j → D.get? i = some seg → seg.count '/' = 1) →
    ((D.take j).flatten).count '/' = j := by
  induction D with
  | nil => intro j hj _; simp at hj; subst hj; simp
  | cons d D ih =>
    intro j hj h
    cases j with
    | zero => simp
    | succ j =>
      simp only [List.take_succ_cons, List.flatten_cons, List.count_append]
      rw [h 0 d (by omega) (by simp), ih j (by simpa using hj)
        (fun i seg hi hs => h (i + 1) seg (by omega) (by simpa using hs))]
      omega

theorem mapSet_ne_nil {β : Type} (m : List (Str × β)) (k : Str) (v : β) : mapSet m k v ≠ [] := by
  cases m with
  | nil => simp [mapSet]
  | cons kv m =>
    obtain ⟨k1, v1⟩ := kv
    unfold mapSet
    split <;> simp

theorem genRouteVars_cases {urlPath seg : Str} {i : Nat} {varN varN1 : List (Str × Nat)}
    (h : genRouteVars urlPath seg i varN = .ret varN1) :
    varN1 = varN ∨ varN1 = mapSet varN (seg.drop 2) i := by
  unfold genRouteVars at h
  split at h
  · split at h
    · simp at h
    · split at h
      · simp only at h
        split at h
        · split at h
          · simp at h
          · simp only [Outcome.ret.injEq] at h; exact Or.inr h.symm
        · simp only [Outcome.ret.injEq] at h; exact Or.inr h.symm
      · simp only [Outcome.ret.injEq] at h; exact Or.inl h.symm
  · simp only [Outcome.ret.injEq] at h; exact Or.inl h.symm

/-- The prefix `genRoute` computes is the concatenation of the segments before
the first one that enters the variable map. -/
theorem genRouteLoop_prefix_eq (urlPath : Str) : ∀ (segs : List Str) (i : Nat)
    (varN : List (Str × Nat)) (pfx0 : Str) (varN1 : List (Str × Nat)) (pfx1 : Str),
    genRouteLoop urlPath segs i varN pfx0 = .ret (varN1, pfx1) →
    (varN ≠ [] → pfx1 = pfx0) ∧
    (varN = [] → ∃ j, j ≤ segs.length ∧ pfx1 = pfx0 ++ (segs.take j).flatten) := by
  intro segs
  induction segs with
  | nil =>
    intro i varN pfx0 varN1 pfx1 h
    simp only [genRouteLoop, Outcome.ret.injEq, Prod.mk.injEq] at h
    exact ⟨fun _ => h.2.symm, fun _ => ⟨0, by simp, by simp [h.2]⟩⟩
  | cons seg rest ih =>
    intro i varN pfx0 varN1 pfx1 h
    unfold genRouteLoop at h
    rcases hs : genRouteVars urlPath seg i varN with varN2 | p
    · rw [hs] at h
      simp only at h
      have hih := ih (i + 1) varN2 _ varN1 pfx1 h
      have hc := genRouteVars_cases hs
      constructor
      · intro hne
        have hne2 : varN2 ≠ [] := by
          rcases hc with h1 | h1
          · rw [h1]; exact hne
          · rw [h1]; exact mapSet_ne_nil _ _ _
        have hl : ¬ varN2.length = 0 := fun h0 => hne2 (List.length_eq_zero.1 h0)
        have := hih.1 hne2
        rwa [if_neg hl] at this
      · intro he
        by_cases hne2 : varN2 = []
        · obtain ⟨j, hj, hp⟩ := hih.2 hne2
          have hl : varN2.length = 0 := by rw [hne2]; rfl
          rw [if_pos hl] at hp
          exact ⟨j + 1, by simpa using hj, by rw [hp]; simp⟩
        · have hl : ¬ varN2.length = 0 := fun h0 => hne2 (List.length_eq_zero.1 h0)
          have := hih.1 hne2
          rw [if_neg hl] at this
          exact ⟨0, by simp, by simp [this]⟩
    · rw [hs] at h; simp at h

theorem splitPath_sep : splitPath URLSep = [URLSep] := by decide

/-- The static prefix of a route splits into at most as many segments as the
pattern of the route. -/
theorem prefix_segments_le (r : Route) (hok : RouteOK r) :
    (splitPath r.prefixStr).length ≤ r.deepPath.length := by
  obtain ⟨hD, pfx, hl, hp⟩ := hok
  have hlen := splitPath_length r.urlPath
  rw [← hD] at hlen
  obtain ⟨j, hj, hpfx⟩ := (genRouteLoop_prefix_eq r.urlPath r.deepPath 0 [] [] r.varsN pfx hl).2 rfl
  simp only [List.nil_append] at hpfx
  by_cases h0 : pfx.length = 0
  · rw [hp, if_pos h0, splitPath_sep]
    simpa using hlen.1
  · rw [hp, if_neg h0]
    by_cases h99 : r.deepPath.length = 99
    · rw [h99]; exact (splitPath_length pfx).2
    · have hj98 : j ≤ 98 := by omega
      have hcount : pfx.count '/' = j := by
        rw [hpfx]
        apply count_flatten_take _ _ hj
        intro i seg hi hs
        rw [hD] at hs
        exact splitPath_count r.urlPath i seg (by omega) hs
      -- the prefix starts with `'/'`
      obtain ⟨t, ht⟩ : ∃ t, pfx = '/' :: t := by
        cases hDc : r.deepPath with
        | nil => rw [hDc] at hlen; simp at hlen
        | cons d D =>
          rw [hDc] at hpfx
          cases j with
          | zero => simp at hpfx; rw [hpfx] at h0; simp at h0
          | succ j =>
            obtain ⟨rest, hr⟩ := splitPath_lead r.urlPath d (by rw [← hD, hDc]; simp)
            exact ⟨rest ++ (D.take j).flatten, by rw [hpfx, hr]; simp⟩
      rw [ht] at hcount ⊢
      have := splitPath_length_le_count t
      omega

theorem genRouteVars_static (urlPath seg : Str) (i : Nat) (hlead : ∃ rest, seg = '/' :: rest)
    (hvar : seg.get? 1 ≠ some ':') : genRouteVars urlPath seg i [] = .ret [] := by
  obtain ⟨rest, rfl⟩ := hlead
  unfold genRouteVars
  by_cases hs : ('/' :: rest) ≠ URLSep
  · rw [if_pos hs]
    cases rest with
    | nil => exact absurd rfl hs
    | cons c cs =>
      have hc : c ≠ ':' := by simpa using hvar
      simp [hc]
  · rw [if_neg hs]

theorem genRouteLoop_static (urlPath : Str) : ∀ (segs : List Str) (i : Nat) (pfx0 : Str),
    (∀ seg ∈ segs, (∃ rest, seg = '/' :: rest) ∧ seg.get? 1 ≠ some ':') →
    genRouteLoop urlPath segs i [] pfx0 = .ret ([], pfx0 ++ segs.flatten) := by
  intro segs
  induction segs with
  | nil => intro i pfx0 _; simp [genRouteLoop]
  | cons seg rest ih =>
    intro i pfx0 h
    unfold genRouteLoop
    have hseg := h seg (List.mem_cons_self _ _)
    rw [genRouteVars_static urlPath seg i hseg.1 hseg.2]
    simp only [List.length_nil, if_true]
    rw [ih (i + 1) (pfx0 ++ seg) (fun s hs => h s (List.mem_cons_of_mem _ hs))]
    simp

theorem intercalate_cons_cons (p q : Str) (ps : List Str) :
    List.intercalate ['/'] (p :: q :: ps) = p ++ '/' :: List.intercalate ['/'] (q :: ps) := by
  simp [List.intercalate, List.intersperse]

theorem flatten_segsB (b : Nat) : ∀ (ps : List Str), ps ≠ [] → (∀ p ∈ ps.dropLast, p ≠ []) →
    (segsB b ps).flatten = '/' :: List.intercalate ['/'] ps := by
  induction b with
  | zero =>
    intro ps hne _
    match ps, hne with
    | [p], _ => simp [segsB, List.intercalate]
    | p :: q :: ps, _ => simp [segsB]
  | succ b ih =>
    intro ps
    induction ps with
    | nil => intro h; exact absurd rfl h
    | cons p ps ihp =>
      intro _ hd
      cases ps with
      | nil => simp [segsB, List.intercalate]
      | cons q qs =>
        have hp : p ≠ [] := hd p (by simp)
        simp only [segsB, hp, if_false, List.flatten_cons]
        rw [ih (q :: qs) (by simp) (fun x hx => hd x (by
          rw [List.dropLast_cons_of_ne_nil (by simp)]
          exact List.mem_cons_of_mem _ hx)), intercalate_cons_cons]
        simp

theorem pieces_of_noRepeatedSep (s : Str) (h : NoRepeatedSep ('/' :: s)) :
    ∀ p ∈ (s.splitOn '/').dropLast, p ≠ [] := by
  generalize hn : s.length = n
  induction n using Nat.strong_induction_on generalizing s with
  | _ n ih =>
    rcases sep_cases s with hf | ⟨pre, rest, hpre, rfl⟩
    · rw [splitOn_sep_free hf]; simp
    · rw [splitOn_sep_first hpre, List.dropLast_cons_of_ne_nil (splitOn_sep_ne_nil rest)]
      intro p hp
      rcases List.mem_cons.1 hp with h1 | h1
      · rw [h1]
        intro hnil
        subst hnil
        unfold NoRepeatedSep at h
        simp [List.chain'_cons] at h
      · refine ih rest.length (by subst hn; simp; omega) rest ?_ rfl p h1
        unfold NoRepeatedSep at h ⊢
        have : '/' :: rest <:+ '/' :: (pre ++ '/' :: rest) :=
          ⟨'/' :: pre, by simp⟩
        exact h.suffix this

/-- A pattern that starts with `'/'` and has no repeated separator is the
concatenation of its segments. -/
theorem flatten_splitPath (t : Str) (h : NoRepeatedSep ('/' :: t)) :
    (splitPath ('/' :: t)).flatten = '/' :: t := by
  rw [splitPath_slash, flatten_segsB 98 _ (splitOn_sep_ne_nil t) (pieces_of_noRepeatedSep t h),
    intercalate_splitOn_sep]

/-- The static prefix of a route without variable segment and without repeated
separator is its pattern. -/
theorem static_prefix_eq (r : Route) (hok : RouteOK r) (hslash : r.urlPath.head? = some '/')
    (hnovar : NoVarSegment r.urlPath) (hns : NoRepeatedSep r.urlPath) :
    r.prefixStr = r.urlPath := by
  obtain ⟨hD, pfx, hl, hp⟩ := hok
  obtain ⟨t, ht⟩ : ∃ t, r.urlPath = '/' :: t := by
    cases hu : r.urlPath with
    | nil => rw [hu] at hslash; simp at hslash
    | cons c t => rw [hu] at hslash; simp at hslash; exact ⟨t, by rw [hslash]⟩
  rw [hD] at hl
  rw [genRouteLoop_static r.urlPath (splitPath r.urlPath) 0 []
    (fun seg hs => ⟨splitPath_lead _ seg hs, hnovar seg hs⟩)] at hl
  simp only [Outcome.ret.injEq, Prod.mk.injEq, List.nil_append] at hl
  rw [hp, ← hl.2, ht, flatten_splitPath t (ht ▸ hns)]
  simp

theorem exists_first_split {k : Nat} : ∀ {ks : List Nat}, k ∈ ks →
    ∃ pre post, ks = pre ++ k :: post ∧ k ∉ pre := by
  intro ks
  induction ks with
  | nil => intro h; simp at h
  | cons x xs ih =>
    intro h
    by_cases hx : x = k
    · exact ⟨[], xs, by simp [hx], by simp⟩
    · have hmem : k ∈ xs := by
        rcases List.mem_cons.1 h with h1 | h1
        · exact absurd h1.symm hx
        · exact h1
      obtain ⟨pre, post, he, hn⟩ := ih hmem
      refine ⟨x :: pre, post, by simp [he], ?_⟩
      simp only [List.mem_cons, not_or]
      exact ⟨fun h1 => hx h1.symm, hn⟩

theorem chainDone_unit (r : St × Outcome (Bool × Bool)) (g : Bool → Bool → St → St × Outcome Unit) :
    (match chainDone r with
      | (st1, .panic e) => ((st1, Outcome.panic e) : St × Outcome Unit)
      | (st1, .ret .done) => (st1, .ret ())
      | (st1, .ret (.next m1 p1)) => g m1 p1 st1) = chainUnit r := by
  obtain ⟨s, mp | e⟩ := r <;> rfl

/-- In a bucket, a route that hits the request whose path is the key of the
bucket has the segment count of the path. -/
theorem bucket_hit_length {a : FastRouter} (hw : WF a) {k1 : Nat} {v1 : Route} {path method : Str}
    (hv1 : a.routes.get? k1 = some v1) (hp : v1.prefixStr = path) (hh : Hit v1 method path) :
    v1.deepPath.length = (splitPath path).length := by
  rcases (shapeMatch_iff _ _).1 hh.2 with ⟨h1, -⟩ | ⟨-, h1⟩
  · exact h1
  · have := prefix_segments_le v1 (hw.routeOK k1 v1 hv1)
    rw [hp] at this
    omega

/-- The log of the dispatch of a request with the method and the pattern of a
route without variable segment: the route is reached, in the exact-prefix
pass. -/
theorem reached_exact_route (a : FastRouter) (hb : Built a) (k : Nat) (r : Route)
    (hk : a.routes.get? k = some r) (hslash : r.urlPath.head? = some '/')
    (hnovar : NoVarSegment r.urlPath) (hns : NoRepeatedSep r.urlPath)
    (hlen : r.urlPath.length ≤ PathMaxSize) (c : Ctx) (hp : c.path = r.urlPath)
    (hm : c.method = r.method) :
    Reached a c k ∧ Event.matched k ∈ (exactPass a c.method c.path ⟨c, []⟩).1.log := by
  have hw := hb.wf
  have hok := hw.routeOK k r hk
  have hpre : r.prefixStr = c.path := by rw [hp]; exact static_prefix_eq r hok hslash hnovar hns
  obtain ⟨h, hbk, hmem⟩ := hw.complete k r hk
  rw [hpre] at hbk
  obtain ⟨pre, post, hsplit, hnot⟩ := exists_first_split hmem
  have hD : r.deepPath = splitPath c.path := by rw [hp]; exact hok.1
  have hit : Hit r c.method c.path := by
    refine ⟨hm.symm, (shapeMatch_iff _ _).2 (Or.inl ⟨by rw [hD], by rw [hD]⟩)⟩
  have hmiss : ∀ k1 ∈ pre, ∃ v1, a.routes.get? k1 = some v1 ∧ ¬ Hit v1 c.method c.path := by
    intro k1 hk1
    obtain ⟨v1, hv1, hp1⟩ := hw.sound _ h hbk k1 (by rw [hsplit]; simp [hk1])
    refine ⟨v1, hv1, fun hh => ?_⟩
    have hl1 := bucket_hit_length hw hv1 hp1 hh
    have : k1 = k := hw.unique k1 k v1 r hv1 hk (by rw [hp1, hpre]) (by rw [hl1, hD])
      (by rw [hh.1, hm])
    exact hnot (this ▸ hk1)
  obtain ⟨st1, st2, l, ⟨l0, hl0, hq0⟩, hpass, hl, hml, hql⟩ :=
    passOne_reach a c.method c.path k r hk hok hit pre post false false ⟨c, []⟩ hmiss
  simp only [List.nil_append] at hl0
  have hex : exactPass a c.method c.path ⟨c, []⟩ = chainDone (runChain a k r st2) := by
    unfold exactPass
    rw [hbk, hsplit]
    exact hpass
  have hrr : routeRequest a c.method c.path ⟨c, []⟩ = chainUnit (runChain a k r st2) := by
    unfold routeRequest
    rw [hex]
    exact chainDone_unit _ _
  have hm2 : Event.matched k ∈ st2.log := by rw [hl]; exact List.mem_append_right _ hml
  refine ⟨reached_of_chain a c (by rw [hp]; exact hlen) k r st2 hrr hm2 ?_, ?_⟩
  · intro e he
    rw [hl, hl0] at he
    rcases List.mem_append.1 he with h1 | h1
    · have := quiet_facts (hq0 e h1)
      exact ⟨this.1, this.2.1, this.2.2.1, fun k1 hk1 => absurd hk1 (this.2.2.2 k1)⟩
    · exact hql e h1
  · rw [hex, chainDone_runChain_log]
    exact runChain_mono a k r st2 _ hm2

/-! ## a pattern longer than `PathMaxSize` -/

theorem Handler_too_long (a : FastRouter) (st : St) (h : st.ctx.path.length > PathMaxSize) :
    Handler a st =
      ({ ctx := st.ctx.setStatusCode 414, log := st.log ++ [Event.setStatus 414] }, none) := by
  unfold Handler
  simp only
  rw [if_pos h]

theorem splitPath_free (t : Str) (h : '/' ∉ t) : splitPath ('/' :: t) = ['/' :: t] := by
  rw [splitPath_slash, splitOn_sep_free h, segsB_single]

theorem noRepeatedSep_free (t : Str) (h : '/' ∉ t) : NoRepeatedSep ('/' :: t) := by
  unfold NoRepeatedSep
  rw [List.chain'_cons']
  constructor
  · intro y hy
    have : y ∈ t := List.mem_of_mem_head? hy
    intro hc
    exact h (hc.2 ▸ this)
  · induction t with
    | nil => exact List.chain'_nil
    | cons x xs ih =>
      rw [List.chain'_cons']
      refine ⟨?_, ih (fun hm => h (List.mem_cons_of_mem _ hm))⟩
      intro y _ hc
      exact h (hc.1 ▸ List.mem_cons_self _ _)

theorem aPattern_free (n : Nat) : '/' ∉ List.replicate n 'a' := by
  intro h
  have := List.eq_of_mem_replicate h
  exact absurd this (by decide)

theorem aPattern_length (n : Nat) : (aPattern n).length = n + 1 := by
  simp [aPattern]

theorem aPattern_split (n : Nat) : splitPath (aPattern n) = [aPattern n] :=
  splitPath_free _ (aPattern_free n)

theorem aPattern_noVar (n : Nat) : NoVarSegment (aPattern n) := by
  intro seg hseg
  rw [aPattern_split, List.mem_singleton] at hseg
  subst hseg
  cases n with
  | zero => simp [aPattern]
  | succ n => simp [aPattern, List.replicate_succ]

theorem handle_aPattern (n : Nat) :
    handle NewRouter "GET".toList (aPattern n) false okHandler [] =
      .ok { NewRouter with
            indexRoutes := [(aPattern n, [0])]
            routes := [{ deepPath := [aPattern n], varsN := [], prefixStr := aPattern n,
                         urlPath := aPattern n, method := "GET".toList,
                         allowMethods := ["GET".toList], isPrefixHandler := false,
                         preHandlers := [], handler := okHandler }] } := by
  have hg : genRoute "GET".toList (aPattern n) false okHandler [] =
      .ret { deepPath := [aPattern n], varsN := [], prefixStr := aPattern n,
             urlPath := aPattern n, method := "GET".toList,
             allowMethods := ["GET".toList], isPrefixHandler := false,
             preHandlers := [], handler := okHandler } := by
    unfold genRoute
    simp only [aPattern_split]
    have hl : genRouteLoop (aPattern n) [aPattern n] 0 [] [] = .ret ([], aPattern n) := by
      rw [genRouteLoop_static (aPattern n) [aPattern n] 0 [] (by
        intro seg hseg
        refine ⟨⟨_, by rw [List.mem_singleton.1 hseg]; rfl⟩, ?_⟩
        exact aPattern_noVar n seg (by rw [aPattern_split]; exact hseg))]
      simp
    rw [hl]
    have h0 : ¬ (aPattern n).length = 0 := by rw [aPattern_length]; omega
    simp only [h0, if_false]
  unfold handle
  have h1 : ¬ aPattern n = [] := by simp [aPattern]
  have h2 : ¬ ((aPattern n).head? ≠ some '/') := by simp [aPattern]
  rw [if_neg h1, if_neg h2, hg]
  rfl

theorem aRouter_eq (n : Nat) :
    aRouter n = { NewRouter with
            indexRoutes := [(aPattern n, [0])]
            routes := [{ deepPath := [aPattern n], varsN := [], prefixStr := aPattern n,
                         urlPath := aPattern n, method := "GET".toList,
                         allowMethods := ["GET".toList], isPrefixHandler := false,
                         preHandlers := [], handler := okHandler }] } := by
  unfold aRouter
  rw [handle_aPattern]
  rfl

theorem built_aRouter (n : Nat) : Built (aRouter n) := by
  rw [aRouter_eq]
  exact Built.handle _ _ _ _ _ Built.new (handle_aPattern n)

/-- C1 as stated fails: a pattern of 8183 bytes is registered, starts with
`'/'`, has no variable segment and no repeated separator, and the request with
its method and this path is rejected with status 414 before any match attempt. -/
theorem long_pattern_not_reached :
    Built longRouter ∧
    (∃ r, longRouter.routes.get? 0 = some r ∧ r.urlPath = longPattern ∧
      r.method = "GET".toList ∧ r.urlPath.head? = some '/' ∧
      NoVarSegment r.urlPath ∧ NoRepeatedSep r.urlPath) ∧
    (Handler longRouter (request "GET".toList longPattern)).1.log = [Event.setStatus 414] ∧
    ¬ Reached longRouter (request "GET".toList longPattern).ctx 0 := by
  have hlog : (Handler longRouter (request "GET".toList longPattern)).1.log =
      [Event.setStatus 414] := by
    rw [Handler_too_long _ _ (by
      show (aPattern 8182).length > PathMaxSize
      rw [aPattern_length]; decide)]
    rfl
  refine ⟨built_aRouter 8182, ?_, hlog, ?_⟩
  · refine ⟨{ deepPath := [aPattern 8182], varsN := [], prefixStr := aPattern 8182,
              urlPath := aPattern 8182, method := "GET".toList,
              allowMethods := ["GET".toList], isPrefixHandler := false,
              preHandlers := [], handler := okHandler }, ?_, rfl, rfl, rfl,
      aPattern_noVar 8182, noRepeatedSep_free _ (aPattern_free 8182)⟩
    show (aRouter 8182).routes.get? 0 = _
    rw [aRouter_eq]
    rfl
  · intro h
    have h1 := h.1
    have hreq : (⟨(request "GET".toList longPattern).ctx, []⟩ : St) =
        request "GET".toList longPattern := rfl
    rw [hreq, hlog] at h1
    simp at h1

/-! ## dispatch that reaches a route in the fallback pass -/

theorem tryWinner_reach (a : FastRouter) (method path : Str) (deepLen idx : Nat) (v : Route)
    (hd : deepLen > 0) (hk : a.routes.get? idx = some v) (hok : RouteOK v)
    (hh : Hit v method path) (m0 p0 : Bool) (st : St) :
    ∃ st2 l, tryWinner a method path deepLen idx m0 p0 st = chainDone (runChain a idx v st2) ∧
      st2.log = st.log ++ l ∧ Event.matched idx ∈ l ∧
      (∀ e ∈ l, e.isRun = false ∧ e.isTail = false ∧ e.isStop = false ∧
        (∀ k1, e = Event.matched k1 → k1 = idx)) := by
  obtain ⟨st2, l, hs, hl, hm, hq, -, -, -⟩ := serve_hit_chain a idx v hok method path st hh
  refine ⟨st2, l, ?_, hl, hm, hq⟩
  unfold tryWinner
  rw [if_pos hd, hk]
  simp only [hs]
  exact runChain_chainDone a idx v st2 _

theorem tryWinner_miss (a : FastRouter) (method path : Str) (deepLen idx : Nat)
    (hv : deepLen > 0 → ∃ v, a.routes.get? idx = some v ∧ ¬ Hit v method path)
    (m0 p0 : Bool) (st : St) :
    ∃ st1 m1 p1, tryWinner a method path deepLen idx m0 p0 st = (st1, .ret (.next m1 p1)) ∧
      Quiet st st1 := by
  unfold tryWinner
  by_cases hd : deepLen > 0
  · rw [if_pos hd]
    obtain ⟨v, hk, hmiss⟩ := hv hd
    have hmiss' : (v.method == method && shapeMatch v (splitPath path)) = false := by
      by_contra hc
      simp only [Bool.not_eq_false, Bool.and_eq_true, beq_iff_eq] at hc
      exact hmiss ⟨hc.1, hc.2⟩
    refine ⟨_, v.method == method, shapeMatch v (splitPath path), ?_,
      quiet_setAllowHeader idx v st⟩
    rw [hk]
    simp only [serve_miss a idx v method path st hmiss', hmiss']
    rfl
  · rw [if_neg hd]
    exact ⟨st, m0, p0, rfl, Quiet.refl st⟩

theorem reached_props_append {k : Nat} {l0 l : List Event}
    (h0 : ∀ e ∈ l0, e.isQuiet = true)
    (hl : ∀ e ∈ l, e.isRun = false ∧ e.isTail = false ∧ e.isStop = false ∧
      (∀ k1, e = Event.matched k1 → k1 = k)) :
    ∀ e ∈ l0 ++ l, e.isRun = false ∧ e.isTail = false ∧ e.isStop = false ∧
      (∀ k1, e = Event.matched k1 → k1 = k) := by
  intro e he
  rcases List.mem_append.1 he with h1 | h1
  · have := quiet_facts (h0 e h1)
    exact ⟨this.1, this.2.1, this.2.2.1, fun k1 hk1 => absurd hk1 (this.2.2.2 k1)⟩
  · exact hl e h1

/-- The catch-all winner of the scan is reached when the path has no bucket
and the winner hits the request. -/
theorem reached_catch_all (a : FastRouter) (c : Ctx) (hlen : c.path.length ≤ PathMaxSize)
    (sc : Scan) (hsc : scan a c.path = sc) (v : Route)
    (hidx : mapGet a.indexRoutes c.path = none) (hd : sc.prefixDeepLen > 0)
    (hk : a.routes.get? sc.prefixMaxDeep = some v) (hok : RouteOK v)
    (hh : Hit v c.method c.path) : Reached a c sc.prefixMaxDeep := by
  obtain ⟨st2, l, ht, hl, hm, hq⟩ := tryWinner_reach a c.method c.path sc.prefixDeepLen
    sc.prefixMaxDeep v hd hk hok hh false false ⟨c, []⟩
  have hrr : routeRequest a c.method c.path ⟨c, []⟩ =
      chainUnit (runChain a sc.prefixMaxDeep v st2) := by
    unfold routeRequest exactPass
    rw [hidx]
    simp only
    unfold fallbackPass
    simp only [hsc, ht]
    rcases runChain a sc.prefixMaxDeep v st2 with ⟨s, mp | e⟩ <;> rfl
  simp only [List.nil_append] at hl
  exact reached_of_chain a c hlen _ v st2 hrr (by rw [hl]; exact hm)
    (by rw [hl]; exact hq)

/-- The other winner of the scan is reached when the path has no bucket, the
catch-all winner (if any) misses the request and the other winner hits it. -/
theorem reached_normal (a : FastRouter) (c : Ctx) (hlen : c.path.length ≤ PathMaxSize)
    (sc : Scan) (hsc : scan a c.path = sc) (v : Route)
    (hidx : mapGet a.indexRoutes c.path = none)
    (hpre : sc.prefixDeepLen > 0 →
      ∃ v0, a.routes.get? sc.prefixMaxDeep = some v0 ∧ ¬ Hit v0 c.method c.path)
    (hd : sc.normalDeepLen > 0)
    (hk : a.routes.get? sc.normalMaxDeep = some v) (hok : RouteOK v)
    (hh : Hit v c.method c.path) : Reached a c sc.normalMaxDeep := by
  obtain ⟨st1, m1, p1, ht1, l0, hl0, hq0⟩ := tryWinner_miss a c.method c.path sc.prefixDeepLen
    sc.prefixMaxDeep hpre false false ⟨c, []⟩
  obtain ⟨st2, l, ht, hl, hm, hq⟩ := tryWinner_reach a c.method c.path sc.normalDeepLen
    sc.normalMaxDeep v hd hk hok hh m1 p1 st1
  have hrr : routeRequest a c.method c.path ⟨c, []⟩ =
      chainUnit (runChain a sc.normalMaxDeep v st2) := by
    unfold routeRequest exactPass
    rw [hidx]
    simp only
    unfold fallbackPass
    simp only [hsc, ht1, ht]
    rcases runChain a sc.normalMaxDeep v st2 with ⟨s, mp | e⟩ <;> rfl
  simp only [List.nil_append] at hl0
  rw [hl0] at hl
  exact reached_of_chain a c hlen _ v st2 hrr
    (by rw [hl]; exact List.mem_append_right _ hm)
    (by rw [hl]; exact reached_props_append hq0 hq)

/-! ## catch-all precedence -/

theorem WF_empty (a0 : FastRouter) (h0 : a0.routes = []) (h0i : a0.indexRoutes = []) : WF a0 := by
  refine ⟨?_, ?_, ?_, ?_⟩ <;> simp [h0, h0i, mapGet]

theorem not_hit_of_shape {v : Route} {method path : Str}
    (h : shapeMatch v (splitPath path) = false) : ¬ Hit v method path := by
  intro hh
  rw [hh.2] at h
  exact absurd h (by decide)

/-- The logs on the router that holds the catch-all route `/a/:b/:c` and the
exact route `/a/:y` for one method and no other route, registered in either
order: the request `/a/1/2` reaches the catch-all route and the request `/a/1`
reaches the exact route. -/
theorem two_routes_reached (a0 : FastRouter) (h0 : a0.routes = [])
    (h0i : a0.indexRoutes = []) (M : Str) (hc he : RequestHandler) (pc pe : List PreHandler)
    (c12 c1 : Ctx) (h12 : c12.path = "/a/1/2".toList) (h12m : c12.method = M)
    (h1 : c1.path = "/a/1".toList) (h1m : c1.method = M) :
    (∃ a1 a2, handle a0 M "/a/:b/:c".toList true hc pc = .ok a1 ∧
      handle a1 M "/a/:y".toList false he pe = .ok a2 ∧
      a2.routes.map (fun r => (r.urlPath, r.isPrefixHandler)) =
        [("/a/:b/:c".toList, true), ("/a/:y".toList, false)] ∧
      Reached a2 c12 0 ∧ Reached a2 c1 1) ∧
    (∃ b1 b2, handle a0 M "/a/:y".toList false he pe = .ok b1 ∧
      handle b1 M "/a/:b/:c".toList true hc pc = .ok b2 ∧
      b2.routes.map (fun r => (r.urlPath, r.isPrefixHandler)) =
        [("/a/:y".toList, false), ("/a/:b/:c".toList, true)] ∧
      Reached b2 c12 1 ∧ Reached b2 c1 0) := by
  have hw0 := WF_empty a0 h0 h0i
  obtain ⟨idx, routes, nf, na, rc, gs⟩ := a0
  simp only at h0 h0i
  subst h0 h0i
  have hl12 : c12.path.length ≤ PathMaxSize := by rw [h12]; decide
  have hl1 : c1.path.length ≤ PathMaxSize := by rw [h1]; decide
  constructor
  · have ha1 : handle ⟨[], [], nf, na, rc, gs⟩ M "/a/:b/:c".toList true hc pc =
        .ok (handle ⟨[], [], nf, na, rc, gs⟩ M "/a/:b/:c".toList true hc pc).router := rfl
    have ha2 : handle (handle ⟨[], [], nf, na, rc, gs⟩ M "/a/:b/:c".toList true hc pc).router
        M "/a/:y".toList false he pe =
        .ok (handle (handle ⟨[], [], nf, na, rc, gs⟩ M "/a/:b/:c".toList true hc pc).router
          M "/a/:y".toList false he pe).router := rfl
    have hw2 := WF_handle (WF_handle hw0 ha1) ha2
    refine ⟨_, _, ha1, ha2, rfl, ?_, ?_⟩
    · refine reached_catch_all _ c12 hl12 ⟨1, 2, 0, 2⟩ (by rw [h12]; rfl) _
        (by rw [h12]; rfl) (by decide) rfl (hw2.routeOK 0 _ rfl) ?_
      rw [h12, h12m]; exact ⟨rfl, rfl⟩
    · refine reached_normal _ c1 hl1 ⟨1, 2, 0, 2⟩ (by rw [h1]; rfl) _
        (by rw [h1]; rfl) (fun _ => ⟨_, rfl, ?_⟩) (by decide) rfl (hw2.routeOK 1 _ rfl) ?_
      · rw [h1]; exact not_hit_of_shape rfl
      · rw [h1, h1m]; exact ⟨rfl, rfl⟩
  · have hb1 : handle ⟨[], [], nf, na, rc, gs⟩ M "/a/:y".toList false he pe =
        .ok (handle ⟨[], [], nf, na, rc, gs⟩ M "/a/:y".toList false he pe).router := rfl
    have hb2 : handle (handle ⟨[], [], nf, na, rc, gs⟩ M "/a/:y".toList false he pe).router
        M "/a/:b/:c".toList true hc pc =
        .ok (handle (handle ⟨[], [], nf, na, rc, gs⟩ M "/a/:y".toList false he pe).router
          M "/a/:b/:c".toList true hc pc).router := rfl
    have hw2 := WF_handle (WF_handle hw0 hb1) hb2
    refine ⟨_, _, hb1, hb2, rfl, ?_, ?_⟩
    · refine reached_catch_all _ c12 hl12 ⟨0, 2, 1, 2⟩ (by rw [h12]; rfl) _
        (by rw [h12]; rfl) (by decide) rfl (hw2.routeOK 1 _ rfl) ?_
      rw [h12, h12m]; exact ⟨rfl, rfl⟩
    · refine reached_normal _ c1 hl1 ⟨0, 2, 1, 2⟩ (by rw [h1]; rfl) _
        (by rw [h1]; rfl) (fun _ => ⟨_, rfl, ?_⟩) (by decide) rfl (hw2.routeOK 0 _ rfl) ?_
      · rw [h1]; exact not_hit_of_shape rfl
      · rw [h1, h1m]; exact ⟨rfl, rfl⟩

/-! ## the segment limit of `splitPath` -/

/-- C12: for every input, `splitPath` returns at most 100 segments. -/
theorem splitPath_at_most_max (s : Str) : (splitPath s).length ≤ SplitPathMAXSize := by
  have h := (splitPath_length s).2
  simp only [SplitPathMAXSize]
  omega

theorem intercalate_suffix (qs : List Str) (hq : qs ≠ []) : ∀ (pre : List Str),
    List.intercalate ['/'] qs <:+ List.intercalate ['/'] (pre ++ qs) := by
  intro pre
  induction pre with
  | nil => exact List.suffix_refl _
  | cons p pre ih =>
    obtain ⟨x, xs, hx⟩ := List.exists_cons_of_ne_nil (show pre ++ qs ≠ [] by simp [hq])
    rw [List.cons_append, hx, intercalate_cons_cons, ← hx]
    exact ih.trans ⟨p ++ ['/'], by simp⟩

theorem segsB_truncated (b : Nat) : ∀ (ps : List Str), b + 1 < (pieceSegs ps).length →
    (segsB b ps).length = b + 1 ∧ (segsB b ps).take b = (pieceSegs ps).take b ∧
    ∃ qs, qs ≠ [] ∧ qs <:+ ps ∧
      (segsB b ps).get? b = some ('/' :: List.intercalate ['/'] qs) ∧
      pieceSegs qs = (pieceSegs ps).drop b := by
  induction b with
  | zero =>
    intro ps h
    match ps, h with
    | [], h => simp [pieceSegs] at h
    | [p], h => rw [pieceSegs_single] at h; simp at h
    | p :: q :: ps, _ =>
      refine ⟨by simp [segsB], by simp, p :: q :: ps, by simp, List.suffix_refl _, by simp [segsB],
        by simp⟩
  | succ b ih =>
    intro ps
    induction ps with
    | nil => intro h; simp [pieceSegs] at h
    | cons p ps ihp =>
      intro h
      match ps, ihp, h with
      | [], _, h => rw [pieceSegs_single] at h; simp at h
      | q :: ps, ihp, h =>
        rw [pieceSegs_cons p (List.cons_ne_nil q ps)] at h ⊢
        by_cases hp : p = []
        · subst hp
          simp only [if_true, List.nil_append] at h ⊢
          obtain ⟨h1, h2, qs, hq, hsuf, h3, h4⟩ := ihp h
          have he : segsB (b + 1) ([] :: q :: ps) = segsB (b + 1) (q :: ps) := by simp [segsB]
          rw [he]
          exact ⟨h1, h2, qs, hq, hsuf.trans (List.suffix_cons _ _), h3, h4⟩
        · simp only [if_neg hp, List.singleton_append, List.length_cons] at h ⊢
          obtain ⟨h1, h2, qs, hq, hsuf, h3, h4⟩ := ih (q :: ps) (by omega)
          have he : segsB (b + 1) (p :: q :: ps) = ('/' :: p) :: segsB b (q :: ps) := by
            simp [segsB, hp]
          rw [he]
          refine ⟨by simp [h1], by simp [h2], qs, hq, hsuf.trans (List.suffix_cons _ _), ?_, ?_⟩
          · simpa using h3
          · simpa using h4

theorem refSegments_intercalate (qs : List Str) (hq : qs ≠ []) (hfree : ∀ p ∈ qs, '/' ∉ p) :
    refSegments (List.intercalate ['/'] qs) = pieceSegs qs := by
  rw [refSegments_eq, List.splitOn_intercalate _ _ hfree hq]

theorem segsB_truncated_path (t : Str) (h : 99 < (pieceSegs (t.splitOn '/')).length) :
    (segsB 98 (t.splitOn '/')).length = 99 ∧
    (segsB 98 (t.splitOn '/')).take 98 = (pieceSegs (t.splitOn '/')).take 98 ∧
    ∃ rest, (segsB 98 (t.splitOn '/')).get? 98 = some ('/' :: rest) ∧ rest <:+ t ∧
      refSegments rest = (pieceSegs (t.splitOn '/')).drop 98 := by
  obtain ⟨h1, h2, qs, hq, hsuf, h3, h4⟩ := segsB_truncated 98 (t.splitOn '/') (by omega)
  refine ⟨h1, h2, List.intercalate ['/'] qs, h3, ?_, ?_⟩
  · obtain ⟨pre, hpre⟩ := hsuf
    have := intercalate_suffix qs hq pre
    rwa [hpre, intercalate_splitOn_sep] at this
  · rw [refSegments_intercalate qs hq, h4]
    intro p hp
    exact splitOn_sep_mem_free t p (hsuf.subset hp)

theorem splitOn_sep_lead (t : Str) : ('/' :: t).splitOn '/' = [] :: t.splitOn '/' :=
  @splitOn_sep_first [] t (by simp)

/-- C11, as the code has it: for every path whose full segmentation has more
than 99 segments (so also for every one with more than 100), `splitPath`
returns 99 segments, namely the first 98 segments of the full segmentation
followed by one segment made of `'/'` and the whole unsplit rest of the path;
that rest is a suffix of the path and its own segmentation is the remaining
segments of the full segmentation, so nothing of the path is dropped. -/
theorem splitPath_truncates (path : Str) (h : 99 < (refSegments path).length) :
    (splitPath path).length = 99 ∧
    (splitPath path).take 98 = (refSegments path).take 98 ∧
    ∃ rest, (splitPath path).get? 98 = some ('/' :: rest) ∧ rest <:+ path ∧
      refSegments rest = (refSegments path).drop 98 := by
  cases path with
  | nil => simp [refSegments, pieces, URLSep] at h
  | cons c t =>
    by_cases hc : c = '/'
    · subst hc
      rw [refSegments_eq, splitOn_sep_lead,
        pieceSegs_cons [] (splitOn_sep_ne_nil t)] at h ⊢
      simp only [if_true, List.nil_append] at h ⊢
      rw [splitPath_slash]
      obtain ⟨h1, h2, rest, h3, h4, h5⟩ := segsB_truncated_path t h
      exact ⟨h1, h2, rest, h3, h4.trans (List.suffix_cons _ _), h5⟩
    · rw [refSegments_eq] at h ⊢
      rw [splitPath_other c t hc]
      exact segsB_truncated_path (c :: t) h

set_option maxRecDepth 100000 in
theorem manySegments_ref : refSegments manySegments = List.replicate 101 "/a".toList := by
  decide

set_option maxRecDepth 100000 in
theorem manySegments_split :
    splitPath manySegments = List.replicate 98 "/a".toList ++ ["/a/a/a".toList] := by
  decide

/-- C11 as stated fails: the full segmentation of 101 times `"/a"` has 101
segments, yet `splitPath` returns 99 segments, not the first 100 of them, and
its last segment `"/a/a/a"` holds the rest of the path. -/
theorem splitPath_keeps_rest :
    100 < (refSegments manySegments).length ∧
    splitPath manySegments ≠ (refSegments manySegments).take 100 ∧
    (splitPath manySegments).length = 99 ∧
    (splitPath manySegments).getLast? = some "/a/a/a".toList := by
  rw [manySegments_ref, manySegments_split]
  decide

theorem splitPath_truncates_witness :
    99 < (refSegments manySegments).length ∧
    (splitPath manySegments).length = 99 ∧
    (splitPath manySegments).take 98 = (refSegments manySegments).take 98 ∧
    ∃ rest, (splitPath manySegments).get? 98 = some ('/' :: rest) ∧ rest <:+ manySegments ∧
      refSegments rest = (refSegments manySegments).drop 98 :=
  ⟨by rw [manySegments_ref]; decide,
    splitPath_truncates manySegments (by rw [manySegments_ref]; decide)⟩

/-! ## registration: repeated variables, allowed methods, pattern guards -/

/-- C14 (the code fails the claim): the duplicate check of `genRoute` reads
`ok && v != 0`, so a variable first seen at segment 0 is not recognised as
seen.  `GET /:a/:a` registers on a new router, the route is added with the
variable `a` bound to position 1 only, and `GET /1/2` is served with
`a = "2"`; with the first occurrence at segment 1, `/x/:a/:a` does fail. -/
theorem repeated_var_registered :
    (∃ a1, handle NewRouter "GET".toList "/:a/:a".toList false okHandler [] = .ok a1) ∧
    repeatRouter.routes.map (fun r => (r.urlPath, r.deepPath, r.varsN)) =
      [("/:a/:a".toList, ["/:a".toList, "/:a".toList], [("a".toList, 1)])] ∧
    dispatchLog repeatRouter "GET".toList "/1/2".toList =
      [Event.attempt 0, Event.setAllow 0 ["GET".toList, "OPTIONS".toList], Event.matched 0,
        Event.setUserValue "a".toList "2".toList, Event.handler 0] ∧
    (∃ a1, handle NewRouter "GET".toList "/x/:a/:a".toList false okHandler [] =
      .panicked (varPanic "/x/:a/:a".toList "/:a".toList) a1 ∧ a1.routes.length = 0) :=
  ⟨⟨_, rfl⟩, by decide, by decide, ⟨_, rfl, by decide⟩⟩

/-- C15 (the code fails the claim): registration adds the new method to the
routes already in the bucket, but the new route starts with its own method
only.  After `GET /x` and then `POST /x`, two routes of one path shape, the
`GET` route allows `GET` and `POST` while the `POST` route allows `POST`
alone. -/
theorem allow_methods_not_merged :
    (∃ a1, handle NewRouter "GET".toList "/x".toList false okHandler [] = .ok a1 ∧
      ∃ a2, handle a1 "POST".toList "/x".toList false okHandler [] = .ok a2) ∧
    methodsRouter.routes.map (fun r => (r.method, r.prefixStr, r.deepPath.length)) =
      [("GET".toList, "/x".toList, 1), ("POST".toList, "/x".toList, 1)] ∧
    methodsRouter.routes.map (fun r => r.allowMethods) =
      [["GET".toList, "POST".toList], ["POST".toList]] :=
  ⟨⟨_, rfl, _, rfl⟩, by decide, by decide⟩

theorem genRouteVars_panic {urlPath rest : Str} {i : Nat} {varN : List (Str × Nat)} {p : Str}
    (h : genRouteVars urlPath ('/' :: rest) i varN = .panic p) :
    p = varPanic urlPath ('/' :: rest) := by
  unfold genRouteVars at h
  split at h
  · rename_i hne
    cases rest with
    | nil => exact absurd rfl hne
    | cons c rest =>
      simp only [List.get?_cons_succ, List.get?_cons_zero] at h
      split at h
      · split at h
        · split at h
          · simpa using h.symm
          · simp at h
        · simp at h
      · simp at h
  · simp at h

theorem genRouteLoop_panic (urlPath : Str) : ∀ (segs : List Str) (i : Nat)
    (varN : List (Str × Nat)) (pfx p : Str), (∀ seg ∈ segs, ∃ rest, seg = '/' :: rest) →
    genRouteLoop urlPath segs i varN pfx = .panic p → ∃ seg ∈ segs, p = varPanic urlPath seg := by
  intro segs
  induction segs with
  | nil => intro i varN pfx p _ h; simp [genRouteLoop] at h
  | cons seg rest ih =>
    intro i varN pfx p hlead h
    unfold genRouteLoop at h
    cases hv : genRouteVars urlPath seg i varN with
    | panic q =>
      rw [hv] at h
      simp only [Outcome.panic.injEq] at h
      obtain ⟨t, ht⟩ := hlead seg (List.mem_cons_self _ _)
      subst ht
      exact ⟨_, List.mem_cons_self _ _, h ▸ genRouteVars_panic hv⟩
    | ret varN1 =>
      rw [hv] at h
      obtain ⟨s, hs, hp⟩ := ih _ _ _ _ (fun s hs => hlead s (List.mem_cons_of_mem _ hs)) h
      exact ⟨s, List.mem_cons_of_mem _ hs, hp⟩

theorem genRoute_panic {method urlPath : Str} {b : Bool} {handler : RequestHandler}
    {pre : List PreHandler} {p : Str} (h : genRoute method urlPath b handler pre = .panic p) :
    ∃ seg ∈ splitPath urlPath, p = varPanic urlPath seg := by
  unfold genRoute at h
  simp only at h
  cases hl : genRouteLoop urlPath (splitPath urlPath) 0 [] [] with
  | panic q =>
    rw [hl] at h
    simp only [Outcome.panic.injEq] at h
    subst h
    exact genRouteLoop_panic urlPath _ _ _ _ _ (splitPath_lead urlPath) hl
  | ret x =>
    rw [hl] at h
    simp at h

theorem mergeLoop_some (r : Route) : ∀ (h : List Nat) (routes : List Route) (p : Str),
    (mergeLoop r h routes).2 = some p → p = existPanic r := by
  intro h
  induction h with
  | nil => intro routes p hp; simp [mergeLoop] at hp
  | cons k ks ih =>
    intro routes p hp
    unfold mergeLoop at hp
    cases hg : routes.get? k with
    | none => rw [hg] at hp; exact ih _ _ hp
    | some v =>
      rw [hg] at hp
      simp only at hp
      split at hp
      · split at hp
        · simpa using hp.symm
        · exact ih _ _ hp
      · exact ih _ _ hp

/-- C16: for every router state, method and handler, registration panics and
leaves the router as it was when the pattern is empty or does not start with
`'/'`; when the pattern starts with `'/'`, a registration that panics does so
only because a variable name is repeated or because the route already
exists. -/
theorem handle_pattern_guard (a : FastRouter) (method urlPath : Str) (isPrefixHandler : Bool)
    (handler : RequestHandler) (preHandler : List PreHandler) :
    (urlPath = [] →
      handle a method urlPath isPrefixHandler handler preHandler =
        .panicked "'URL Path' Cannot be an empty string".toList a) ∧
    (urlPath ≠ [] → urlPath.head? ≠ some '/' →
      handle a method urlPath isPrefixHandler handler preHandler =
        .panicked "'URL Path' must start with '/'".toList a) ∧
    (urlPath.head? = some '/' → ∀ p a1,
      handle a method urlPath isPrefixHandler handler preHandler = .panicked p a1 →
      (∃ seg ∈ splitPath urlPath, p = varPanic urlPath seg) ∨
      (∃ r, genRoute method urlPath isPrefixHandler handler preHandler = .ret r ∧
        p = existPanic r)) := by
  refine ⟨?_, ?_, ?_⟩
  · intro h; simp [handle, h]
  · intro h1 h2; simp [handle, h1, h2]
  · intro hh p a1 h
    have hne : urlPath ≠ [] := by intro h0; simp [h0] at hh
    unfold handle at h
    rw [if_neg hne, if_neg (by simp [hh])] at h
    cases hg : genRoute method urlPath isPrefixHandler handler preHandler with
    | panic q =>
      rw [hg] at h
      simp only [Registered.panicked.injEq] at h
      exact Or.inl (h.1 ▸ genRoute_panic hg)
    | ret r =>
      rw [hg] at h
      simp only at h
      cases hm : mapGet a.indexRoutes r.prefixStr with
      | none => rw [hm] at h; simp at h
      | some b =>
        rw [hm] at h
        simp only at h
        cases hl : mergeLoop r b a.routes with
        | mk routes1 res =>
          rw [hl] at h
          cases res with
          | none => simp at h
          | some q =>
            simp only [Registered.panicked.injEq] at h
            have := mergeLoop_some r b a.routes q (by rw [hl])
            exact Or.inr ⟨r, rfl, h.1 ▸ this⟩

theorem handle_pattern_guard_witness :
    ("noSlashRoot".toList ≠ [] ∧ "noSlashRoot".toList.head? ≠ some '/' ∧
      handle NewRouter "GET".toList "noSlashRoot".toList false okHandler [] =
        .panicked "'URL Path' must start with '/'".toList NewRouter) ∧
    handle NewRouter "GET".toList [] false okHandler [] =
      .panicked "'URL Path' Cannot be an empty string".toList NewRouter ∧
    ("/x/:a/:a".toList.head? = some '/' ∧
      ((∃ seg ∈ splitPath "/x/:a/:a".toList,
          varPanic "/x/:a/:a".toList "/:a".toList = varPanic "/x/:a/:a".toList seg) ∨
        (∃ r, genRoute "GET".toList "/x/:a/:a".toList false okHandler [] = .ret r ∧
          varPanic "/x/:a/:a".toList "/:a".toList = existPanic r))) :=
  ⟨⟨by decide, by decide,
      (handle_pattern_guard NewRouter "GET".toList "noSlashRoot".toList false okHandler []).2.1
        (by decide) (by decide)⟩,
    (handle_pattern_guard NewRouter "GET".toList [] false okHandler []).1 rfl,
    ⟨by decide,
      (handle_pattern_guard NewRouter "GET".toList "/x/:a/:a".toList false okHandler []).2.2
        (by decide) _ NewRouter rfl⟩⟩

/-! ## registering the same method and pattern again -/

theorem Grows.built {a1 a2 : FastRouter} (hb : Built a1) (h : Grows a1 a2) : Built a2 := by
  induction h with
  | refl => exact hb
  | handle method urlPath b handler pre _ hh ih => exact Built.handle _ _ _ _ _ ih hh
  | use f _ ih => exact Built.use f ih
  | setNotFound f _ ih => exact Built.setNotFound f ih
  | setNotAllowed f _ ih => exact Built.setNotAllowed f ih
  | setRecover f _ ih => exact Built.setRecover f ih

theorem erase_urlPath {v1 v : Route} (h : v1.erase = v.erase) : v1.urlPath = v.urlPath :=
  show v1.erase.urlPath = v.erase.urlPath from congrArg Route.urlPath h

/-- Routes stay where they are, up to `allowMethods`. -/
theorem Grows.routes {a1 a2 : FastRouter} (h : Grows a1 a2) :
    ∀ k r, a1.routes.get? k = some r → ∃ r2, a2.routes.get? k = some r2 ∧ r2.erase = r.erase := by
  induction h with
  | refl => intro k r hr; exact ⟨r, hr, rfl⟩
  | handle method urlPath b handler pre _ hh ih =>
    intro k r hr
    obtain ⟨r1, hr1, he1⟩ := ih k r hr
    obtain ⟨rn, routes1, -, he, hrs, -⟩ := handle_ok hh
    have := erase_get? he k
    rw [hr1] at this
    cases hx : routes1.get? k with
    | none => rw [hx] at this; simp at this
    | some x =>
      rw [hx] at this
      simp only [Option.map_some', Option.some.injEq] at this
      exact ⟨x, by rw [hrs]; exact (get?_snoc _ _ _ _).2 (Or.inl hx), this.trans he1⟩
  | use f _ ih => exact ih
  | setNotFound f _ ih => exact ih
  | setNotAllowed f _ ih => exact ih
  | setRecover f _ ih => exact ih

/-- A registration whose method and pattern are those of a route of the
router panics with "route already exist". -/
theorem handle_dup {a : FastRouter} (hw : WF a) {k : Nat} {r0 : Route}
    (hk : a.routes.get? k = some r0) (hs : r0.urlPath.head? = some '/')
    (b : Bool) (handler : RequestHandler) (pre : List PreHandler) :
    ∃ a3, handle a r0.method r0.urlPath b handler pre =
      .panicked ("route already exist : ".toList ++ r0.urlPath ++ " ".toList ++ r0.method) a3 := by
  obtain ⟨hd0, pfx0, hl0, hp0⟩ := hw.routeOK k r0 hk
  have hne : r0.urlPath ≠ [] := by intro h0; simp [h0] at hs
  unfold handle
  rw [if_neg hne, if_neg (by simp [hs])]
  cases hg : genRoute r0.method r0.urlPath b handler pre with
  | panic p =>
    unfold genRoute at hg
    simp only at hg
    rw [← hd0, hl0] at hg
    simp at hg
  | ret r =>
    obtain ⟨⟨hd, pfx, hl, hp⟩, hm, hu, -⟩ := genRoute_ok hg
    rw [hu] at hd hl
    rw [← hd0] at hd
    rw [hd, hl0] at hl
    simp only [Outcome.ret.injEq, Prod.mk.injEq] at hl
    have hpre : r.prefixStr = r0.prefixStr := by rw [hp, hp0, hl.2]
    simp only
    obtain ⟨h, hmg, hkh⟩ := hw.complete k r0 hk
    rw [hpre, hmg]
    simp only
    cases hml : mergeLoop r h a.routes with
    | mk routes1 res =>
      cases res with
      | none =>
        have := mergeLoop_none r h a.routes (by rw [hml]) k hkh r0 hk (by rw [hd])
        exact absurd hm.symm this
      | some p =>
        have := mergeLoop_some r h a.routes p (by rw [hml])
        subst this
        exact ⟨{ a with routes := routes1 }, by simp only [existPanic, hu, hm]⟩

/-- C13: after a registration of `(method, pattern)` that returned normally,
whatever was registered or configured since, every registration of the same
`(method, pattern)`, catch-all or not, panics with "route already exist". -/
theorem duplicate_registration_fails (a a1 a2 : FastRouter) (hb : Built a)
    (method urlPath : Str) (b : Bool) (handler : RequestHandler) (pre : List PreHandler)
    (h1 : handle a method urlPath b handler pre = .ok a1) (hg : Grows a1 a2)
    (b2 : Bool) (handler2 : RequestHandler) (pre2 : List PreHandler) :
    ∃ a3, handle a2 method urlPath b2 handler2 pre2 =
      .panicked ("route already exist : ".toList ++ urlPath ++ " ".toList ++ method) a3 := by
  obtain ⟨r, routes1, hgen, -, hrs, -, -, -, -, -, -, hhead⟩ := handle_ok h1
  obtain ⟨-, hm, hu, -⟩ := genRoute_ok hgen
  have hk : a1.routes.get? routes1.length = some r := by
    rw [hrs]; exact (get?_snoc _ _ _ _).2 (Or.inr ⟨rfl, rfl⟩)
  obtain ⟨r2, hk2, he⟩ := hg.routes _ _ hk
  have hw2 := (hg.built (Built.handle _ _ _ _ _ hb h1)).wf
  have hu2 : r2.urlPath = urlPath := (erase_urlPath he).trans hu
  have hm2 : r2.method = method := (erase_method he).trans hm
  have := handle_dup hw2 hk2 (by rw [hu2]; exact hhead) b2 handler2 pre2
  rwa [hu2, hm2] at this

theorem grows_reg (a1 a : FastRouter) (hg : Grows a1 a) (method pattern : String) (b : Bool)
    (h : ∃ a2, handle a method.toList pattern.toList b okHandler [] = .ok a2) :
    Grows a1 (reg a method pattern b) := by
  obtain ⟨a2, h2⟩ := h
  have : reg a method pattern b = a2 := by unfold reg; rw [h2]; rfl
  rw [this]
  exact Grows.handle _ _ _ _ _ hg h2

theorem duplicate_registration_fails_witness :
    handle NewRouter "GET".toList "/user/:name".toList false okHandler [] =
      .ok (reg NewRouter "GET" "/user/:name" false) ∧
    Grows (reg NewRouter "GET" "/user/:name" false) grownRouter ∧
    ∃ a3, handle grownRouter "GET".toList "/user/:name".toList true okHandler [] =
      .panicked ("route already exist : ".toList ++ "/user/:name".toList ++ " ".toList ++
        "GET".toList) a3 :=
  have hg : Grows (reg NewRouter "GET" "/user/:name" false) grownRouter :=
    grows_reg _ userRouter
      (grows_reg _ (reg NewRouter "GET" "/user/:name" false) Grows.refl
        "PUT" "/user/:name" false ⟨_, rfl⟩)
      "GET" "/x" false ⟨_, rfl⟩
  ⟨rfl, hg,
    duplicate_registration_fails NewRouter (reg NewRouter "GET" "/user/:name" false)
      grownRouter Built.new "GET".toList "/user/:name".toList false okHandler [] rfl hg
      true okHandler []⟩

/-! ## `Routers` -/

theorem flat_mapSet (m : List (Str × List Nat)) (k : Str) (n : Nat) :
    ((mapSet m k ((mapGet m k).getD [] ++ [n])).flatMap Prod.snd).Perm
      (m.flatMap Prod.snd ++ [n]) := by
  induction m with
  | nil => simp [mapSet, mapGet]
  | cons kv m ih =>
    obtain ⟨k1, v1⟩ := kv
    by_cases hk : k1 = k
    · simp only [mapSet, mapGet, if_pos hk, Option.getD_some, List.flatMap_cons,
        List.append_assoc]
      exact List.Perm.append_left _ List.perm_append_comm
    · simp only [mapSet, mapGet, if_neg hk, List.flatMap_cons, List.append_assoc]
      exact List.Perm.append_left _ ih

theorem bucketPaths_append (routes : List Route) (h1 h2 : List Nat) :
    bucketPaths routes (h1 ++ h2) = bucketPaths routes h1 ++ bucketPaths routes h2 := by
  simp [bucketPaths, List.filterMap_append]

theorem bucketPaths_range (routes : List Route) :
    bucketPaths routes (List.range routes.length) = routes.map Route.urlPath := by
  induction routes using List.reverseRecOn with
  | nil => rfl
  | append_singleton l x ih =>
    rw [List.length_append, List.length_singleton, List.range_succ, bucketPaths_append,
      List.map_append, ← ih]
    congr 1
    · unfold bucketPaths
      apply List.filterMap_congr
      intro k hk
      have hk1 : k < l.length := List.mem_range.1 hk
      simp [List.get?_eq_getElem?, List.getElem?_append_left hk1]
    · simp [bucketPaths, List.get?_eq_getElem?]

theorem mapGet_of_mem (idx : List (Str × List Nat)) (hnd : (idx.map Prod.fst).Nodup) :
    ∀ kv ∈ idx, mapGet idx kv.1 = some kv.2 := by
  induction idx with
  | nil => intro kv h; simp at h
  | cons x m ih =>
    obtain ⟨k1, v1⟩ := x
    simp only [List.map_cons, List.nodup_cons] at hnd
    intro kv hkv
    rcases List.mem_cons.1 hkv with h | h
    · subst h; simp [mapGet]
    · have hne : k1 ≠ kv.1 := by
        intro he
        exact hnd.1 (he ▸ List.mem_map.2 ⟨kv, h, rfl⟩)
      simp only [mapGet, if_neg hne]
      exact ih hnd.2 kv h

theorem routersIn_keys (routes : List Route) (idx : List (Str × List Nat)) :
    ∀ (m : List (Str × List Nat)), (∀ kv ∈ m, mapGet idx kv.1 = some kv.2) →
    (m.map Prod.fst).flatMap (fun key => bucketPaths routes ((mapGet idx key).getD [])) =
      bucketPaths routes (m.flatMap Prod.snd) := by
  intro m
  induction m with
  | nil => intro _; rfl
  | cons x m ih =>
    intro h
    rw [List.map_cons, List.flatMap_cons, List.flatMap_cons, bucketPaths_append,
      h x (List.mem_cons_self _ _), ih (fun kv hkv => h kv (List.mem_cons_of_mem _ hkv))]
    rfl

/-- What `Routers` relies on: the keys of `indexRoutes` are distinct, the
buckets together hold every position of `routes` once, and the patterns of
the routes are the registered ones. -/
theorem BuiltWith.inv {a : FastRouter} {ps : List Str} (h : BuiltWith a ps) :
    (a.indexRoutes.map Prod.fst).Nodup ∧
    (a.indexRoutes.flatMap Prod.snd).Perm (List.range a.routes.length) ∧
    a.routes.map Route.urlPath = ps := by
  induction h with
  | new => exact ⟨by simp [NewRouter], by simp [NewRouter], by simp [NewRouter]⟩
  | @handle a0 a1 ps0 method urlPath b handler pre _ hh ih =>
    obtain ⟨r, routes1, hg, he, hr, hi, -⟩ := handle_ok hh
    obtain ⟨-, -, hu, -⟩ := genRoute_ok hg
    have hlen := erase_length he
    refine ⟨?_, ?_, ?_⟩
    · rw [hi]; exact nodup_mapSet _ _ _ ih.1
    · rw [hi, hr, List.length_append, List.length_singleton, hlen, List.range_succ]
      exact (flat_mapSet _ _ _).trans (List.Perm.append_right _ ih.2.1)
    · have hm : routes1.map Route.urlPath = a0.routes.map Route.urlPath := by
        have := congrArg (List.map Route.urlPath) he
        simp only [List.map_map, Function.comp_def, Route.erase] at this
        exact this
      rw [hr, List.map_append, hm, ih.2.2, List.map_singleton, hu]
  | use f _ ih => exact ih
  | setNotFound f _ ih => exact ih
  | setNotAllowed f _ ih => exact ih
  | setRecover f _ ih => exact ih

/-- C20: on a router built by registrations, `Routers` returns a permutation of
the registered patterns, one entry per registration that returned normally
and nothing else, in whatever order the keys of the map are visited. -/
theorem routers_lists_patterns (a : FastRouter) (ps : List Str) (hb : BuiltWith a ps) :
    (Routers a).Perm ps ∧
    ∀ keys, keys.Perm (a.indexRoutes.map Prod.fst) → (RoutersIn a keys).Perm ps := by
  obtain ⟨hnd, hperm, hps⟩ := hb.inv
  have hin : (RoutersIn a (a.indexRoutes.map Prod.fst)).Perm ps := by
    unfold RoutersIn
    rw [routersIn_keys a.routes a.indexRoutes a.indexRoutes (mapGet_of_mem _ hnd), ← hps,
      ← bucketPaths_range]
    exact hperm.filterMap _
  exact ⟨hin, fun keys hk => (List.Perm.flatMap_right _ hk).trans hin⟩

theorem builtWith_reg (a : FastRouter) (ps : List Str) (hb : BuiltWith a ps)
    (method pattern : String) (b : Bool)
    (h : ∃ a1, handle a method.toList pattern.toList b okHandler [] = .ok a1) :
    BuiltWith (reg a method pattern b) (ps ++ [pattern.toList]) := by
  obtain ⟨a1, h1⟩ := h
  have : reg a method pattern b = a1 := by unfold reg; rw [h1]; rfl
  rw [this]
  exact BuiltWith.handle _ _ _ _ _ hb h1

theorem builtWith_exampleRouter :
    BuiltWith exampleRouter
      ["/".toList, "/a".toList, "/:a/:b".toList, "/a/:y".toList, "/a/:b/:c".toList,
        "/a/".toList] :=
  builtWith_reg _ _
    (builtWith_reg _ _
      (builtWith_reg _ _
        (builtWith_reg _ _
          (builtWith_reg _ _
            (builtWith_reg NewRouter [] BuiltWith.new "GET" "/" false ⟨_, rfl⟩)
            "GET" "/a" false ⟨_, rfl⟩)
          "GET" "/:a/:b" false ⟨_, rfl⟩)
        "GET" "/a/:y" false ⟨_, rfl⟩)
      "GET" "/a/:b/:c" true ⟨_, rfl⟩)
    "GET" "/a/" true ⟨_, rfl⟩

theorem routers_lists_patterns_witness :
    BuiltWith exampleRouter
      ["/".toList, "/a".toList, "/:a/:b".toList, "/a/:y".toList, "/a/:b/:c".toList,
        "/a/".toList] ∧
    ((Routers exampleRouter).Perm
      ["/".toList, "/a".toList, "/:a/:b".toList, "/a/:y".toList, "/a/:b/:c".toList,
        "/a/".toList] ∧
    ∀ keys, keys.Perm (exampleRouter.indexRoutes.map Prod.fst) →
      (RoutersIn exampleRouter keys).Perm
        ["/".toList, "/a".toList, "/:a/:b".toList, "/a/:y".toList, "/a/:b/:c".toList,
          "/a/".toList]) :=
  ⟨builtWith_exampleRouter, routers_lists_patterns exampleRouter _ builtWith_exampleRouter⟩

/-! ## the order of the filters -/

theorem range_map_succ (f : Nat → Event) (n : Nat) :
    (List.range (n + 1)).map f = f 0 :: (List.range n).map (fun i => f (i + 1)) := by
  rw [List.range_succ_eq_map, List.map_cons, List.map_map]
  rfl

theorem runPre_trace (ev : Nat → Option Bool → Event) :
    ∀ (fs : List PreHandler) (j : Nat) (st : St),
    ∃ n,
      (n = fs.length ∧ (runPre ev fs j st).2 = .ret true ∧
        (runPre ev fs j st).1.log =
          st.log ++ (List.range n).map (fun i => ev (j + i) (some true))) ∨
      (n < fs.length ∧ ∃ res,
        (runPre ev fs j st).1.log =
          st.log ++ ((List.range n).map (fun i => ev (j + i) (some true)) ++ [ev (j + n) res]) ∧
        ((res = some false ∧ (runPre ev fs j st).2 = .ret false) ∨
          (res = none ∧ ∃ e, (runPre ev fs j st).2 = .panic e))) := by
  intro fs
  induction fs with
  | nil => intro j st; exact ⟨0, Or.inl ⟨rfl, rfl, by simp [runPre]⟩⟩
  | cons f fs ih =>
    intro j st
    unfold runPre
    rcases hf : f st.ctx with ⟨c, b | p⟩
    · cases b with
      | false =>
        exact ⟨0, Or.inr ⟨by simp, some false, by simp, Or.inl ⟨rfl, rfl⟩⟩⟩
      | true =>
        simp only
        obtain ⟨n, h | h⟩ := ih (j + 1) { ctx := c, log := st.log ++ [ev j (some true)] }
        · obtain ⟨hn, hr, hl⟩ := h
          refine ⟨n + 1, Or.inl ⟨by simp [hn], hr, ?_⟩⟩
          rw [hl, range_map_succ]
          simp [Nat.add_assoc, Nat.add_comm 1]
        · obtain ⟨hn, res, hl, hr⟩ := h
          refine ⟨n + 1, Or.inr ⟨by simpa using hn, res, ?_, hr⟩⟩
          rw [hl, range_map_succ]
          simp [Nat.add_assoc, Nat.add_comm 1]
    · exact ⟨0, Or.inr ⟨by simp, none, by simp, Or.inr ⟨rfl, p, rfl⟩⟩⟩

theorem runChain_trace (a : FastRouter) (k : Nat) (v : Route) (st : St) :
    ∃ C, (runChain a k v st).1.log = st.log ++ C ∧
      ChainTrace a.preHandlers.length v.preHandlers.length k C ∧
      ((runChain a k v st).2 = .ret (true, true) ∨
        ((∃ e, (runChain a k v st).2 = .panic e) ∧ EndsFailed k C)) := by
  unfold runChain
  obtain ⟨n, h | h⟩ := runPre_trace Event.globalPre a.preHandlers 0 st
  · obtain ⟨hn, hr, hl⟩ := h
    rcases hg : runPre Event.globalPre a.preHandlers 0 st with ⟨st3, o⟩
    rw [hg] at hr hl
    simp only at hr hl
    subst hr
    simp only
    have hl3 : st3.log = st.log ++ passedGlobal a.preHandlers.length := by
      rw [hl, hn]; simp [passedGlobal]
    obtain ⟨n2, h2 | h2⟩ := runPre_trace (Event.routePre k) v.preHandlers 0 st3
    · obtain ⟨hn2, hr2, hl2⟩ := h2
      rcases hg2 : runPre (Event.routePre k) v.preHandlers 0 st3 with ⟨st4, o2⟩
      rw [hg2] at hr2 hl2
      simp only at hr2 hl2
      subst hr2
      simp only
      have hl4 : st4.log = st.log ++ (passedGlobal a.preHandlers.length ++
          passedRoute k v.preHandlers.length) := by
        rw [hl2, hl3, hn2]; simp [passedRoute]
      rcases hh : v.handler st4.ctx with ⟨c, u | e⟩
      · refine ⟨passedGlobal a.preHandlers.length ++ passedRoute k v.preHandlers.length ++
          [Event.handler k], ?_, Or.inl rfl, Or.inl rfl⟩
        simp [hl4]
      · refine ⟨passedGlobal a.preHandlers.length ++ passedRoute k v.preHandlers.length ++
          [Event.handler k], ?_, Or.inl rfl, Or.inr ⟨⟨e, rfl⟩, Or.inl (by simp)⟩⟩
        simp [hl4]
    · obtain ⟨hn2, res, hl2, hr2⟩ := h2
      rcases hg2 : runPre (Event.routePre k) v.preHandlers 0 st3 with ⟨st4, o2⟩
      rw [hg2] at hr2 hl2
      simp only at hr2 hl2
      have hl4 : st4.log = st.log ++ (passedGlobal a.preHandlers.length ++
          passedRoute k n2 ++ [Event.routePre k n2 res]) := by
        rw [hl2, hl3]; simp [passedRoute]
      rcases hr2 with ⟨hres, ho⟩ | ⟨hres, e, ho⟩
      · subst ho hres
        exact ⟨_, hl4, Or.inr (Or.inr ⟨n2, some false, hn2, by simp, rfl⟩), Or.inl rfl⟩
      · subst ho hres
        exact ⟨_, hl4, Or.inr (Or.inr ⟨n2, none, hn2, by simp, rfl⟩),
          Or.inr ⟨⟨e, rfl⟩, Or.inr ⟨n2, Or.inr (by simp)⟩⟩⟩
  · obtain ⟨hn, res, hl, hr⟩ := h
    rcases hg : runPre Event.globalPre a.preHandlers 0 st with ⟨st3, o⟩
    rw [hg] at hr hl
    simp only at hr hl
    have hl3 : st3.log = st.log ++ (passedGlobal n ++ [Event.globalPre n res]) := by
      rw [hl]; simp [passedGlobal]
    rcases hr with ⟨hres, ho⟩ | ⟨hres, e, ho⟩
    · subst ho hres
      exact ⟨_, hl3, Or.inr (Or.inl ⟨n, some false, hn, by simp, rfl⟩), Or.inl rfl⟩
    · subst ho hres
      exact ⟨_, hl3, Or.inr (Or.inl ⟨n, none, hn, by simp, rfl⟩),
        Or.inr ⟨⟨e, rfl⟩, Or.inr ⟨n, Or.inl (by simp)⟩⟩⟩

theorem sameButAllow_refl (c : Ctx) : SameButAllow c c := rfl

theorem sameButAllow_trans {c1 c2 c3 : Ctx} (h1 : SameButAllow c1 c2) (h2 : SameButAllow c2 c3) :
    SameButAllow c1 c3 := by
  unfold SameButAllow at *
  rw [h2, h1]

theorem tried_refl (st : St) : Tried st st := ⟨Quiet.refl st, sameButAllow_refl _⟩

theorem tried_trans {s1 s2 s3 : St} (h1 : Tried s1 s2) (h2 : Tried s2 s3) : Tried s1 s3 :=
  ⟨h1.1.trans h2.1, sameButAllow_trans h1.2 h2.2⟩

theorem tried_setAllowHeader (k : Nat) (v : Route) (st : St) :
    Tried st (setAllowHeader k v (st.emit (Event.attempt k))) := by
  refine ⟨quiet_setAllowHeader k v st, ?_⟩
  unfold setAllowHeader St.emit SameButAllow
  split <;> rfl

theorem allow_setAllowHeader (k : Nat) (v : Route) (st : St) (h : v.allowMethods ≠ []) :
    (setAllowHeader k v (st.emit (Event.attempt k))).ctx.allow =
      some (allowList v.allowMethods) := by
  unfold setAllowHeader
  rw [if_pos (by simpa using h)]

theorem HitAt.mono {a : FastRouter} {method path : Str} {k : Nat} {st st1 : St}
    {r : St × Outcome (Bool × Bool)} (hq : Tried st st1) (h : HitAt a method path k st1 r) :
    HitAt a method path k st r := by
  obtain ⟨v, s1, s2, U, hv, hh, hq1, hl, hU, hr, ht, hal, hbv⟩ := h
  exact ⟨v, s1, s2, U, hv, hh, hq.1.trans hq1, hl, hU, hr, tried_trans hq ht, hal, hbv⟩

/-- An attempt on a route as `genRoute` made it either fails and leaves only
the trace of a failed attempt, or is a hit that gets to the chain. -/
theorem serve_phase (a : FastRouter) (k : Nat) (v : Route) (hk : a.routes.get? k = some v)
    (hok : RouteOK v) (method path : Str) (st : St) :
    (∃ st1 m p, serve a k v method path st = (st1, .ret (m, p)) ∧ (m && p) = false ∧
      Tried st st1) ∨
    HitAt a method path k st (serve a k v method path st) := by
  by_cases h : (v.method == method && shapeMatch v (splitPath path)) = false
  · exact Or.inl ⟨_, _, _, serve_miss a k v method path st h, h, tried_setAllowHeader k v st⟩
  · have hh : Hit v method path := by
      simp only [Bool.and_eq_false_imp, beq_iff_eq, not_forall, Bool.not_eq_false] at h
      exact ⟨h.1, h.2⟩
    have hv := routeOK_vars hok
    have hs := (shapeMatch_iff _ _).1 hh.2
    have hseg : ∀ x ∈ v.varsN, ∃ rest, (splitPath path).get? x.2 = some ('/' :: rest) := by
      intro x hx
      have h1 : x.2 < (splitPath path).length :=
        Nat.lt_of_lt_of_le (hv.2 x hx) (shapeOK_length hs)
      have h2 : (splitPath path).get? x.2 = some ((splitPath path)[x.2]) := by
        rw [List.get?_eq_getElem?]; exact List.getElem?_eq_getElem h1
      obtain ⟨rest, hr⟩ := splitPath_lead path _ (List.getElem_mem h1)
      exact ⟨rest, by rw [h2, hr]⟩
    obtain ⟨st2, h2, -⟩ := bindVars_spec (splitPath path) v.varsN
      ((setAllowHeader k v (st.emit (Event.attempt k))).emit (Event.matched k)) hv.1 hseg
    obtain ⟨l1, hl1, hq1⟩ := bindVars_log (splitPath path) v.varsN
      ((setAllowHeader k v (st.emit (Event.attempt k))).emit (Event.matched k))
    rw [h2, emit_log] at hl1
    simp only at hl1
    refine Or.inr ⟨v, setAllowHeader k v (st.emit (Event.attempt k)), st2, l1, hk, hh,
      quiet_setAllowHeader k v st, by rw [hl1]; simp, hq1, ?_, tried_setAllowHeader k v st,
      allow_setAllowHeader k v st, h2⟩
    rw [serve_hit a k v method path st hh, h2]

theorem passOne_phase (a : FastRouter) (method path : Str) : ∀ (ks : List Nat) (m0 p0 : Bool)
    (st : St), (∀ k ∈ ks, ∃ v, a.routes.get? k = some v ∧ RouteOK v) →
    (∃ st1 m p, passOne a method path ks m0 p0 st = (st1, .ret (.next m p)) ∧ Tried st st1) ∨
    (∃ k r, HitAt a method path k st r ∧ passOne a method path ks m0 p0 st = chainDone r) := by
  intro ks
  induction ks with
  | nil => intro m0 p0 st _; exact Or.inl ⟨st, m0, p0, rfl, tried_refl st⟩
  | cons k ks ih =>
    intro m0 p0 st hks
    obtain ⟨v, hk, hok⟩ := hks k (List.mem_cons_self _ _)
    unfold passOne
    rw [hk]
    simp only
    rcases serve_phase a k v hk hok method path st with ⟨st1, m, p, hs, hmp, hq⟩ | hhit
    · rw [hs]
      simp only [hmp, Bool.false_eq_true, if_false]
      rcases ih m p st1 (fun k1 hk1 => hks k1 (List.mem_cons_of_mem _ hk1)) with
        ⟨st2, m2, p2, h2, hq2⟩ | ⟨k2, r, hr, h2⟩
      · exact Or.inl ⟨st2, m2, p2, h2, tried_trans hq hq2⟩
      · exact Or.inr ⟨k2, r, hr.mono hq, h2⟩
    · refine Or.inr ⟨k, _, hhit, ?_⟩
      obtain ⟨v1, s1, s2, U, hv1, -, -, -, -, hr, -⟩ := hhit
      rw [hr]
      exact runChain_chainDone a k v1 s2 _

theorem tryWinner_phase (a : FastRouter) (method path : Str) (deepLen idx : Nat)
    (hv : deepLen > 0 → ∃ v, a.routes.get? idx = some v ∧ RouteOK v) (m0 p0 : Bool) (st : St) :
    (∃ st1 m p, tryWinner a method path deepLen idx m0 p0 st = (st1, .ret (.next m p)) ∧
      Tried st st1) ∨
    (∃ k r, HitAt a method path k st r ∧
      tryWinner a method path deepLen idx m0 p0 st = chainDone r) := by
  unfold tryWinner
  by_cases hd : deepLen > 0
  · rw [if_pos hd]
    obtain ⟨v, hk, hok⟩ := hv hd
    rw [hk]
    simp only
    rcases serve_phase a idx v hk hok method path st with ⟨st1, m, p, hs, hmp, hq⟩ | hhit
    · rw [hs]
      simp only [hmp, Bool.false_eq_true, if_false]
      exact Or.inl ⟨st1, m, p, rfl, hq⟩
    · refine Or.inr ⟨idx, _, hhit, ?_⟩
      obtain ⟨v1, s1, s2, U, hv1, -, -, -, -, hr, -⟩ := hhit
      rw [hr]
      exact runChain_chainDone a idx v1 s2 (fun m1 p1 st1 => (st1, .ret (.next m1 p1)))
  · rw [if_neg hd]
    exact Or.inl ⟨st, m0, p0, rfl, tried_refl st⟩

theorem exactPass_phase (a : FastRouter) (hw : WF a) (method path : Str) (st : St) :
    (∃ st1 m p, exactPass a method path st = (st1, .ret (.next m p)) ∧ Tried st st1) ∨
    (∃ k r, HitAt a method path k st r ∧ exactPass a method path st = chainDone r) := by
  unfold exactPass
  cases hb : mapGet a.indexRoutes path with
  | none => exact Or.inl ⟨st, false, false, rfl, tried_refl st⟩
  | some hs =>
    simp only
    apply passOne_phase
    intro k hk
    obtain ⟨r, hr, -⟩ := hw.sound path hs hb k hk
    exact ⟨r, hr, hw.routeOK k r hr⟩

theorem fallbackPass_phase (a : FastRouter) (hw : WF a) (method path : Str) (m0 p0 : Bool)
    (st : St) :
    (∃ st1 m p, fallbackPass a method path m0 p0 st = (st1, .ret (.next m p)) ∧ Tried st st1) ∨
    (∃ k r, HitAt a method path k st r ∧ fallbackPass a method path m0 p0 st = chainDone r) := by
  unfold fallbackPass
  simp only
  have hsc := scan_ok a path
  have hv1 : (scan a path).prefixDeepLen > 0 →
      ∃ v, a.routes.get? (scan a path).prefixMaxDeep = some v ∧ RouteOK v := by
    intro hd
    obtain ⟨r, hr, -⟩ := hsc.1 hd
    exact ⟨r, hr, hw.routeOK _ r hr⟩
  have hv2 : (scan a path).normalDeepLen > 0 →
      ∃ v, a.routes.get? (scan a path).normalMaxDeep = some v ∧ RouteOK v := by
    intro hd
    obtain ⟨r, hr, -⟩ := hsc.2 hd
    exact ⟨r, hr, hw.routeOK _ r hr⟩
  rcases tryWinner_phase a method path (scan a path).prefixDeepLen (scan a path).prefixMaxDeep
    hv1 m0 p0 st with ⟨st1, m, p, h1, hq⟩ | ⟨k, r, hr, h1⟩
  · rw [h1]
    simp only
    rcases tryWinner_phase a method path (scan a path).normalDeepLen (scan a path).normalMaxDeep
      hv2 m p st1 with ⟨st2, m2, p2, h2, hq2⟩ | ⟨k, r, hr, h2⟩
    · exact Or.inl ⟨st2, m2, p2, h2, tried_trans hq hq2⟩
    · exact Or.inr ⟨k, r, hr.mono hq, h2⟩
  · refine Or.inr ⟨k, r, hr, ?_⟩
    rw [h1]
    rcases r with ⟨s, mp | e⟩ <;> rfl

theorem routeRequest_phase (a : FastRouter) (hw : WF a) (method path : Str) (st : St) :
    (∃ st1 m p, Tried st st1 ∧ routeRequest a method path st = finish a m p st1) ∨
    (∃ k r, HitAt a method path k st r ∧ routeRequest a method path st = chainUnit r) := by
  unfold routeRequest
  rcases exactPass_phase a hw method path st with ⟨st1, m, p, h1, hq⟩ | ⟨k, r, hr, h1⟩
  · rw [h1]
    simp only
    rcases fallbackPass_phase a hw method path m p st1 with
      ⟨st2, m2, p2, h2, hq2⟩ | ⟨k, r, hr, h2⟩
    · rw [h2]
      exact Or.inl ⟨st2, m2, p2, tried_trans hq hq2, rfl⟩
    · refine Or.inr ⟨k, r, hr.mono hq, ?_⟩
      rw [h2]
      rcases r with ⟨s, mp | e⟩ <;> rfl
  · refine Or.inr ⟨k, r, hr, ?_⟩
    rw [h1]
    rcases r with ⟨s, mp | e⟩ <;> rfl

theorem finish_events (a : FastRouter) (m p : Bool) (st : St) :
    ∃ l, (finish a m p st).1.log = st.log ++ l ∧
      ∀ e ∈ l, e = Event.notFoundHook ∨ e = Event.notFoundDefault ∨
        e = Event.notAllowedHook ∨ e = Event.setStatus 405 := by
  unfold finish
  split
  · split
    · exact ⟨[Event.notFoundHook], by simp, by simp⟩
    · exact ⟨[Event.notFoundDefault], by simp, by simp⟩
  · split
    · split
      · split
        · exact ⟨[Event.notAllowedHook], by simp, by simp⟩
        · exact ⟨[Event.notAllowedHook, Event.setStatus 405], by simp, by simp⟩
      · exact ⟨[Event.setStatus 405], by simp, by simp⟩
    · exact ⟨[], by simp, by simp⟩

theorem routeEvent_ne_status {a : FastRouter} {method path : Str} {e : Event}
    (h : RouteEvent a method path e) (code : Nat) : e ≠ Event.setStatus code := by
  obtain ⟨k, v, -, -, -, ht, -⟩ := h
  intro he
  subst he
  simp [Event.isTail] at ht

theorem routeRequest_no414 (a : FastRouter) (method path : Str) (st : St) :
    ∃ l, (routeRequest a method path st).1.log = st.log ++ l ∧
      ∀ e ∈ l, e ≠ Event.setStatus 414 := by
  unfold routeRequest
  obtain ⟨l1, hl1, hq1⟩ := exactPass_log a method path st
  have hn1 : ∀ e ∈ l1, e ≠ Event.setStatus 414 :=
    fun e he => routeEvent_ne_status (hq1 e he) 414
  rcases hr1 : exactPass a method path st with ⟨st1, f1 | e1⟩
  · rw [hr1] at hl1
    simp only at hl1
    cases f1 with
    | done => exact ⟨l1, hl1, hn1⟩
    | next m1 p1 =>
      simp only
      obtain ⟨l2, hl2, hq2⟩ := fallbackPass_log a method path m1 p1 st1
      have h12 : ∀ e ∈ l1 ++ l2, e ≠ Event.setStatus 414 := by
        intro e he
        rcases List.mem_append.1 he with h | h
        · exact hn1 e h
        · exact routeEvent_ne_status (hq2 e h) 414
      rcases hr2 : fallbackPass a method path m1 p1 st1 with ⟨st2, f2 | e2⟩
      · rw [hr2] at hl2
        simp only at hl2
        cases f2 with
        | done => exact ⟨l1 ++ l2, by rw [hl2, hl1, List.append_assoc], h12⟩
        | next m2 p2 =>
          simp only
          obtain ⟨l4, hl4, hq4⟩ := finish_events a m2 p2 st2
          refine ⟨l1 ++ l2 ++ l4, by rw [hl4, hl2, hl1]; simp, ?_⟩
          intro e he
          rcases List.mem_append.1 he with h | h
          · exact h12 e h
          · rcases hq4 e h with h | h | h | h <;> subst h <;> simp
      · rw [hr2] at hl2
        exact ⟨l1 ++ l2, by simp only at hl2 ⊢; rw [hl2, hl1, List.append_assoc], h12⟩
  · rw [hr1] at hl1
    exact ⟨l1, hl1, hn1⟩

/-- C19: a request whose path has more than 8182 bytes gets status 414 and
nothing else happens: no match attempt, no filter, no handler, no hook, and
the context is otherwise unchanged.  A path of exactly 8182 bytes goes on to
route matching, and no status 414 is set by dispatch. -/
theorem too_long_rejected (a : FastRouter) (st : St) :
    (st.ctx.path.length > 8182 →
      Handler a st =
        ({ ctx := st.ctx.setStatusCode 414, log := st.log ++ [Event.setStatus 414] }, none)) ∧
    (st.ctx.path.length = 8182 →
      (Handler a st =
        match routeRequest a st.ctx.method st.ctx.path st with
        | (st1, .ret ()) => (st1, none)
        | (st1, .panic err) => recoverFrom a err st1) ∧
      ∃ l, (Handler a st).1.log = st.log ++ l ∧ Event.setStatus 414 ∉ l) := by
  refine ⟨fun h => Handler_too_long a st (by simpa [PathMaxSize] using h), fun h => ?_⟩
  have hlen : st.ctx.path.length ≤ PathMaxSize := by simp [PathMaxSize, h]
  have hH := Handler_eq a st hlen
  refine ⟨hH, ?_⟩
  rw [hH]
  obtain ⟨l1, hl1, hq1⟩ := routeRequest_no414 a st.ctx.method st.ctx.path st
  rcases hr : routeRequest a st.ctx.method st.ctx.path st with ⟨st1, u | err⟩
  · rw [hr] at hl1
    exact ⟨l1, hl1, fun hm => hq1 _ hm rfl⟩
  · rw [hr] at hl1
    simp only at hl1 ⊢
    obtain ⟨l2, hl2, hq2⟩ := recoverFrom_events a err st1
    refine ⟨l1 ++ l2, by rw [hl2, hl1, List.append_assoc], ?_⟩
    intro hm
    rcases List.mem_append.1 hm with h | h
    · exact hq1 _ h rfl
    · rcases hq2 _ h with h | h <;> simp at h

theorem too_long_rejected_witness :
    ((request "GET".toList (aPattern 8182)).ctx.path.length > 8182 ∧
      Handler (aRouter 8182) (request "GET".toList (aPattern 8182)) =
        ({ ctx := (request "GET".toList (aPattern 8182)).ctx.setStatusCode 414,
           log := (request "GET".toList (aPattern 8182)).log ++ [Event.setStatus 414] },
          none)) ∧
    ((request "GET".toList (aPattern 8181)).ctx.path.length = 8182 ∧
      ∃ l, (Handler (aRouter 8181) (request "GET".toList (aPattern 8181))).1.log =
        (request "GET".toList (aPattern 8181)).log ++ l ∧ Event.setStatus 414 ∉ l) :=
  ⟨⟨by show (aPattern 8182).length > 8182
       rw [aPattern_length]; decide,
     (too_long_rejected (aRouter 8182) (request "GET".toList (aPattern 8182))).1
       (by show (aPattern 8182).length > 8182
           rw [aPattern_length]; decide)⟩,
   ⟨aPattern_length 8181,
     ((too_long_rejected (aRouter 8181) (request "GET".toList (aPattern 8181))).2
       (aPattern_length 8181)).2⟩⟩

/-- The log of `Handler` on a router that satisfies the registry invariant:
failed attempts, then either the tail of `Handler`, or one successful match
with its variables and its chain; recovery events close the log when a panic
was caught. -/
theorem Handler_shape (a : FastRouter) (hw : WF a) (st : St)
    (hlen : st.ctx.path.length ≤ PathMaxSize) :
    ∃ A, (∀ e ∈ A, e.isQuiet = true) ∧
      ((∃ F T, (Handler a st).1.log = st.log ++ (A ++ (F ++ T)) ∧
          (∀ e ∈ F, e = Event.notFoundHook ∨ e = Event.notFoundDefault ∨
            e = Event.notAllowedHook ∨ e = Event.setStatus 405) ∧ RecoverEvents T) ∨
       (∃ k v U C T, a.routes.get? k = some v ∧ Hit v st.ctx.method st.ctx.path ∧
          (Handler a st).1.log = st.log ++ (A ++ Event.matched k :: (U ++ (C ++ T))) ∧
          (∀ e ∈ U, ∃ key val, e = Event.setUserValue key val) ∧
          ChainTrace a.preHandlers.length v.preHandlers.length k C ∧
          RecoverEvents T ∧ (T = [] ∨ EndsFailed k C))) := by
  have hH := Handler_eq a st hlen
  rcases routeRequest_phase a hw st.ctx.method st.ctx.path st with
    ⟨st1, m, p, ⟨⟨A, hA, hqA⟩, -⟩, hr⟩ |
    ⟨k, r, ⟨v, s1, s2, U, hv, hh, ⟨A, hA, hqA⟩, hl2, hU, hr2, -, -, -⟩, hr⟩
  · refine ⟨A, hqA, Or.inl ?_⟩
    obtain ⟨F, hF, hqF⟩ := finish_events a m p st1
    rw [hH, hr]
    rcases hf : finish a m p st1 with ⟨s, u | err⟩
    · rw [hf] at hF
      simp only at hF ⊢
      exact ⟨F, [], by rw [hF, hA]; simp, hqF, by simp [RecoverEvents]⟩
    · rw [hf] at hF
      simp only at hF ⊢
      obtain ⟨T, hT, hqT⟩ := recoverFrom_events a err s
      refine ⟨F, T, by rw [hT, hF, hA]; simp, hqF, ?_⟩
      intro e he
      exact ⟨err, hqT e he⟩
  · refine ⟨A, hqA, Or.inr ⟨k, v, U, ?_⟩⟩
    obtain ⟨C, hC, hct, hres⟩ := runChain_trace a k v s2
    rw [hH, hr, hr2]
    rcases hc : runChain a k v s2 with ⟨s, mp | err⟩
    · rw [hc] at hC
      simp only at hC
      refine ⟨C, [], hv, hh, ?_, hU, hct, by simp [RecoverEvents], Or.inl rfl⟩
      simp only [chainUnit]
      rw [hC, hl2, hA]
      simp
    · rw [hc] at hC hres
      simp only at hC hres
      obtain ⟨T, hT, hqT⟩ := recoverFrom_events a err s
      have hend : EndsFailed k C := by
        rcases hres with h | h
        · simp at h
        · exact h.2
      refine ⟨C, T, hv, hh, ?_, hU, hct, fun e he => ⟨err, hqT e he⟩, Or.inr hend⟩
      simp only [chainUnit]
      rw [hT, hC, hl2, hA]
      simp

theorem split_unique {α : Type} (P : α → Prop) : ∀ (A B l1 l2 : List α) (x y : α),
    A ++ x :: B = l1 ++ y :: l2 → P y → (∀ e ∈ A, ¬ P e) → (∀ e ∈ B, ¬ P e) →
    l1 = A ∧ y = x ∧ l2 = B := by
  intro A
  induction A with
  | nil =>
    intro B l1 l2 x y h hy _ hB
    cases l1 with
    | nil =>
      simp only [List.nil_append, List.cons.injEq] at h
      exact ⟨rfl, h.1.symm, h.2.symm⟩
    | cons z l1 =>
      simp only [List.nil_append, List.cons_append, List.cons.injEq] at h
      exact absurd hy (hB y (by rw [h.2]; simp))
  | cons a0 A ih =>
    intro B l1 l2 x y h hy hA hB
    cases l1 with
    | nil =>
      simp only [List.nil_append, List.cons_append, List.cons.injEq] at h
      exact absurd hy (h.1 ▸ hA a0 (List.mem_cons_self _ _))
    | cons z l1 =>
      simp only [List.cons_append, List.cons.injEq] at h
      obtain ⟨h1, h2, h3⟩ := ih B l1 l2 x y h.2 hy
        (fun e he => hA e (List.mem_cons_of_mem _ he)) hB
      exact ⟨by rw [h1, h.1], h2, h3⟩

theorem chainTrace_mem {g p k : Nat} {C : List Event} (h : ChainTrace g p k C) :
    ∀ e ∈ C, (∃ j res, e = Event.globalPre j res) ∨ (∃ j res, e = Event.routePre k j res) ∨
      e = Event.handler k := by
  intro e he
  rcases h with h | ⟨j, res, -, -, h⟩ | ⟨j, res, -, -, h⟩
  · subst h
    simp only [List.mem_append, passedGlobal, passedRoute, List.mem_map, List.mem_singleton] at he
    rcases he with (⟨i, -, rfl⟩ | ⟨i, -, rfl⟩) | rfl
    · exact Or.inl ⟨_, _, rfl⟩
    · exact Or.inr (Or.inl ⟨_, _, rfl⟩)
    · exact Or.inr (Or.inr rfl)
  · subst h
    simp only [List.mem_append, passedGlobal, List.mem_map, List.mem_singleton] at he
    rcases he with ⟨i, -, rfl⟩ | rfl
    · exact Or.inl ⟨_, _, rfl⟩
    · exact Or.inl ⟨_, _, rfl⟩
  · subst h
    simp only [List.mem_append, passedGlobal, passedRoute, List.mem_map, List.mem_singleton] at he
    rcases he with (⟨i, -, rfl⟩ | ⟨i, -, rfl⟩) | rfl
    · exact Or.inl ⟨_, _, rfl⟩
    · exact Or.inr (Or.inl ⟨_, _, rfl⟩)
    · exact Or.inr (Or.inl ⟨_, _, rfl⟩)

/-! ## recovery -/

/-- C18: when the matching and handling of a request fails with the value
`v` (a filter, the handler or a hook panicked) and the recovery hook, if one
is set, returns normally, then no panic leaves `Handler`, the recovery hook is
invoked with `v`, `defaultRecover` runs after it with `v`, and the response
ends with status 500 and the text of `v` as its body. -/
theorem panic_recovered (a : FastRouter) (st st1 : St) (v : Str)
    (hlen : st.ctx.path.length ≤ PathMaxSize)
    (hp : routeRequest a st.ctx.method st.ctx.path st = (st1, .panic v))
    (hrec : ∀ f, a.Recover = some f → (f st1.ctx v).2 = .ret ()) :
    (Handler a st).2 = none ∧
    (Handler a st).1.ctx.statusCode = 500 ∧ (Handler a st).1.ctx.body = v ∧
    (Handler a st).1.log =
      st1.log ++ ((if a.Recover.isSome then [Event.recoverHook v] else []) ++
        [Event.defaultRecover v]) ∧
    (∀ f, a.Recover = some f →
      (Handler a st).1.ctx = defaultRecover (f st1.ctx v).1 v) := by
  rw [Handler_eq a st hlen, hp]
  simp only
  unfold recoverFrom
  cases hR : a.Recover with
  | none => simp [defaultRecover, Ctx.error]
  | some f =>
    have hf := hrec f hR
    rcases hfc : f st1.ctx v with ⟨c, u | e⟩
    · simp [hfc, defaultRecover, Ctx.error]
    · rw [hfc] at hf
      simp at hf

theorem panic_recovered_witness :
    (request "PUT".toList "/user/gopher".toList).ctx.path.length ≤ PathMaxSize ∧
    routeRequest oopsRouter "PUT".toList "/user/gopher".toList
        (request "PUT".toList "/user/gopher".toList) =
      ((routeRequest oopsRouter "PUT".toList "/user/gopher".toList
        (request "PUT".toList "/user/gopher".toList)).1, .panic "oops!".toList) ∧
    Event.handler 0 ∈ (routeRequest oopsRouter "PUT".toList "/user/gopher".toList
        (request "PUT".toList "/user/gopher".toList)).1.log ∧
    ((Handler oopsRouter (request "PUT".toList "/user/gopher".toList)).2 = none ∧
      (Handler oopsRouter (request "PUT".toList "/user/gopher".toList)).1.ctx.statusCode = 500 ∧
      (Handler oopsRouter (request "PUT".toList "/user/gopher".toList)).1.ctx.body =
        "oops!".toList ∧
      (Handler oopsRouter (request "PUT".toList "/user/gopher".toList)).1.log =
        (routeRequest oopsRouter "PUT".toList "/user/gopher".toList
          (request "PUT".toList "/user/gopher".toList)).1.log ++
          ((if oopsRouter.Recover.isSome then [Event.recoverHook "oops!".toList] else []) ++
            [Event.defaultRecover "oops!".toList]) ∧
      (∀ f, oopsRouter.Recover = some f →
        (Handler oopsRouter (request "PUT".toList "/user/gopher".toList)).1.ctx =
          defaultRecover (f (routeRequest oopsRouter "PUT".toList "/user/gopher".toList
            (request "PUT".toList "/user/gopher".toList)).1.ctx "oops!".toList).1
            "oops!".toList)) :=
  ⟨by decide, rfl, by decide,
    panic_recovered oopsRouter (request "PUT".toList "/user/gopher".toList)
      (routeRequest oopsRouter "PUT".toList "/user/gopher".toList
        (request "PUT".toList "/user/gopher".toList)).1 "oops!".toList (by decide) rfl
      (fun f hf => by
        have h : f = noteRecover := (Option.some.inj hf).symm
        subst h
        rfl)⟩

/-! ## indices stay in range -/

theorem vars_in_range {r : Route} (hok : RouteOK r) {path : Str}
    (hs : shapeMatch r (splitPath path) = true) :
    ∀ x ∈ r.varsN, x.2 < r.deepPath.length ∧ x.2 < (splitPath path).length ∧
      ∃ rest, (splitPath path).get? x.2 = some ('/' :: rest) := by
  intro x hx
  have hv := routeOK_vars hok
  have h1 : x.2 < (splitPath path).length :=
    Nat.lt_of_lt_of_le (hv.2 x hx) (shapeOK_length ((shapeMatch_iff _ _).1 hs))
  have h2 : (splitPath path).get? x.2 = some ((splitPath path)[x.2]) := by
    rw [List.get?_eq_getElem?]; exact List.getElem?_eq_getElem h1
  obtain ⟨rest, hr⟩ := splitPath_lead path _ (List.getElem_mem h1)
  exact ⟨hv.2 x hx, h1, rest, by rw [h2, hr]⟩

theorem varPanic_ne_indexPanic (urlPath seg : Str) : varPanic urlPath seg ≠ indexPanic := by
  intro h
  have h1 : (varPanic urlPath seg).head? = some '路' := rfl
  have h2 : indexPanic.head? = some 'r' := rfl
  rw [h, h2] at h1
  exact absurd h1 (by decide)

/-- C22: `splitPath` returns, for every input, a non-empty list whose segments
all start with `'/'` and have at least two characters unless they are the
marker `"/"`, so that `genRoute` never panics on an index.  On a router built
by registrations, every variable position of a route whose path shape matches
the request is a position of the route's segments and of the request's
segments, and binding the variables returns without a panic. -/
theorem no_index_out_of_range :
    (∀ s : Str, splitPath s ≠ [] ∧
      ∀ seg ∈ splitPath s, seg.head? = some '/' ∧ (seg ≠ URLSep → 2 ≤ seg.length)) ∧
    (∀ (method urlPath : Str) (b : Bool) (handler : RequestHandler) (pre : List PreHandler),
      genRoute method urlPath b handler pre ≠ .panic indexPanic) ∧
    (∀ a, Built a → ∀ k r, a.routes.get? k = some r → ∀ path,
      shapeMatch r (splitPath path) = true →
      (∀ x ∈ r.varsN, x.2 < r.deepPath.length ∧ x.2 < (splitPath path).length) ∧
      ∀ st, ∃ st2, bindVars (splitPath path) r.varsN st = (st2, .ret ())) := by
  refine ⟨fun s => ⟨?_, ?_⟩, ?_, ?_⟩
  · intro h
    have := (splitPath_length s).1
    rw [h] at this
    simp at this
  · intro seg hseg
    obtain ⟨rest, rfl⟩ := splitPath_lead s seg hseg
    refine ⟨rfl, fun hne => ?_⟩
    cases rest with
    | nil => exact absurd rfl hne
    | cons c rest => simp
  · intro method urlPath b handler pre h
    obtain ⟨seg, -, hp⟩ := genRoute_panic h
    exact varPanic_ne_indexPanic urlPath seg hp.symm
  · intro a hb k r hk path hs
    have hok := hb.wf.routeOK k r hk
    have hr := vars_in_range hok hs
    refine ⟨fun x hx => ⟨(hr x hx).1, (hr x hx).2.1⟩, fun st => ?_⟩
    obtain ⟨st2, h2, -⟩ := bindVars_spec (splitPath path) r.varsN st (routeOK_vars hok).1
      (fun x hx => (hr x hx).2.2)
    exact ⟨st2, h2⟩

theorem no_index_out_of_range_witness :
    Built userRouter ∧
    userRouter.routes.get? 0 = some (firstRoute userRouter) ∧
    shapeMatch (firstRoute userRouter) (splitPath "/user/gopher".toList) = true ∧
    (firstRoute userRouter).varsN = [("name".toList, 1)] ∧
    ((∀ x ∈ (firstRoute userRouter).varsN,
        x.2 < (firstRoute userRouter).deepPath.length ∧
        x.2 < (splitPath "/user/gopher".toList).length) ∧
      ∀ st, ∃ st2,
        bindVars (splitPath "/user/gopher".toList) (firstRoute userRouter).varsN st =
          (st2, .ret ())) :=
  ⟨built_userRouter, rfl, by decide, by decide,
    no_index_out_of_range.2.2 userRouter built_userRouter 0 (firstRoute userRouter) rfl
      "/user/gopher".toList (by decide)⟩

/-! ## at most one handler per dispatch -/

theorem quiet_more {e : Event} (h : e.isQuiet = true) :
    e.isHandler = false ∧ e.isFinish = false ∧ e.isRun = false := by
  cases e <;> simp_all [Event.isQuiet, Event.isHandler, Event.isFinish, Event.isRun]

theorem countP_handler_zero {l : List Event} (h : ∀ e ∈ l, e.isHandler = false) :
    l.countP Event.isHandler = 0 := by
  rw [List.countP_eq_zero]
  intro e he
  simp [h e he]

theorem hitLog_nil : HitLog [] := ⟨by simp, by simp⟩

theorem hitLog_quiet_append {l0 l : List Event} (h0 : ∀ e ∈ l0, e.isQuiet = true)
    (h : HitLog l) : HitLog (l0 ++ l) := by
  refine ⟨?_, ?_⟩
  · rw [List.countP_append, countP_handler_zero (fun e he => (quiet_more (h0 e he)).1)]
    simpa using h.1
  · intro e he
    rcases List.mem_append.1 he with h1 | h1
    · exact (quiet_more (h0 e h1)).2.1
    · exact h.2 e h1

theorem chainTrace_hitLog {g p k : Nat} {C : List Event} (h : ChainTrace g p k C) : HitLog C := by
  have hg : ∀ n, ∀ e ∈ passedGlobal n, e.isHandler = false ∧ e.isFinish = false := by
    intro n e he
    simp only [passedGlobal, List.mem_map] at he
    obtain ⟨i, -, rfl⟩ := he
    exact ⟨rfl, rfl⟩
  have hr : ∀ n, ∀ e ∈ passedRoute k n, e.isHandler = false ∧ e.isFinish = false := by
    intro n e he
    simp only [passedRoute, List.mem_map] at he
    obtain ⟨i, -, rfl⟩ := he
    exact ⟨rfl, rfl⟩
  rcases h with h | ⟨j, res, -, -, h⟩ | ⟨j, res, -, -, h⟩
  · subst h
    refine ⟨?_, ?_⟩
    · rw [List.countP_append, List.countP_append,
        countP_handler_zero (fun e he => (hg g e he).1),
        countP_handler_zero (fun e he => (hr p e he).1)]
      simp [Event.isHandler]
    · intro e he
      simp only [List.mem_append, List.mem_singleton] at he
      rcases he with (he | he) | rfl
      · exact (hg g e he).2
      · exact (hr p e he).2
      · rfl
  · subst h
    refine ⟨?_, ?_⟩
    · rw [List.countP_append, countP_handler_zero (fun e he => (hg j e he).1)]
      simp [Event.isHandler]
    · intro e he
      simp only [List.mem_append, List.mem_singleton] at he
      rcases he with he | rfl
      · exact (hg j e he).2
      · rfl
  · subst h
    refine ⟨?_, ?_⟩
    · rw [List.countP_append, List.countP_append,
        countP_handler_zero (fun e he => (hg g e he).1),
        countP_handler_zero (fun e he => (hr j e he).1)]
      simp [Event.isHandler]
    · intro e he
      simp only [List.mem_append, List.mem_singleton] at he
      rcases he with (he | he) | rfl
      · exact (hg g e he).2
      · exact (hr j e he).2
      · rfl

/-- A match attempt on any route either fails and leaves only the trace of a
failed attempt, or ends the dispatch (normally or with a panic) after at most
one handler invocation. -/
theorem serve_tame (a : FastRouter) (k : Nat) (v : Route) (method path : Str) (st : St) :
    (∃ st1 m p, serve a k v method path st = (st1, .ret (m, p)) ∧ (m && p) = false ∧
      Quiet st st1) ∨
    (∃ l, (serve a k v method path st).1.log = st.log ++ l ∧ HitLog l ∧
      ∀ mp, (serve a k v method path st).2 = .ret mp → mp = (true, true)) := by
  by_cases h : (v.method == method && shapeMatch v (splitPath path)) = false
  · exact Or.inl ⟨_, _, _, serve_miss a k v method path st h, h, quiet_setAllowHeader k v st⟩
  · have hh : Hit v method path := by
      simp only [Bool.and_eq_false_imp, beq_iff_eq, not_forall, Bool.not_eq_false] at h
      exact ⟨h.1, h.2⟩
    right
    rw [serve_hit a k v method path st hh]
    obtain ⟨l0, hl0, hq0⟩ := quiet_setAllowHeader k v st
    obtain ⟨l1, hl1, hq1⟩ := bindVars_log (splitPath path) v.varsN
      ((setAllowHeader k v (st.emit (Event.attempt k))).emit (Event.matched k))
    rw [emit_log, hl0] at hl1
    have hU : HitLog (Event.matched k :: l1) := by
      refine ⟨?_, ?_⟩
      · rw [List.countP_cons, countP_handler_zero]
        · simp [Event.isHandler]
        · intro e he
          obtain ⟨key, val, rfl⟩ := hq1 e he
          rfl
      · intro e he
        rcases List.mem_cons.1 he with rfl | he
        · rfl
        · obtain ⟨key, val, rfl⟩ := hq1 e he
          rfl
    rcases hb : bindVars (splitPath path) v.varsN
      ((setAllowHeader k v (st.emit (Event.attempt k))).emit (Event.matched k)) with ⟨st2, u | e⟩
    · rw [hb] at hl1
      simp only at hl1 ⊢
      obtain ⟨C, hC, hct, -⟩ := runChain_trace a k v st2
      obtain ⟨-, -, -, -, hret⟩ := runChain_spec a k v st2
      refine ⟨l0 ++ (Event.matched k :: l1 ++ C), by rw [hC, hl1]; simp, ?_, hret⟩
      apply hitLog_quiet_append hq0
      have hc := chainTrace_hitLog hct
      refine ⟨?_, ?_⟩
      · rw [List.countP_append]
        have h1 : (Event.matched k :: l1).countP Event.isHandler = 0 := by
          apply countP_handler_zero
          intro e he
          rcases List.mem_cons.1 he with rfl | he
          · rfl
          · obtain ⟨key, val, rfl⟩ := hq1 e he
            rfl
        rw [h1]
        simpa using hc.1
      · intro e he
        rcases List.mem_append.1 he with h1 | h1
        · exact hU.2 e h1
        · exact hc.2 e h1
    · rw [hb] at hl1
      simp only at hl1 ⊢
      exact ⟨l0 ++ (Event.matched k :: l1), by rw [hl1]; simp,
        hitLog_quiet_append hq0 hU, by simp⟩

theorem passOne_tame (a : FastRouter) (method path : Str) : ∀ (ks : List Nat) (m0 p0 : Bool)
    (st : St),
    (∃ st1 m p, passOne a method path ks m0 p0 st = (st1, .ret (.next m p)) ∧ Quiet st st1) ∨
    (∃ l, (passOne a method path ks m0 p0 st).1.log = st.log ++ l ∧ HitLog l ∧
      ∀ m p, (passOne a method path ks m0 p0 st).2 ≠ .ret (.next m p)) := by
  intro ks
  induction ks with
  | nil => intro m0 p0 st; exact Or.inl ⟨st, m0, p0, rfl, Quiet.refl st⟩
  | cons k ks ih =>
    intro m0 p0 st
    unfold passOne
    cases hk : a.routes.get? k with
    | none => exact Or.inr ⟨[], by simp, hitLog_nil, by simp⟩
    | some v =>
      simp only
      rcases serve_tame a k v method path st with ⟨st1, m, p, hs, hmp, hq⟩ | ⟨l, hl, hh, hret⟩
      · rw [hs]
        simp only [hmp, Bool.false_eq_true, if_false]
        rcases ih m p st1 with ⟨st2, m2, p2, h2, hq2⟩ | ⟨l, hl, hh, hne⟩
        · exact Or.inl ⟨st2, m2, p2, h2, hq.trans hq2⟩
        · obtain ⟨l0, hl0, hq0⟩ := hq
          exact Or.inr ⟨l0 ++ l, by rw [hl, hl0, List.append_assoc],
            hitLog_quiet_append hq0 hh, hne⟩
      · right
        rcases hs : serve a k v method path st with ⟨st1, mp | e⟩
        · rw [hs] at hl hret
          have := hret mp rfl
          subst this
          exact ⟨l, hl, hh, by simp⟩
        · rw [hs] at hl
          exact ⟨l, hl, hh, by simp⟩

theorem tryWinner_tame (a : FastRouter) (method path : Str) (deepLen idx : Nat) (m0 p0 : Bool)
    (st : St) :
    (∃ st1 m p, tryWinner a method path deepLen idx m0 p0 st = (st1, .ret (.next m p)) ∧
      Quiet st st1) ∨
    (∃ l, (tryWinner a method path deepLen idx m0 p0 st).1.log = st.log ++ l ∧ HitLog l ∧
      ∀ m p, (tryWinner a method path deepLen idx m0 p0 st).2 ≠ .ret (.next m p)) := by
  unfold tryWinner
  by_cases hd : deepLen > 0
  · rw [if_pos hd]
    cases hk : a.routes.get? idx with
    | none => exact Or.inr ⟨[], by simp, hitLog_nil, by simp⟩
    | some v =>
      simp only
      rcases serve_tame a idx v method path st with ⟨st1, m, p, hs, hmp, hq⟩ | ⟨l, hl, hh, hret⟩
      · rw [hs]
        simp only [hmp, Bool.false_eq_true, if_false]
        exact Or.inl ⟨st1, m, p, rfl, hq⟩
      · right
        rcases hs : serve a idx v method path st with ⟨st1, mp | e⟩
        · rw [hs] at hl hret
          have := hret mp rfl
          subst this
          exact ⟨l, hl, hh, by simp⟩
        · rw [hs] at hl
          exact ⟨l, hl, hh, by simp⟩
  · rw [if_neg hd]
    exact Or.inl ⟨st, m0, p0, rfl, Quiet.refl st⟩

theorem exactPass_tame (a : FastRouter) (method path : Str) (st : St) :
    (∃ st1 m p, exactPass a method path st = (st1, .ret (.next m p)) ∧ Quiet st st1) ∨
    (∃ l, (exactPass a method path st).1.log = st.log ++ l ∧ HitLog l ∧
      ∀ m p, (exactPass a method path st).2 ≠ .ret (.next m p)) := by
  unfold exactPass
  cases hb : mapGet a.indexRoutes path with
  | none => exact Or.inl ⟨st, false, false, rfl, Quiet.refl st⟩
  | some hs => exact passOne_tame a method path hs false false st

theorem fallbackPass_tame (a : FastRouter) (method path : Str) (m0 p0 : Bool) (st : St) :
    (∃ st1 m p, fallbackPass a method path m0 p0 st = (st1, .ret (.next m p)) ∧ Quiet st st1) ∨
    (∃ l, (fallbackPass a method path m0 p0 st).1.log = st.log ++ l ∧ HitLog l ∧
      ∀ m p, (fallbackPass a method path m0 p0 st).2 ≠ .ret (.next m p)) := by
  unfold fallbackPass
  simp only
  rcases tryWinner_tame a method path (scan a path).prefixDeepLen (scan a path).prefixMaxDeep
    m0 p0 st with ⟨st1, m, p, h1, hq⟩ | ⟨l, hl, hh, hne⟩
  · rw [h1]
    simp only
    rcases tryWinner_tame a method path (scan a path).normalDeepLen (scan a path).normalMaxDeep
      m p st1 with ⟨st2, m2, p2, h2, hq2⟩ | ⟨l, hl, hh, hne⟩
    · exact Or.inl ⟨st2, m2, p2, h2, hq.trans hq2⟩
    · obtain ⟨l0, hl0, hq0⟩ := hq
      exact Or.inr ⟨l0 ++ l, by rw [hl, hl0, List.append_assoc], hitLog_quiet_append hq0 hh, hne⟩
  · right
    rcases ht : tryWinner a method path (scan a path).prefixDeepLen (scan a path).prefixMaxDeep
      m0 p0 st with ⟨st1, f | e⟩
    · rw [ht] at hl hne
      cases f with
      | done => exact ⟨l, hl, hh, by simp⟩
      | next m p => exact absurd rfl (hne m p)
    · rw [ht] at hl
      exact ⟨l, hl, hh, by simp⟩

theorem finish_norun {e : Event}
    (h : e = Event.notFoundHook ∨ e = Event.notFoundDefault ∨ e = Event.notAllowedHook ∨
      e = Event.setStatus 405) : e.isRun = false := by
  rcases h with h | h | h | h <;> subst h <;> rfl

/-- The log of the body of `Handler`: at most one handler invocation and no
not-found or method-not-allowed handling, or no filter and no handler at all. -/
theorem routeRequest_tame (a : FastRouter) (method path : Str) (st : St) :
    ∃ l, (routeRequest a method path st).1.log = st.log ++ l ∧
      (HitLog l ∨ ∀ e ∈ l, e.isRun = false) := by
  unfold routeRequest
  rcases exactPass_tame a method path st with ⟨st1, m, p, h1, ⟨l0, hl0, hq0⟩⟩ | ⟨l, hl, hh, hne⟩
  · rw [h1]
    simp only
    rcases fallbackPass_tame a method path m p st1 with
      ⟨st2, m2, p2, h2, ⟨l1, hl1, hq1⟩⟩ | ⟨l, hl, hh, hne⟩
    · rw [h2]
      simp only
      obtain ⟨F, hF, hqF⟩ := finish_events a m2 p2 st2
      refine ⟨l0 ++ (l1 ++ F), by rw [hF, hl1, hl0]; simp, Or.inr ?_⟩
      intro e he
      rcases List.mem_append.1 he with h | h
      · exact (quiet_more (hq0 e h)).2.2
      · rcases List.mem_append.1 h with h | h
        · exact (quiet_more (hq1 e h)).2.2
        · exact finish_norun (hqF e h)
    · rcases hf : fallbackPass a method path m p st1 with ⟨st2, f | e⟩
      · rw [hf] at hl hne
        cases f with
        | done =>
          exact ⟨l0 ++ l, by simp only at hl ⊢; rw [hl, hl0, List.append_assoc],
            Or.inl (hitLog_quiet_append hq0 hh)⟩
        | next m2 p2 => exact absurd rfl (hne m2 p2)
      · rw [hf] at hl
        exact ⟨l0 ++ l, by simp only at hl ⊢; rw [hl, hl0, List.append_assoc],
          Or.inl (hitLog_quiet_append hq0 hh)⟩
  · rcases he : exactPass a method path st with ⟨st1, f | e⟩
    · rw [he] at hl hne
      cases f with
      | done => exact ⟨l, hl, Or.inl hh⟩
      | next m p => exact absurd rfl (hne m p)
    · rw [he] at hl
      exact ⟨l, hl, Or.inl hh⟩

/-- C21: for every router and every request, a dispatch invokes at most one
route handler, and when it does the not-found or method-not-allowed handling
(a hook, the default 404 response or status 405), it has run no filter and no
handler at all. -/
theorem at_most_one_handler (a : FastRouter) (st : St) :
    ∃ l, (Handler a st).1.log = st.log ++ l ∧
      l.countP Event.isHandler ≤ 1 ∧
      ((∃ e ∈ l, e.isFinish = true) → ∀ e ∈ l, e.isRun = false) := by
  unfold Handler
  simp only
  split
  · exact ⟨[Event.setStatus 414], by simp, by simp [Event.isHandler],
      by simp [Event.isFinish]⟩
  · obtain ⟨l, hl, hcase⟩ := routeRequest_tame a st.ctx.method st.ctx.path st
    have hfin : ∀ T : List Event,
        (∀ e ∈ T, e.isHandler = false ∧ e.isFinish = false ∧ e.isRun = false) →
        (l ++ T).countP Event.isHandler ≤ 1 ∧
        ((∃ e ∈ l ++ T, e.isFinish = true) → ∀ e ∈ l ++ T, e.isRun = false) := by
      intro T hT
      rcases hcase with hh | hn
      · refine ⟨?_, ?_⟩
        · rw [List.countP_append, countP_handler_zero (fun e he => (hT e he).1)]
          simpa using hh.1
        · rintro ⟨e, he, hf⟩
          rcases List.mem_append.1 he with h | h
          · rw [hh.2 e h] at hf; simp at hf
          · rw [(hT e h).2.1] at hf; simp at hf
      · have hrun : ∀ e ∈ l ++ T, e.isRun = false := by
          intro e he
          rcases List.mem_append.1 he with h | h
          · exact hn e h
          · exact (hT e h).2.2
        refine ⟨?_, fun _ => hrun⟩
        rw [countP_handler_zero]
        · simp
        · intro e he
          have := hrun e he
          cases e <;> simp_all [Event.isRun, Event.isHandler]
    rcases hr : routeRequest a st.ctx.method st.ctx.path st with ⟨st1, u | err⟩
    · rw [hr] at hl
      have := hfin [] (by simp)
      simp only [List.append_nil] at this
      exact ⟨l, hl, this⟩
    · rw [hr] at hl
      simp only at hl ⊢
      obtain ⟨T, hT, hqT⟩ := recoverFrom_events a err st1
      refine ⟨l ++ T, by rw [hT, hl, List.append_assoc], hfin T ?_⟩
      intro e he
      rcases hqT e he with h | h <;> subst h <;> exact ⟨rfl, rfl, rfl⟩

theorem at_most_one_handler_witness :
    Event.setStatus 405 ∈ dispatchLog pathRouter "GET".toList "/path".toList ∧
    (dispatchLog pathRouter "GET".toList "/path".toList).countP Event.isHandler ≤ 1 ∧
    ∀ e ∈ dispatchLog pathRouter "GET".toList "/path".toList, e.isRun = false := by
  obtain ⟨l, hl, h1, h2⟩ := at_most_one_handler pathRouter (request "GET".toList "/path".toList)
  have hl0 : dispatchLog pathRouter "GET".toList "/path".toList = l := by
    unfold dispatchLog
    rw [hl]
    rfl
  have hmem : Event.setStatus 405 ∈ dispatchLog pathRouter "GET".toList "/path".toList := by
    decide
  rw [hl0] at hmem ⊢
  exact ⟨hmem, h1, h2 ⟨_, hmem, rfl⟩⟩

/-! ## a registration that panics leaves the router as it was -/

theorem get?_set_same {α : Type} (l : List α) (k : Nat) (x y : α) (h : l.get? k = some y) :
    (l.set k x).get? k = some x := by
  have hk := get?_lt h
  simp [List.get?_eq_getElem?, List.getElem?_set, hk]

theorem get?_set_other {α : Type} (l : List α) (k k0 : Nat) (x : α) (h : k ≠ k0) :
    (l.set k0 x).get? k = l.get? k := by
  simp [List.get?_eq_getElem?, List.getElem?_set, Ne.symm h]

theorem mem_setAdd_self (m : List Str) (k : Str) : k ∈ setAdd m k := by
  unfold setAdd; split <;> simp_all

theorem mem_setAdd_of_mem {m : List Str} {k x : Str} (h : x ∈ m) : x ∈ setAdd m k := by
  unfold setAdd; split <;> simp_all

theorem setAdd_of_mem {m : List Str} {k : Str} (h : k ∈ m) : setAdd m k = m := by
  unfold setAdd; rw [if_pos h]

/-- The loop of `handle` keeps every route in place and only adds to its
allowed methods. -/
theorem mergeLoop_grow (r : Route) : ∀ (h : List Nat) (routes : List Route) (k : Nat) (v : Route),
    routes.get? k = some v →
    ∃ v1, (mergeLoop r h routes).1.get? k = some v1 ∧ v1.erase = v.erase ∧
      ∀ m ∈ v.allowMethods, m ∈ v1.allowMethods := by
  intro h
  induction h with
  | nil => intro routes k v hv; exact ⟨v, hv, rfl, fun m hm => hm⟩
  | cons k0 ks ih =>
    intro routes k v hv
    unfold mergeLoop
    cases hg : routes.get? k0 with
    | none => exact ih routes k v hv
    | some h0 =>
      simp only
      split
      · split
        · exact ⟨v, hv, rfl, fun m hm => hm⟩
        · by_cases hk : k = k0
          · subst hk
            rw [hg] at hv
            simp only [Option.some.injEq] at hv
            subst hv
            obtain ⟨v1, h1, h2, h3⟩ := ih _ k _ (get?_set_same routes k
              { h0 with allowMethods := setAdd h0.allowMethods r.method } h0 hg)
            exact ⟨v1, h1, h2, fun m hm => h3 m (mem_setAdd_of_mem hm)⟩
          · exact ih _ k v (by rw [get?_set_other _ _ _ _ hk]; exact hv)
      · exact ih routes k v hv

/-- After the loop of `handle` has ended without a panic, every route of the
bucket with the segment count of the new route allows its method. -/
theorem mergeLoop_adds (r : Route) : ∀ (h : List Nat) (routes : List Route),
    (mergeLoop r h routes).2 = none →
    ∀ k ∈ h, ∀ v1, (mergeLoop r h routes).1.get? k = some v1 →
      v1.deepPath.length = r.deepPath.length → r.method ∈ v1.allowMethods := by
  intro h
  induction h with
  | nil => intro routes _ k hk; simp at hk
  | cons k0 ks ih =>
    intro routes hres k hk v1 hv1 hlen
    unfold mergeLoop at hres hv1
    cases hg : routes.get? k0 with
    | none =>
      rw [hg] at hres hv1
      simp only at hres hv1
      rcases List.mem_cons.1 hk with rfl | hk1
      · have := erase_get? (mergeLoop_erase r ks routes) k
        rw [hv1, hg] at this
        simp at this
      · exact ih routes hres k hk1 v1 hv1 hlen
    | some h0 =>
      rw [hg] at hres hv1
      simp only at hres hv1
      by_cases hl : h0.deepPath.length = r.deepPath.length
      · rw [if_pos hl] at hres hv1
        by_cases hm : h0.method = r.method
        · rw [if_pos hm] at hres; simp at hres
        · rw [if_neg hm] at hres hv1
          rcases List.mem_cons.1 hk with rfl | hk1
          · obtain ⟨v2, h1, -, h3⟩ := mergeLoop_grow r ks _ k _ (get?_set_same routes k
              { h0 with allowMethods := setAdd h0.allowMethods r.method } h0 hg)
            rw [hv1] at h1
            simp only [Option.some.injEq] at h1
            subst h1
            exact h3 _ (mem_setAdd_self _ _)
          · exact ih _ hres k hk1 v1 hv1 hlen
      · rw [if_neg hl] at hres hv1
        rcases List.mem_cons.1 hk with rfl | hk1
        · obtain ⟨v2, h1, h2, -⟩ := mergeLoop_grow r ks routes k h0 hg
          rw [hv1] at h1
          simp only [Option.some.injEq] at h1
          subst h1
          exact absurd (by rw [← erase_deepPath h2]; exact hlen) hl
        · exact ih routes hres k hk1 v1 hv1 hlen

/-- A panic of the loop of `handle` comes from an entry of the bucket with the
segment count and the method of the new route. -/
theorem mergeLoop_some_dup (r : Route) : ∀ (h : List Nat) (routes : List Route) (p : Str),
    (mergeLoop r h routes).2 = some p →
    ∃ pre k2 post r2, h = pre ++ k2 :: post ∧ routes.get? k2 = some r2 ∧
      r2.deepPath.length = r.deepPath.length ∧ r2.method = r.method := by
  intro h
  induction h with
  | nil => intro routes p hp; simp [mergeLoop] at hp
  | cons k0 ks ih =>
    intro routes p hp
    unfold mergeLoop at hp
    cases hg : routes.get? k0 with
    | none =>
      rw [hg] at hp
      obtain ⟨pre, k2, post, r2, h1, h2, h3, h4⟩ := ih routes p hp
      exact ⟨k0 :: pre, k2, post, r2, by rw [h1]; rfl, h2, h3, h4⟩
    | some h0 =>
      rw [hg] at hp
      simp only at hp
      by_cases hl : h0.deepPath.length = r.deepPath.length
      · rw [if_pos hl] at hp
        by_cases hm : h0.method = r.method
        · exact ⟨[], k0, ks, h0, rfl, hg, hl, hm⟩
        · rw [if_neg hm] at hp
          obtain ⟨pre, k2, post, r2, h1, h2, h3, h4⟩ := ih _ p hp
          have he := erase_get? (erase_set routes k0 h0 (setAdd h0.allowMethods r.method) hg) k2
          rw [h2] at he
          cases hx : routes.get? k2 with
          | none => rw [hx] at he; simp at he
          | some x =>
            rw [hx] at he
            simp only [Option.map_some', Option.some.injEq] at he
            exact ⟨k0 :: pre, k2, post, x, by rw [h1]; rfl, hx,
              by rw [← erase_deepPath he]; exact h3, by rw [← erase_method he]; exact h4⟩
      · rw [if_neg hl] at hp
        obtain ⟨pre, k2, post, r2, h1, h2, h3, h4⟩ := ih routes p hp
        exact ⟨k0 :: pre, k2, post, r2, by rw [h1]; rfl, h2, h3, h4⟩

/-- When the entries of the bucket already allow the methods of the entries
after them, the loop of `handle` that ends in a panic has written nothing
new. -/
theorem mergeLoop_noop (r : Route) : ∀ (h : List Nat) (routes : List Route) (p : Str),
    (mergeLoop r h routes).2 = some p →
    (∀ pre k2 post, h = pre ++ k2 :: post → ∀ k1 ∈ pre, ∀ r1 r2, routes.get? k1 = some r1 →
      routes.get? k2 = some r2 → r1.deepPath.length = r2.deepPath.length →
      r2.method ∈ r1.allowMethods) →
    (mergeLoop r h routes).1 = routes := by
  intro h
  induction h with
  | nil => intro routes p _ _; rfl
  | cons k0 ks ih =>
    intro routes p hp hM
    have hM1 : ∀ pre k2 post, ks = pre ++ k2 :: post → ∀ k1 ∈ pre, ∀ r1 r2,
        routes.get? k1 = some r1 → routes.get? k2 = some r2 →
        r1.deepPath.length = r2.deepPath.length → r2.method ∈ r1.allowMethods := by
      intro pre k2 post hs k1 hk1
      exact hM (k0 :: pre) k2 post (by rw [hs]; rfl) k1 (List.mem_cons_of_mem _ hk1)
    obtain ⟨pre, k2, post, r2, hs, hr2, hl2, hm2⟩ := mergeLoop_some_dup r _ routes p hp
    unfold mergeLoop at hp ⊢
    cases hg : routes.get? k0 with
    | none =>
      rw [hg] at hp
      exact ih routes p hp hM1
    | some h0 =>
      rw [hg] at hp
      simp only at hp ⊢
      by_cases hl : h0.deepPath.length = r.deepPath.length
      · rw [if_pos hl] at hp ⊢
        by_cases hm : h0.method = r.method
        · rw [if_pos hm]
        · rw [if_neg hm] at hp ⊢
          have hin : r.method ∈ h0.allowMethods := by
            cases pre with
            | nil =>
              simp only [List.nil_append, List.cons.injEq] at hs
              rw [← hs.1, hg] at hr2
              simp only [Option.some.injEq] at hr2
              exact absurd (hr2 ▸ hm2) hm
            | cons x pre =>
              simp only [List.cons_append, List.cons.injEq] at hs
              have := hM (k0 :: pre) k2 post (by rw [hs.2]; rfl) k0 (List.mem_cons_self _ _)
                h0 r2 hg hr2 (by rw [hl, hl2])
              rwa [hm2] at this
          have hset : routes.set k0 { h0 with allowMethods := setAdd h0.allowMethods r.method }
              = routes := by
            rw [setAdd_of_mem hin]
            exact set_get?_self routes k0 h0 hg
          rw [hset] at hp ⊢
          exact ih routes p hp hM1
      · rw [if_neg hl] at hp ⊢
        exact ih routes p hp hM1

/-- What a registration that returns normally does to the allowed methods. -/
theorem handle_ok_merge {a a1 : FastRouter} {method urlPath : Str} {b : Bool}
    {handler : RequestHandler} {pre : List PreHandler}
    (h : handle a method urlPath b handler pre = .ok a1) :
    ∃ r routes1, a1.routes = routes1 ++ [r] ∧ routes1.length = a.routes.length ∧
      a1.indexRoutes = mapSet a.indexRoutes r.prefixStr
        ((mapGet a.indexRoutes r.prefixStr).getD [] ++ [a.routes.length]) ∧
      (∀ k v, a.routes.get? k = some v → ∃ v1, routes1.get? k = some v1 ∧
        v1.erase = v.erase ∧ ∀ m ∈ v.allowMethods, m ∈ v1.allowMethods) ∧
      (∀ k ∈ (mapGet a.indexRoutes r.prefixStr).getD [], ∀ v1, routes1.get? k = some v1 →
        v1.deepPath.length = r.deepPath.length → r.method ∈ v1.allowMethods) := by
  unfold handle at h
  by_cases h1 : urlPath = []
  · rw [if_pos h1] at h; simp at h
  · rw [if_neg h1] at h
    by_cases h2 : urlPath.head? ≠ some '/'
    · rw [if_pos h2] at h; simp at h
    · rw [if_neg h2] at h
      rcases hg : genRoute method urlPath b handler pre with r | p
      · rw [hg] at h
        simp only at h
        cases hb : mapGet a.indexRoutes r.prefixStr with
        | none =>
          rw [hb] at h
          simp only [Registered.ok.injEq] at h
          subst h
          exact ⟨r, a.routes, rfl, rfl, by simp [hb],
            fun k v hv => ⟨v, hv, rfl, fun m hm => hm⟩, by simp [hb]⟩
        | some bucket =>
          rw [hb] at h
          simp only at h
          have he := mergeLoop_erase r bucket a.routes
          have hgrow := mergeLoop_grow r bucket a.routes
          have hadd := mergeLoop_adds r bucket a.routes
          rcases hm : mergeLoop r bucket a.routes with ⟨routes1, _ | p⟩
          · rw [hm] at h he hgrow hadd
            simp only [Registered.ok.injEq] at h
            subst h
            refine ⟨r, routes1, rfl, erase_length he, ?_, hgrow, ?_⟩
            · simp [hb, erase_length he]
            · simpa [hb] using hadd rfl
          · rw [hm] at h; simp at h
      · rw [hg] at h; simp at h

theorem Merged_new : Merged NewRouter := by
  intro key h hk
  simp [NewRouter, mapGet] at hk

theorem Merged_handle {a a1 : FastRouter} {method urlPath : Str} {b : Bool}
    {handler : RequestHandler} {pre : List PreHandler} (hw : WF a) (hM : Merged a)
    (h : handle a method urlPath b handler pre = .ok a1) : Merged a1 := by
  obtain ⟨r, routes1, hr, hlen, hi, hgrow, hadd⟩ := handle_ok_merge h
  -- a route of the old router, seen in the new one
  have old : ∀ k v, a.routes.get? k = some v → ∀ v1, a1.routes.get? k = some v1 →
      v1.erase = v.erase ∧ ∀ m ∈ v.allowMethods, m ∈ v1.allowMethods := by
    intro k v hv v1 hv1
    obtain ⟨v2, h2, h3, h4⟩ := hgrow k v hv
    rw [hr] at hv1
    have : (routes1 ++ [r]).get? k = some v2 := (get?_snoc _ _ _ _).2 (Or.inl h2)
    rw [hv1] at this
    simp only [Option.some.injEq] at this
    subst this
    exact ⟨h3, h4⟩
  -- the invariant on a bucket of the old router
  have oldBucket : ∀ key h0, mapGet a.indexRoutes key = some h0 →
      ∀ pre2 k2 post, h0 = pre2 ++ k2 :: post → ∀ k1 ∈ pre2, ∀ r1 r2,
      a1.routes.get? k1 = some r1 → a1.routes.get? k2 = some r2 →
      r1.deepPath.length = r2.deepPath.length → r2.method ∈ r1.allowMethods := by
    intro key h0 hk0 pre2 k2 post hs k1 hk1 r1 r2 hr1 hr2 hl
    obtain ⟨v1, hv1, -⟩ := hw.sound key h0 hk0 k1 (by rw [hs]; simp [hk1])
    obtain ⟨v2, hv2, -⟩ := hw.sound key h0 hk0 k2 (by rw [hs]; simp)
    obtain ⟨e1, g1⟩ := old k1 v1 hv1 r1 hr1
    obtain ⟨e2, -⟩ := old k2 v2 hv2 r2 hr2
    have := hM key h0 hk0 pre2 k2 post hs k1 hk1 v1 v2 hv1 hv2
      (by rw [← erase_deepPath e1, ← erase_deepPath e2]; exact hl)
    rw [erase_method e2]
    exact g1 _ this
  intro key h1 hk pre2 k2 post hs k1 hk1 r1 r2 hr1 hr2 hl
  rw [hi, mapGet_mapSet] at hk
  by_cases hkey : key = r.prefixStr
  · rw [if_pos hkey] at hk
    simp only [Option.some.injEq] at hk
    rcases List.eq_nil_or_concat post with hp | ⟨post1, x, hp⟩
    · -- the later route is the new one
      subst hp
      rw [hs] at hk
      have h2 := List.append_inj' (show (mapGet a.indexRoutes r.prefixStr).getD [] ++
        [a.routes.length] = pre2 ++ [k2] from hk) rfl
      have hk2 : k2 = a.routes.length := by simpa using h2.2.symm
      have hr2' : r2 = r := by
        rw [hr, hk2, ← hlen] at hr2
        have := (get?_snoc routes1 r r2 routes1.length).1 hr2
        rcases this with h3 | ⟨-, h3⟩
        · exact absurd (get?_lt h3) (Nat.lt_irrefl _)
        · exact h3
      subst hr2'
      have hk1b : k1 ∈ (mapGet a.indexRoutes r2.prefixStr).getD [] := by rw [h2.1]; exact hk1
      have hk1lt : k1 < routes1.length := by
        cases hb : mapGet a.indexRoutes r2.prefixStr with
        | none => rw [hb] at hk1b; simp at hk1b
        | some h0 =>
          rw [hb] at hk1b
          obtain ⟨v1, hv1, -⟩ := hw.sound _ h0 hb k1 hk1b
          rw [hlen]; exact get?_lt hv1
      have hr1' : routes1.get? k1 = some r1 := by
        rw [hr] at hr1
        rcases (get?_snoc routes1 r2 r1 k1).1 hr1 with h3 | ⟨h3, -⟩
        · exact h3
        · omega
      exact hadd k1 hk1b r1 hr1' hl
    · -- both routes are in the old bucket
      subst hp
      rw [hs] at hk
      have h2 := List.append_inj' (show (mapGet a.indexRoutes r.prefixStr).getD [] ++
        [a.routes.length] = (pre2 ++ k2 :: post1) ++ [x] by
          rw [hk]; simp) rfl
      cases hb : mapGet a.indexRoutes r.prefixStr with
      | none =>
        rw [hb] at h2
        simp at h2
      | some h0 =>
        rw [hb] at h2
        exact oldBucket r.prefixStr h0 hb pre2 k2 post1 (by simpa using h2.1) k1 hk1 r1 r2
          hr1 hr2 hl
  · rw [if_neg hkey] at hk
    exact oldBucket key h1 hk pre2 k2 post hs k1 hk1 r1 r2 hr1 hr2 hl

theorem Built.merged {a : FastRouter} (h : Built a) : Merged a := by
  induction h with
  | new => exact Merged_new
  | handle method urlPath b handler pre hb hh ih => exact Merged_handle hb.wf ih hh
  | use f _ ih => exact ih
  | setNotFound f _ ih => exact ih
  | setNotAllowed f _ ih => exact ih
  | setRecover f _ ih => exact ih

/-- C24: on a router built by registrations that returned normally, a
registration that panics (empty pattern, no leading `'/'`, repeated variable
name or route that exists already) leaves the router exactly as it was: the
route list, the index and the allowed methods of every route.  The writes of
the duplicate check before it reaches the duplicate add methods that are
allowed already. -/
theorem failed_registration_atomic (a : FastRouter) (hb : Built a) (method urlPath : Str)
    (b : Bool) (handler : RequestHandler) (pre : List PreHandler) (p : Str) (a1 : FastRouter)
    (h : handle a method urlPath b handler pre = .panicked p a1) : a1 = a := by
  unfold handle at h
  by_cases h1 : urlPath = []
  · rw [if_pos h1] at h
    simp only [Registered.panicked.injEq] at h
    exact h.2.symm
  · rw [if_neg h1] at h
    by_cases h2 : urlPath.head? ≠ some '/'
    · rw [if_pos h2] at h
      simp only [Registered.panicked.injEq] at h
      exact h.2.symm
    · rw [if_neg h2] at h
      rcases hg : genRoute method urlPath b handler pre with r | q
      · rw [hg] at h
        simp only at h
        cases hbk : mapGet a.indexRoutes r.prefixStr with
        | none => rw [hbk] at h; simp at h
        | some bucket =>
          rw [hbk] at h
          simp only at h
          have hno := mergeLoop_noop r bucket a.routes
          rcases hm : mergeLoop r bucket a.routes with ⟨routes1, _ | q⟩
          · rw [hm] at h; simp at h
          · rw [hm] at h hno
            simp only [Registered.panicked.injEq] at h
            have hr : routes1 = a.routes := hno q rfl (hb.merged r.prefixStr bucket hbk)
            rw [← h.2, hr]
      · rw [hg] at h
        simp only [Registered.panicked.injEq] at h
        exact h.2.symm

/-! ## what dispatch reads of the request path -/

theorem bindVars_withPath (p : Str) (segs : List Str) : ∀ (vars : List (Str × Nat)) (st : St),
    bindVars segs vars (st.withPath p) =
      ((bindVars segs vars st).1.withPath p, (bindVars segs vars st).2) := by
  intro vars
  induction vars with
  | nil => intro st; rfl
  | cons kv rest ih =>
    intro st
    obtain ⟨key, index⟩ := kv
    unfold bindVars
    cases hg : segs.get? index with
    | none => rfl
    | some seg =>
      simp only
      split
      · rfl
      · exact ih { ctx := st.ctx.setUserValue key (seg.drop 1),
                   log := st.log ++ [Event.setUserValue key (seg.drop 1)] }

theorem runPre_withPath (p : Str) (ev : Nat → Option Bool → Event) :
    ∀ (fs : List PreHandler) (j : Nat) (st : St), (∀ f ∈ fs, BlindTo p f) →
    runPre ev fs j (st.withPath p) =
      ((runPre ev fs j st).1.withPath p, (runPre ev fs j st).2) := by
  intro fs
  induction fs with
  | nil => intro j st _; rfl
  | cons f fs ih =>
    intro j st hb
    unfold runPre
    have hf := hb f (List.mem_cons_self _ _) st.ctx
    have hc : (st.withPath p).ctx = st.ctx.withPath p := rfl
    rw [hc, hf]
    rcases hfc : f st.ctx with ⟨c, b | e⟩
    · cases b with
      | false => rfl
      | true =>
        exact ih (j + 1) { ctx := c, log := st.log ++ [ev j (some true)] }
          (fun g hg => hb g (List.mem_cons_of_mem _ hg))
    · rfl

theorem runChain_withPath (p : Str) (a : FastRouter) (k : Nat) (v : Route) (st : St)
    (hg : ∀ f ∈ a.preHandlers, BlindTo p f) (hv : BlindTo p v.handler)
    (hr : ∀ f ∈ v.preHandlers, BlindTo p f) :
    runChain a k v (st.withPath p) =
      ((runChain a k v st).1.withPath p, (runChain a k v st).2) := by
  unfold runChain
  rw [runPre_withPath p Event.globalPre a.preHandlers 0 st hg]
  rcases h1 : runPre Event.globalPre a.preHandlers 0 st with ⟨st3, b | e⟩
  · cases b with
    | false => rfl
    | true =>
      simp only
      rw [runPre_withPath p (Event.routePre k) v.preHandlers 0 st3 hr]
      rcases h2 : runPre (Event.routePre k) v.preHandlers 0 st3 with ⟨st4, b2 | e2⟩
      · cases b2 with
        | false => rfl
        | true =>
          simp only
          have hc : (st4.withPath p).ctx = st4.ctx.withPath p := rfl
          rw [hc, hv st4.ctx]
          rcases h3 : v.handler st4.ctx with ⟨c, u | e3⟩ <;> rfl
      · rfl
  · rfl

theorem setAllowHeader_withPath (p : Str) (k : Nat) (v : Route) (st : St) :
    setAllowHeader k v ((st.withPath p).emit (Event.attempt k)) =
      (setAllowHeader k v (st.emit (Event.attempt k))).withPath p := by
  unfold setAllowHeader
  split <;> rfl

theorem serve_withPath (p : Str) (a : FastRouter) (k : Nat) (v : Route) (method urlPath : Str)
    (st : St) (hg : ∀ f ∈ a.preHandlers, BlindTo p f) (hv : BlindTo p v.handler)
    (hr : ∀ f ∈ v.preHandlers, BlindTo p f) :
    serve a k v method urlPath (st.withPath p) =
      ((serve a k v method urlPath st).1.withPath p, (serve a k v method urlPath st).2) := by
  unfold serve
  simp only
  rw [setAllowHeader_withPath]
  split
  · rfl
  · have he : ((setAllowHeader k v (st.emit (Event.attempt k))).withPath p).emit
        (Event.matched k) =
        ((setAllowHeader k v (st.emit (Event.attempt k))).emit (Event.matched k)).withPath p :=
      rfl
    rw [he, bindVars_withPath]
    rcases hb : bindVars (splitPath urlPath) v.varsN
      ((setAllowHeader k v (st.emit (Event.attempt k))).emit (Event.matched k)) with ⟨st2, u | e⟩
    · exact runChain_withPath p a k v st2 hg hv hr
    · rfl

theorem passOne_withPath (p : Str) (a : FastRouter) (hb : PathBlind a p) (method urlPath : Str) :
    ∀ (ks : List Nat) (m0 p0 : Bool) (st : St),
    passOne a method urlPath ks m0 p0 (st.withPath p) =
      ((passOne a method urlPath ks m0 p0 st).1.withPath p,
        (passOne a method urlPath ks m0 p0 st).2) := by
  intro ks
  induction ks with
  | nil => intro m0 p0 st; rfl
  | cons k ks ih =>
    intro m0 p0 st
    unfold passOne
    cases hk : a.routes.get? k with
    | none => rfl
    | some v =>
      simp only
      have hv := hb.2.1 v (List.get?_mem hk)
      rw [serve_withPath p a k v method urlPath st hb.1 hv.1 hv.2]
      rcases hs : serve a k v method urlPath st with ⟨st1, mp | e⟩
      · obtain ⟨m1, p1⟩ := mp
        simp only
        split
        · rfl
        · exact ih m1 p1 st1
      · rfl

theorem tryWinner_withPath (p : Str) (a : FastRouter) (hb : PathBlind a p) (method urlPath : Str)
    (deepLen idx : Nat) (m0 p0 : Bool) (st : St) :
    tryWinner a method urlPath deepLen idx m0 p0 (st.withPath p) =
      ((tryWinner a method urlPath deepLen idx m0 p0 st).1.withPath p,
        (tryWinner a method urlPath deepLen idx m0 p0 st).2) := by
  unfold tryWinner
  split
  · cases hk : a.routes.get? idx with
    | none => rfl
    | some v =>
      simp only
      have hv := hb.2.1 v (List.get?_mem hk)
      rw [serve_withPath p a idx v method urlPath st hb.1 hv.1 hv.2]
      rcases hs : serve a idx v method urlPath st with ⟨st1, mp | e⟩
      · obtain ⟨m1, p1⟩ := mp
        simp only
        split <;> rfl
      · rfl
  · rfl

theorem exactPass_withPath (p : Str) (a : FastRouter) (hb : PathBlind a p) (method urlPath : Str)
    (st : St) :
    exactPass a method urlPath (st.withPath p) =
      ((exactPass a method urlPath st).1.withPath p, (exactPass a method urlPath st).2) := by
  unfold exactPass
  cases hk : mapGet a.indexRoutes urlPath with
  | none => rfl
  | some hs => exact passOne_withPath p a hb method urlPath hs false false st

theorem fallbackPass_withPath (p : Str) (a : FastRouter) (hb : PathBlind a p)
    (method urlPath : Str) (m0 p0 : Bool) (st : St) :
    fallbackPass a method urlPath m0 p0 (st.withPath p) =
      ((fallbackPass a method urlPath m0 p0 st).1.withPath p,
        (fallbackPass a method urlPath m0 p0 st).2) := by
  unfold fallbackPass
  simp only
  rw [tryWinner_withPath p a hb]
  rcases h1 : tryWinner a method urlPath (scan a urlPath).prefixDeepLen
    (scan a urlPath).prefixMaxDeep m0 p0 st with ⟨st2, f | e⟩
  · cases f with
    | done => rfl
    | next m2 p2 => exact tryWinner_withPath p a hb method urlPath _ _ m2 p2 st2
  · rfl

theorem finish_withPath (p : Str) (a : FastRouter) (hb : PathBlind a p) (m0 p0 : Bool)
    (st : St) :
    finish a m0 p0 (st.withPath p) =
      ((finish a m0 p0 st).1.withPath p, (finish a m0 p0 st).2) := by
  unfold finish
  have hc : (st.withPath p).ctx = st.ctx.withPath p := rfl
  split
  · cases hn : a.NotFound with
    | none => rfl
    | some f =>
      simp only
      rw [hc, hb.2.2.1 f hn st.ctx]
      rfl
  · split
    · cases hn : a.NotAllowed with
      | none => rfl
      | some f =>
        simp only
        rw [hc, hb.2.2.2.1 f hn st.ctx]
        rcases hf : f st.ctx with ⟨c, u | e⟩ <;> rfl
    · rfl

theorem routeRequest_withPath (p : Str) (a : FastRouter) (hb : PathBlind a p)
    (method urlPath : Str) (st : St) :
    routeRequest a method urlPath (st.withPath p) =
      ((routeRequest a method urlPath st).1.withPath p,
        (routeRequest a method urlPath st).2) := by
  unfold routeRequest
  rw [exactPass_withPath p a hb]
  rcases h1 : exactPass a method urlPath st with ⟨st1, f | e⟩
  · cases f with
    | done => rfl
    | next m1 p1 =>
      simp only
      rw [fallbackPass_withPath p a hb]
      rcases h2 : fallbackPass a method urlPath m1 p1 st1 with ⟨st2, f2 | e2⟩
      · cases f2 with
        | done => rfl
        | next m2 p2 => exact finish_withPath p a hb m2 p2 st2
      · rfl
  · rfl

theorem recoverFrom_withPath (p : Str) (a : FastRouter) (hb : PathBlind a p) (err : Str)
    (st : St) :
    recoverFrom a err (st.withPath p) =
      ((recoverFrom a err st).1.withPath p, (recoverFrom a err st).2) := by
  unfold recoverFrom
  have hc : (st.withPath p).ctx = st.ctx.withPath p := rfl
  cases hn : a.Recover with
  | none => rfl
  | some f =>
    simp only
    have hf0 : f (st.ctx.withPath p) err = ((f st.ctx err).1.withPath p, (f st.ctx err).2) :=
      hb.2.2.2.2 f hn err st.ctx
    rw [hc, hf0]
    rcases hf : f st.ctx err with ⟨c, u | e⟩ <;> rfl

/-! The path argument of the passes is read through `splitPath`, the lookup in
`indexRoutes` and the prefix tests of the scan only. -/

theorem serve_path (a : FastRouter) (k : Nat) (v : Route) (method p1 p2 : Str) (st : St)
    (hseg : splitPath p1 = splitPath p2) :
    serve a k v method p1 st = serve a k v method p2 st := by
  unfold serve
  rw [hseg]

theorem passOne_path (a : FastRouter) (method p1 p2 : Str)
    (hseg : splitPath p1 = splitPath p2) : ∀ (ks : List Nat) (m0 p0 : Bool) (st : St),
    passOne a method p1 ks m0 p0 st = passOne a method p2 ks m0 p0 st := by
  intro ks
  induction ks with
  | nil => intro m0 p0 st; rfl
  | cons k ks ih =>
    intro m0 p0 st
    unfold passOne
    cases hk : a.routes.get? k with
    | none => rfl
    | some v =>
      simp only
      rw [serve_path a k v method p1 p2 st hseg]
      rcases hs : serve a k v method p2 st with ⟨st1, mp | e⟩
      · obtain ⟨m1, q1⟩ := mp
        simp only
        split
        · rfl
        · exact ih m1 q1 st1
      · rfl

theorem scanLoop_path (p1 p2 : Str) : ∀ (rs : List Route) (j : Nat) (sc : Scan),
    (∀ r ∈ rs, r.prefixStr.isPrefixOf p1 = r.prefixStr.isPrefixOf p2) →
    scanLoop p1 rs j sc = scanLoop p2 rs j sc := by
  intro rs
  induction rs with
  | nil => intro j sc _; rfl
  | cons r rs ih =>
    intro j sc h
    unfold scanLoop
    have hs : scanStep p1 sc j r = scanStep p2 sc j r := by
      unfold scanStep
      rw [h r (List.mem_cons_self _ _)]
    rw [hs]
    exact ih _ _ (fun x hx => h x (List.mem_cons_of_mem _ hx))

theorem routeRequest_path (a : FastRouter) (method p1 p2 : Str) (st : St)
    (hseg : splitPath p1 = splitPath p2)
    (hidx : mapGet a.indexRoutes p1 = mapGet a.indexRoutes p2)
    (hpre : ∀ r ∈ a.routes, r.prefixStr.isPrefixOf p1 = r.prefixStr.isPrefixOf p2) :
    routeRequest a method p1 st = routeRequest a method p2 st := by
  have hscan : scan a p1 = scan a p2 := scanLoop_path p1 p2 a.routes 0 _ hpre
  have htry : ∀ deepLen idx m0 p0 s, tryWinner a method p1 deepLen idx m0 p0 s =
      tryWinner a method p2 deepLen idx m0 p0 s := by
    intro deepLen idx m0 p0 s
    unfold tryWinner
    split
    · cases hk : a.routes.get? idx with
      | none => rfl
      | some v => simp only; rw [serve_path a idx v method p1 p2 s hseg]
    · rfl
  have hex : exactPass a method p1 st = exactPass a method p2 st := by
    unfold exactPass
    rw [hidx]
    cases hk : mapGet a.indexRoutes p2 with
    | none => rfl
    | some hs => exact passOne_path a method p1 p2 hseg hs false false st
  have hfb : ∀ m0 p0 s, fallbackPass a method p1 m0 p0 s = fallbackPass a method p2 m0 p0 s := by
    intro m0 p0 s
    unfold fallbackPass
    simp only
    rw [hscan, htry]
    rcases h1 : tryWinner a method p2 (scan a p2).prefixDeepLen (scan a p2).prefixMaxDeep
      m0 p0 s with ⟨st2, f | e⟩
    · cases f with
      | done => rfl
      | next m2 q2 => exact htry _ _ _ _ _
    · rfl
  unfold routeRequest
  rw [hex]
  rcases h1 : exactPass a method p2 st with ⟨st1, f | e⟩
  · cases f with
    | done => rfl
    | next m1 q1 => simp only; rw [hfb]
  · rfl

/-- Dispatch reads the path through its segment sequence, through the lookup
of the path in the index and through the tests whether a static prefix is a
string prefix of the path.  For two paths of at most 8182 bytes that agree on
these three, and filters, handlers and hooks that do not read the path,
dispatch does the same on both: the same log, the same panic outcome, and the
same context up to the path. -/
theorem same_dispatch_of_agreement (a : FastRouter) (st : St) (p2 : Str)
    (hl1 : st.ctx.path.length ≤ 8182) (hl2 : p2.length ≤ 8182)
    (hseg : splitPath st.ctx.path = splitPath p2)
    (hidx : mapGet a.indexRoutes st.ctx.path = mapGet a.indexRoutes p2)
    (hpre : ∀ r ∈ a.routes, r.prefixStr.isPrefixOf st.ctx.path = r.prefixStr.isPrefixOf p2)
    (hblind : PathBlind a p2) :
    Handler a (st.withPath p2) = ((Handler a st).1.withPath p2, (Handler a st).2) ∧
    (Handler a (st.withPath p2)).1.log = (Handler a st).1.log := by
  have hmain : Handler a (st.withPath p2) =
      ((Handler a st).1.withPath p2, (Handler a st).2) := by
    rw [Handler_eq a st (by simpa [PathMaxSize] using hl1),
      Handler_eq a (st.withPath p2) (by simpa [PathMaxSize, St.withPath, Ctx.withPath] using hl2)]
    have hm : (st.withPath p2).ctx.method = st.ctx.method := rfl
    have hp : (st.withPath p2).ctx.path = p2 := rfl
    rw [hm, hp, ← routeRequest_path a st.ctx.method st.ctx.path p2 (st.withPath p2) hseg hidx hpre,
      routeRequest_withPath p2 a hblind]
    rcases hr : routeRequest a st.ctx.method st.ctx.path st with ⟨st1, u | err⟩
    · rfl
    · exact recoverFrom_withPath p2 a hblind err st1
  exact ⟨hmain, by rw [hmain]; rfl⟩

theorem failed_registration_atomic_witness :
    Built pathRouter ∧
    handle pathRouter "OPTIONS".toList "/path".toList false okHandler [] =
      .panicked ("route already exist : ".toList ++ "/path".toList ++ " ".toList ++
        "OPTIONS".toList)
        (handle pathRouter "OPTIONS".toList "/path".toList false okHandler []).router ∧
    (handle pathRouter "OPTIONS".toList "/path".toList false okHandler []).router = pathRouter :=
  ⟨built_pathRouter, rfl,
    failed_registration_atomic pathRouter built_pathRouter "OPTIONS".toList "/path".toList
      false okHandler [] _ _ rfl⟩

/-! ## the chain in terms of the functions and the contexts -/

theorem refFilters_cons (f : PreHandler) (fs : List PreHandler) (c : Ctx) :
    refFilters (f :: fs) c =
      match f c with
      | (c1, .ret true) => refFilters fs c1
      | (c1, o) => (c1, o) := by
  rw [refFilters]

theorem refFilters_append : ∀ (gs ps : List PreHandler) (c c1 : Ctx),
    refFilters gs c = (c1, .ret true) → refFilters (gs ++ ps) c = refFilters ps c1 := by
  intro gs
  induction gs with
  | nil =>
    intro ps c c1 h
    simp only [refFilters, Prod.mk.injEq, and_true] at h
    subst h
    rfl
  | cons g gs ih =>
    intro ps c c1 h
    rw [List.cons_append, refFilters_cons]
    rw [refFilters_cons] at h
    rcases hg : g c with ⟨c2, b | e⟩
    · cases b with
      | false => rw [hg] at h; simp at h
      | true =>
        rw [hg] at h
        simp only at h ⊢
        exact ih ps c2 c1 h
    · rw [hg] at h; simp at h

/-- The loop `runPre` against the reference `refFilters`: either every
filter returned `true`, or the filter at position `n`, applied to the context
the `n` filters before it left, is the first not to return `true` and the loop
ends with its context and outcome. -/
theorem runPre_run (ev : Nat → Option Bool → Event) :
    ∀ (fs : List PreHandler) (j : Nat) (st : St),
    (∃ c1, refFilters fs st.ctx = (c1, .ret true) ∧
      runPre ev fs j st =
        ({ ctx := c1, log := st.log ++ (List.range fs.length).map (fun i => ev (j + i) (some true)) },
          .ret true)) ∨
    (∃ n f c1 cF ob res, fs.get? n = some f ∧
      refFilters (fs.take n) st.ctx = (c1, .ret true) ∧ f c1 = (cF, ob) ∧
      ((ob = .ret false ∧ res = some false) ∨ (∃ e, ob = .panic e ∧ res = none)) ∧
      runPre ev fs j st =
        ({ ctx := cF,
           log := st.log ++ ((List.range n).map (fun i => ev (j + i) (some true)) ++
             [ev (j + n) res]) }, ob)) := by
  intro fs
  induction fs with
  | nil => intro j st; exact Or.inl ⟨st.ctx, rfl, by simp [runPre]⟩
  | cons f fs ih =>
    intro j st
    unfold runPre
    rcases hf : f st.ctx with ⟨c, b | p⟩
    · cases b with
      | false =>
        exact Or.inr ⟨0, f, st.ctx, c, .ret false, some false, rfl, rfl, hf,
          Or.inl ⟨rfl, rfl⟩, by simp⟩
      | true =>
        simp only
        rcases ih (j + 1) { ctx := c, log := st.log ++ [ev j (some true)] } with
          ⟨c1, h1, h2⟩ | ⟨n, g, c1, cF, ob, res, h1, h2, h3, h4, h5⟩
        · refine Or.inl ⟨c1, ?_, ?_⟩
          · rw [refFilters_cons, hf]
            exact h1
          · rw [h2, List.length_cons, range_map_succ]
            simp [Nat.add_assoc, Nat.add_comm 1]
        · refine Or.inr ⟨n + 1, g, c1, cF, ob, res, by simpa using h1, ?_, h3, h4, ?_⟩
          · rw [List.take_succ_cons, refFilters_cons, hf]
            exact h2
          · rw [h5, range_map_succ]
            simp [Nat.add_assoc, Nat.add_comm 1]
    · exact Or.inr ⟨0, f, st.ctx, c, .panic p, none, rfl, rfl, hf,
        Or.inr ⟨p, rfl, rfl⟩, by simp⟩

/-- The source's `runChain` against the reference: the global filters, then
the filters of the route, then the handler, each applied to the context the
one before it left. -/
theorem runChain_run (a : FastRouter) (k : Nat) (v : Route) (st : St) :
    ∃ C cF o, ChainRun a k v st.ctx C cF o ∧
      (runChain a k v st).1 = { ctx := cF, log := st.log ++ C } ∧
      (o = .ret () → (runChain a k v st).2 = .ret (true, true)) ∧
      (∀ e, o = .panic e → (runChain a k v st).2 = .panic e) := by
  unfold runChain
  rcases runPre_run Event.globalPre a.preHandlers 0 st with
    ⟨c1, h1, h2⟩ | ⟨n, f, c1, cF, ob, res, h1, h2, h3, h4, h5⟩
  · rw [h2]
    simp only
    have hroute := runPre_run (Event.routePre k) v.preHandlers 0
      (runPre Event.globalPre a.preHandlers 0 st).1
    rw [h2] at hroute
    simp only at hroute
    rcases hroute with ⟨c2, g1, g2⟩ | ⟨n, f, c2, cF, ob, res, g1, g2, g3, g4, g5⟩
    · rw [g2]
      simp only
      have happ : refFilters (a.preHandlers ++ v.preHandlers) st.ctx = (c2, .ret true) := by
        rw [refFilters_append _ _ _ _ h1]; exact g1
      rcases hh : v.handler c2 with ⟨cF, u | e⟩
      · refine ⟨_, cF, .ret (), Or.inl ⟨c2, happ, hh, rfl⟩, ?_, fun _ => rfl, fun e he => by simp at he⟩
        simp [passedGlobal, passedRoute]
      · refine ⟨_, cF, .panic e, Or.inl ⟨c2, happ, hh, rfl⟩, ?_, fun he => by simp at he,
          fun e1 he => by simp only [Outcome.panic.injEq] at he; rw [he]⟩
        simp [passedGlobal, passedRoute]
    · rw [g5]
      have happ : refFilters (a.preHandlers ++ v.preHandlers.take n) st.ctx =
          (c2, .ret true) := by
        rw [refFilters_append _ _ _ _ h1]; exact g2
      rcases g4 with ⟨hob, hres⟩ | ⟨e, hob, hres⟩
      · subst hob hres
        refine ⟨_, cF, .ret (), Or.inr (Or.inr ⟨n, f, c2, .ret false, some false, g1, happ, g3,
          Or.inl ⟨rfl, rfl, rfl⟩, rfl⟩), ?_, fun _ => rfl, fun e he => by simp at he⟩
        simp [passedGlobal, passedRoute]
      · subst hob hres
        refine ⟨_, cF, .panic e, Or.inr (Or.inr ⟨n, f, c2, .panic e, none, g1, happ, g3,
          Or.inr ⟨e, rfl, rfl, rfl⟩, rfl⟩), ?_, fun he => by simp at he,
          fun e1 he => by simp only [Outcome.panic.injEq] at he; rw [he]⟩
        simp [passedGlobal, passedRoute]
  · rw [h5]
    rcases h4 with ⟨hob, hres⟩ | ⟨e, hob, hres⟩
    · subst hob hres
      refine ⟨_, cF, .ret (), Or.inr (Or.inl ⟨n, f, c1, .ret false, some false, h1, h2, h3,
        Or.inl ⟨rfl, rfl, rfl⟩, rfl⟩), ?_, fun _ => rfl, fun e he => by simp at he⟩
      simp [passedGlobal]
    · subst hob hres
      refine ⟨_, cF, .panic e, Or.inr (Or.inl ⟨n, f, c1, .panic e, none, h1, h2, h3,
        Or.inr ⟨e, rfl, rfl, rfl⟩, rfl⟩), ?_, fun he => by simp at he,
        fun e1 he => by simp only [Outcome.panic.injEq] at he; rw [he]⟩
      simp [passedGlobal]

theorem chainRun_trace {a : FastRouter} {k : Nat} {v : Route} {c cF : Ctx} {C : List Event}
    {o : Outcome Unit} (h : ChainRun a k v c C cF o) :
    ChainTrace a.preHandlers.length v.preHandlers.length k C ∧
    ((∃ e, o = .panic e) → EndsFailed k C) := by
  have hstop : ∀ {ob : Outcome Bool} {res : Option Bool}, Stopped ob res o →
      res ≠ some true ∧ ((∃ e, o = .panic e) → res = none) := by
    intro ob res hs
    rcases hs with ⟨-, hres, ho⟩ | ⟨e, -, hres, -⟩
    · subst hres ho
      exact ⟨by simp, fun ⟨e, he⟩ => by simp at he⟩
    · subst hres
      exact ⟨by simp, fun _ => rfl⟩
  rcases h with ⟨c1, -, -, hC⟩ | ⟨j, f, c1, ob, res, hj, -, -, hs, hC⟩ |
    ⟨j, f, c1, ob, res, hj, -, -, hs, hC⟩
  · exact ⟨Or.inl hC, fun _ => Or.inl (by rw [hC]; simp)⟩
  · refine ⟨Or.inr (Or.inl ⟨j, res, get?_lt hj, (hstop hs).1, hC⟩), fun hp => ?_⟩
    have := (hstop hs).2 hp
    subst this
    exact Or.inr ⟨j, Or.inl (by rw [hC]; simp)⟩
  · refine ⟨Or.inr (Or.inr ⟨j, res, get?_lt hj, (hstop hs).1, hC⟩), fun hp => ?_⟩
    have := (hstop hs).2 hp
    subst this
    exact Or.inr ⟨j, Or.inr (by rw [hC]; simp)⟩

/-- The log of a dispatch that serves the route at position `k`. -/
theorem served_log {a : FastRouter} {st : St} {k : Nat} {v : Route}
    (h : Served a st k v) :
    ∃ st1 st2 C cF o A U T, Tried st st1 ∧
      bindVars (splitPath st.ctx.path) v.varsN (st1.emit (Event.matched k)) = (st2, .ret ()) ∧
      ChainRun a k v st2.ctx C cF o ∧
      (o = .ret () → T = [] ∧ Handler a st = ({ ctx := cF, log := st2.log ++ C }, none)) ∧
      (∀ e, o = .panic e → Handler a st = recoverFrom a e { ctx := cF, log := st2.log ++ C }) ∧
      st1.log = st.log ++ A ∧ (∀ e ∈ A, e.isQuiet = true) ∧
      st2.log = st1.log ++ Event.matched k :: U ∧
      (∀ e ∈ U, ∃ key val, e = Event.setUserValue key val) ∧
      RecoverEvents T ∧ (T = [] ∨ EndsFailed k C) ∧
      (Handler a st).1.log = st.log ++ (A ++ Event.matched k :: (U ++ (C ++ T))) := by
  obtain ⟨st1, st2, C, cF, o, ht, hbv, hrun, hret, hpan⟩ := h
  obtain ⟨A, hA, hqA⟩ := ht.1
  obtain ⟨U, hU, hqU⟩ := bindVars_log (splitPath st.ctx.path) v.varsN
    (st1.emit (Event.matched k))
  rw [hbv, emit_log] at hU
  simp only at hU
  have hU2 : st2.log = st1.log ++ Event.matched k :: U := by rw [hU]; simp
  cases o with
  | ret u =>
    have hH := hret rfl
    refine ⟨st1, st2, C, cF, .ret (), A, U, [], ht, hbv, hrun, fun _ => ⟨rfl, hH⟩,
      fun e he => by simp at he, hA, hqA, hU2, hqU, by simp [RecoverEvents], Or.inl rfl, ?_⟩
    rw [hH]
    simp only
    rw [hU2, hA]
    simp
  | panic e =>
    have hH := hpan e rfl
    obtain ⟨T, hT, hqT⟩ := recoverFrom_events a e { ctx := cF, log := st2.log ++ C }
    refine ⟨st1, st2, C, cF, .panic e, A, U, T, ht, hbv, hrun,
      fun he => by simp at he, fun e1 he => by
        simp only [Outcome.panic.injEq] at he
        rw [← he]; exact hH,
      hA, hqA, hU2, hqU, fun x hx => ⟨e, hqT x hx⟩,
      Or.inr ((chainRun_trace hrun).2 ⟨e, rfl⟩), ?_⟩
    rw [hH, hT]
    simp only
    rw [hU2, hA]
    simp

/-- What `Handler` does on a router that satisfies the registry invariant, in
terms of the contexts: every attempt fails and the tail of `Handler` runs on a
context that differs from the incoming one in the `Allow` header only, or one
route is served. -/
theorem Handler_run (a : FastRouter) (hw : WF a) (st : St)
    (hlen : st.ctx.path.length ≤ PathMaxSize) :
    (∃ st1 m p, Tried st st1 ∧
      Handler a st =
        match finish a m p st1 with
        | (s, .ret ()) => (s, none)
        | (s, .panic e) => recoverFrom a e s) ∨
    (∃ k v, a.routes.get? k = some v ∧ Hit v st.ctx.method st.ctx.path ∧ Served a st k v) := by
  have hH := Handler_eq a st hlen
  rcases routeRequest_phase a hw st.ctx.method st.ctx.path st with
    ⟨st1, m, p, ht, hr⟩ | ⟨k, r, ⟨v, s1, s2, U, hv, hh, -, -, -, hr2, ht, -, hbv⟩, hr⟩
  · exact Or.inl ⟨st1, m, p, ht, by rw [hH, hr]⟩
  · refine Or.inr ⟨k, v, hv, hh, ?_⟩
    obtain ⟨C, cF, o, hrun, h1, h2, h3⟩ := runChain_run a k v s2
    refine ⟨s1, s2, C, cF, o, ht, hbv, hrun, ?_, ?_⟩
    · intro ho
      rw [hH, hr, hr2]
      rcases hc : runChain a k v s2 with ⟨s, mp | err⟩
      · rw [hc] at h1
        simp only at h1
        simp only [chainUnit, h1]
      · have := h2 ho
        rw [hc] at this
        simp at this
    · intro e ho
      rw [hH, hr, hr2]
      rcases hc : runChain a k v s2 with ⟨s, mp | err⟩
      · have := h3 e ho
        rw [hc] at this
        simp at this
      · have h4 := h3 e ho
        rw [hc] at h1 h4
        simp only [Outcome.panic.injEq] at h4
        simp only at h1
        simp only [chainUnit, h1, h4]

/-- A dispatch in which every attempt failed logs no successful match. -/
theorem missed_log (a : FastRouter) (st st1 : St) (m p : Bool) (ht : Tried st st1)
    (h : Handler a st =
      match finish a m p st1 with
      | (s, .ret ()) => (s, none)
      | (s, .panic e) => recoverFrom a e s) :
    ∃ l, (Handler a st).1.log = st.log ++ l ∧ ∀ k, Event.matched k ∉ l := by
  obtain ⟨A, hA, hqA⟩ := ht.1
  obtain ⟨F, hF, hqF⟩ := finish_events a m p st1
  have hAF : ∀ k, Event.matched k ∉ A ++ F := by
    intro k hm
    rcases List.mem_append.1 hm with h1 | h1
    · have := hqA _ h1
      simp [Event.isQuiet] at this
    · rcases hqF _ h1 with h2 | h2 | h2 | h2 <;> simp at h2
  rw [h]
  rcases hf : finish a m p st1 with ⟨s, u | err⟩
  · rw [hf] at hF
    simp only at hF ⊢
    exact ⟨A ++ F, by rw [hF, hA, List.append_assoc], hAF⟩
  · rw [hf] at hF
    simp only at hF ⊢
    obtain ⟨T, hT, hqT⟩ := recoverFrom_events a err s
    refine ⟨A ++ F ++ T, by rw [hT, hF, hA]; simp, ?_⟩
    intro k hm
    rcases List.mem_append.1 hm with h1 | h1
    · exact hAF k h1
    · rcases hqT _ h1 with h2 | h2 <;> simp at h2

/-! ## the order of the filters, on the functions and the contexts -/

/-- C17: whenever dispatch on a built router gets a successful match on the
route `v` at position `k` (the event `matched k`), the attempts before it
wrote nothing but the `Allow` header, the variables are bound, and the chain
runs from the context this leaves as `ChainRun` says: the global filters in
their list order, then the filters of the route in their list order, each
applied to the context the one before it left and only if all before it
returned `true`; the handler is applied, to the context the filters left,
exactly when every filter returned `true`; after a filter that did not return
`true` nothing is applied.  `Handler` then returns with the context the chain
left, also when a filter stopped the chain, or runs the deferred function on
it when the chain failed.  No further route is attempted.  `Use` appends to
the global filters and a registration stores the filters it is given. -/
theorem filter_chain_order (a : FastRouter) (hb : Built a) (st : St) (k : Nat)
    (l1 l2 : List Event)
    (h : (Handler a st).1.log = st.log ++ (l1 ++ Event.matched k :: l2)) :
    (∃ v U C T, a.routes.get? k = some v ∧ Hit v st.ctx.method st.ctx.path ∧
      l2 = U ++ (C ++ T) ∧
      (∀ e ∈ U, ∃ key val, e = Event.setUserValue key val) ∧
      ChainTrace a.preHandlers.length v.preHandlers.length k C ∧
      RecoverEvents T ∧ (T = [] ∨ EndsFailed k C) ∧
      (∀ e ∈ l1, e.isQuiet = true) ∧
      (∀ e ∈ l2, ∀ k2, e ≠ Event.attempt k2 ∧ e ≠ Event.matched k2) ∧
      ∃ (st1 st2 : St) (cF : Ctx) (o : Outcome Unit), st1.log = st.log ++ l1 ∧ SameButAllow st.ctx st1.ctx ∧
        bindVars (splitPath st.ctx.path) v.varsN (st1.emit (Event.matched k)) =
          (st2, .ret ()) ∧
        ChainRun a k v st2.ctx C cF o ∧
        (o = .ret () → T = [] ∧
          Handler a st = ({ ctx := cF, log := st2.log ++ C }, none)) ∧
        (∀ e, o = .panic e →
          Handler a st = recoverFrom a e { ctx := cF, log := st2.log ++ C })) ∧
    (∀ f, (Use a f).preHandlers = a.preHandlers ++ [f]) ∧
    (∀ method urlPath b handler pre a1, handle a method urlPath b handler pre = .ok a1 →
      a1.preHandlers = a.preHandlers ∧
      ∃ r, a1.routes.getLast? = some r ∧ r.preHandlers = pre) := by
  refine ⟨?_, fun f => rfl, ?_⟩
  · by_cases hlen : st.ctx.path.length ≤ PathMaxSize
    · rcases Handler_run a hb.wf st hlen with ⟨st1, m, p, ht, hH⟩ | ⟨k0, v, hv, hh, hs⟩
      · exfalso
        obtain ⟨l, hl, hno⟩ := missed_log a st st1 m p ht hH
        rw [hl] at h
        have h0 := List.append_cancel_left h
        exact hno k (by rw [h0]; simp)
      · obtain ⟨st1, st2, C, cF, o, A, U, T, ht, hbv, hrun, hret, hpan, hA, hqA, hU2, hqU,
          hqT, hend, hlog⟩ := served_log hs
        have hct := (chainRun_trace hrun).1
        rw [hlog] at h
        have h0 := List.append_cancel_left h
        have hrest : ∀ e ∈ U ++ (C ++ T), ∀ k2, e ≠ Event.attempt k2 ∧ e ≠ Event.matched k2 := by
          intro e he k2
          rcases List.mem_append.1 he with he | he
          · obtain ⟨key, val, rfl⟩ := hqU e he
            simp
          · rcases List.mem_append.1 he with he | he
            · rcases chainTrace_mem hct e he with ⟨j, res, rfl⟩ | ⟨j, res, rfl⟩ | rfl <;> simp
            · obtain ⟨err, h1 | h1⟩ := hqT e he <;> subst h1 <;> simp
        obtain ⟨e1, e2, e3⟩ := split_unique (fun e => ∃ k2, e = Event.matched k2) A
          (U ++ (C ++ T)) l1 l2 (Event.matched k0) (Event.matched k) h0 ⟨k, rfl⟩
          (fun e he ⟨k2, hk2⟩ => by have := hqA e he; subst hk2; simp [Event.isQuiet] at this)
          (fun e he ⟨k2, hk2⟩ => (hrest e he k2).2 hk2)
        simp only [Event.matched.injEq] at e2
        subst e1 e2 e3
        exact ⟨v, U, C, T, hv, hh, rfl, hqU, hct, hqT, hend, hqA, hrest,
          st1, st2, cF, o, hA, ht.2, hbv, hrun, hret, hpan⟩
    · exfalso
      rw [Handler_too_long a st (by omega)] at h
      simp only at h
      have h0 := List.append_cancel_left h
      have hm : Event.matched k ∈ [Event.setStatus 414] := by rw [h0]; simp
      simp at hm
  · intro method urlPath b handler pre a1 hh
    obtain ⟨r, routes1, hg, -, hr, -, -, -, -, -, hp, -⟩ := handle_ok hh
    obtain ⟨-, -, -, -, -, hpre, -⟩ := genRoute_ok hg
    exact ⟨hp, r, by rw [hr]; simp, hpre⟩

/-! ## the order of the filters on a router whose filters write to the body -/

theorem built_tagRouter (res : Bool) : Built (tagRouter res) :=
  Built.use (tagFilter "g2" true)
    (Built.use (tagFilter "g1" true)
      (Built.handle "GET".toList "/x".toList false (tagHandler "h")
        [tagFilter "r1" res, tagFilter "r2" true] Built.new rfl))

theorem filter_chain_order_witness :
    ((Handler (tagRouter false) xRequest).1.log =
      xRequest.log ++
        ([Event.attempt 0, Event.setAllow 0 ["GET".toList, "OPTIONS".toList]] ++
          Event.matched 0 ::
            [Event.globalPre 0 (some true), Event.globalPre 1 (some true),
              Event.routePre 0 0 (some false)]) ∧
      (Handler (tagRouter false) xRequest).1.ctx.body = "g1g2r1".toList ∧
      (Handler (tagRouter true) xRequest).1.ctx.body = "g1g2r1r2h".toList) ∧
    ((∃ v U C T, (tagRouter false).routes.get? 0 = some v ∧
      Hit v xRequest.ctx.method xRequest.ctx.path ∧
      [Event.globalPre 0 (some true), Event.globalPre 1 (some true),
        Event.routePre 0 0 (some false)] = U ++ (C ++ T) ∧
      (∀ e ∈ U, ∃ key val, e = Event.setUserValue key val) ∧
      ChainTrace (tagRouter false).preHandlers.length v.preHandlers.length 0 C ∧
      RecoverEvents T ∧ (T = [] ∨ EndsFailed 0 C) ∧
      (∀ e ∈ [Event.attempt 0, Event.setAllow 0 ["GET".toList, "OPTIONS".toList]],
        e.isQuiet = true) ∧
      (∀ e ∈ [Event.globalPre 0 (some true), Event.globalPre 1 (some true),
          Event.routePre 0 0 (some false)],
        ∀ k2, e ≠ Event.attempt k2 ∧ e ≠ Event.matched k2) ∧
      ∃ (st1 st2 : St) (cF : Ctx) (o : Outcome Unit),
        st1.log = xRequest.log ++
          [Event.attempt 0, Event.setAllow 0 ["GET".toList, "OPTIONS".toList]] ∧
        SameButAllow xRequest.ctx st1.ctx ∧
        bindVars (splitPath xRequest.ctx.path) v.varsN (st1.emit (Event.matched 0)) =
          (st2, .ret ()) ∧
        ChainRun (tagRouter false) 0 v st2.ctx C cF o ∧
        (o = .ret () → T = [] ∧
          Handler (tagRouter false) xRequest = ({ ctx := cF, log := st2.log ++ C }, none)) ∧
        (∀ e, o = .panic e →
          Handler (tagRouter false) xRequest =
            recoverFrom (tagRouter false) e { ctx := cF, log := st2.log ++ C })) ∧
    (∀ f, (Use (tagRouter false) f).preHandlers = (tagRouter false).preHandlers ++ [f]) ∧
    (∀ method urlPath b handler pre a1,
      handle (tagRouter false) method urlPath b handler pre = .ok a1 →
      a1.preHandlers = (tagRouter false).preHandlers ∧
      ∃ r, a1.routes.getLast? = some r ∧ r.preHandlers = pre)) :=
  ⟨⟨by decide, by decide, by decide⟩,
    filter_chain_order (tagRouter false) (built_tagRouter false) xRequest 0
      [Event.attempt 0, Event.setAllow 0 ["GET".toList, "OPTIONS".toList]]
      [Event.globalPre 0 (some true), Event.globalPre 1 (some true),
        Event.routePre 0 0 (some false)] (by decide)⟩

/-! ## the route that is reached is served: functions and contexts -/

/-- A route without variable segment binds no variable. -/
theorem static_varsN (r : Route) (hok : RouteOK r) (hnovar : NoVarSegment r.urlPath) :
    r.varsN = [] := by
  obtain ⟨hD, pfx, hl, -⟩ := hok
  rw [hD] at hl
  rw [genRouteLoop_static r.urlPath (splitPath r.urlPath) 0 []
    (fun seg hs => ⟨splitPath_lead _ seg hs, hnovar seg hs⟩)] at hl
  simp only [Outcome.ret.injEq, Prod.mk.injEq, List.nil_append] at hl
  exact hl.1.symm

/-- A dispatch whose log has the successful match on the route at position `k`
and on no other serves this route. -/
theorem served_of_matched (a : FastRouter) (hw : WF a) (st : St)
    (hlen : st.ctx.path.length ≤ PathMaxSize) (hnil : st.log = []) (k : Nat) (r : Route)
    (hk : a.routes.get? k = some r)
    (hm : Event.matched k ∈ (Handler a st).1.log)
    (hu : ∀ k1, Event.matched k1 ∈ (Handler a st).1.log → k1 = k) :
    Served a st k r := by
  rcases Handler_run a hw st hlen with ⟨st1, m, p, ht, hH⟩ | ⟨k1, v1, hk1, -, hs⟩
  · obtain ⟨l, hl, hno⟩ := missed_log a st st1 m p ht hH
    rw [hl, hnil] at hm
    exact absurd hm (hno k)
  · obtain ⟨s1, s2, C, cF, o, A, U, T, -, -, -, -, -, -, -, -, -, -, -, hlog⟩ := served_log hs
    have hk1k : k1 = k := hu k1 (by rw [hlog]; simp)
    subst hk1k
    rw [hk] at hk1
    cases hk1
    exact hs

/-- C1 (amended): a route registered with a pattern that starts with `'/'`, has
no variable segment and no repeated separator, and is at most 8182 bytes long,
is reached in the exact-prefix pass by the request with its method and its
pattern as path, whatever other routes are registered.  The route binds no
variable; the attempts before the match change nothing of the request context
but the `Allow` header; the filters and the handler of the route are applied
as `ChainRun` says, from that context on, and `Handler` returns with the
context the handler left (or the one the filter that stopped the chain left),
or runs the deferred function on it if the chain failed. -/
theorem exact_route_reached (a : FastRouter) (hb : Built a) (k : Nat) (r : Route)
    (hk : a.routes.get? k = some r) (hslash : r.urlPath.head? = some '/')
    (hnovar : NoVarSegment r.urlPath) (hns : NoRepeatedSep r.urlPath)
    (hlen : r.urlPath.length ≤ PathMaxSize) (c : Ctx) (hp : c.path = r.urlPath)
    (hm : c.method = r.method) :
    Reached a c k ∧ Event.matched k ∈ (exactPass a c.method c.path ⟨c, []⟩).1.log ∧
    r.varsN = [] ∧
    ∃ (st1 : St) (C : List Event) (cF : Ctx) (o : Outcome Unit),
      Tried ⟨c, []⟩ st1 ∧
      ChainRun a k r st1.ctx C cF o ∧
      (o = .ret () →
        Handler a ⟨c, []⟩ = ({ ctx := cF, log := st1.log ++ Event.matched k :: C }, none)) ∧
      (∀ e, o = .panic e →
        Handler a ⟨c, []⟩ =
          recoverFrom a e { ctx := cF, log := st1.log ++ Event.matched k :: C }) := by
  have hold := reached_exact_route a hb k r hk hslash hnovar hns hlen c hp hm
  have hv := static_varsN r (hb.wf.routeOK k r hk) hnovar
  refine ⟨hold.1, hold.2, hv, ?_⟩
  obtain ⟨st1, st2, C, cF, o, ht, hbv, hrun, hret, hpan⟩ :=
    served_of_matched a hb.wf ⟨c, []⟩ (by rw [hp]; exact hlen) rfl k r hk hold.1.1 hold.1.2.1
  rw [hv] at hbv
  simp only [bindVars, Prod.mk.injEq, and_true] at hbv
  subst hbv
  refine ⟨st1, C, cF, o, ht, hrun, ?_, ?_⟩
  · intro ho
    rw [hret ho]
    simp [St.emit]
  · intro e ho
    rw [hpan e ho]
    simp [St.emit]

theorem exact_route_reached_witness :
    (Built (tagRouter true) ∧ NoVarSegment "/x".toList ∧ NoRepeatedSep "/x".toList ∧
      (Handler (tagRouter true) ⟨xRequest.ctx, []⟩).1.ctx.body = "g1g2r1r2h".toList) ∧
    (Reached (tagRouter true) xRequest.ctx 0 ∧
    Event.matched 0 ∈
      (exactPass (tagRouter true) xRequest.ctx.method xRequest.ctx.path
        ⟨xRequest.ctx, []⟩).1.log ∧
    (firstRoute (tagRouter true)).varsN = [] ∧
    ∃ (st1 : St) (C : List Event) (cF : Ctx) (o : Outcome Unit),
      Tried ⟨xRequest.ctx, []⟩ st1 ∧
      ChainRun (tagRouter true) 0 (firstRoute (tagRouter true)) st1.ctx C cF o ∧
      (o = .ret () →
        Handler (tagRouter true) ⟨xRequest.ctx, []⟩ =
          ({ ctx := cF, log := st1.log ++ Event.matched 0 :: C }, none)) ∧
      (∀ e, o = .panic e →
        Handler (tagRouter true) ⟨xRequest.ctx, []⟩ =
          recoverFrom (tagRouter true) e
            { ctx := cF, log := st1.log ++ Event.matched 0 :: C })) :=
  ⟨⟨built_tagRouter true, by decide, noRepeatedSep_free "x".toList (by decide), by decide⟩,
    exact_route_reached (tagRouter true) (built_tagRouter true) 0 (firstRoute (tagRouter true))
      rfl (by decide) (by decide) (noRepeatedSep_free "x".toList (by decide)) (by decide)
      xRequest.ctx rfl rfl⟩

/-! ## catch-all precedence among further routes -/

/-- The scan when the only routes whose prefix is a string prefix of the path
are a catch-all route at `kc` and another route at `ke`, both with a prefix
of `n > 0` bytes. -/
theorem scanLoop_two (path : Str) (kc ke n : Nat) (hn : 0 < n) (hne : kc ≠ ke) :
    ∀ (rs : List Route) (j : Nat) (sc : Scan),
    (∀ i r, rs.get? i = some r →
      (j + i = kc → r.prefixStr.isPrefixOf path = true ∧ r.prefixStr.length = n ∧
        r.isPrefixHandler = true) ∧
      (j + i = ke → r.prefixStr.isPrefixOf path = true ∧ r.prefixStr.length = n ∧
        r.isPrefixHandler = false) ∧
      (j + i ≠ kc → j + i ≠ ke → r.prefixStr.isPrefixOf path = false)) →
    ((kc < j → sc.prefixMaxDeep = kc ∧ sc.prefixDeepLen = n) ∧
      (j ≤ kc → sc.prefixMaxDeep = 0 ∧ sc.prefixDeepLen = 0) ∧
      (ke < j → sc.normalMaxDeep = ke ∧ sc.normalDeepLen = n) ∧
      (j ≤ ke → sc.normalMaxDeep = 0 ∧ sc.normalDeepLen = 0)) →
    kc < j + rs.length → ke < j + rs.length →
    scanLoop path rs j sc = ⟨ke, n, kc, n⟩ := by
  intro rs
  induction rs with
  | nil =>
    intro j sc _ hinv hkc hke
    simp only [List.length_nil, Nat.add_zero] at hkc hke
    obtain ⟨h1, -, h3, -⟩ := hinv
    obtain ⟨a1, a2⟩ := h1 hkc
    obtain ⟨a3, a4⟩ := h3 hke
    obtain ⟨x1, x2, x3, x4⟩ := sc
    simp only at a1 a2 a3 a4
    subst a1 a2 a3 a4
    rfl
  | cons r rs ih =>
    intro j sc hrs hinv hkc hke
    unfold scanLoop
    have hr := hrs 0 r rfl
    simp only [Nat.add_zero] at hr
    refine ih (j + 1) _ ?_ ?_ (by simp only [List.length_cons] at hkc; omega)
      (by simp only [List.length_cons] at hke; omega)
    · intro i r1 hi
      have := hrs (i + 1) r1 (by simpa using hi)
      rw [show j + (i + 1) = j + 1 + i by omega] at this
      exact this
    · obtain ⟨h1, h2, h3, h4⟩ := hinv
      by_cases hjc : j = kc
      · obtain ⟨p1, p2, p3⟩ := hr.1 hjc
        obtain ⟨q1, q2⟩ := h2 (by omega)
        have hst : scanStep path sc j r = { sc with prefixDeepLen := n, prefixMaxDeep := j } := by
          unfold scanStep
          rw [if_pos p1, p2, p3, q1]
          simp [hn]
        rw [hst]
        refine ⟨fun _ => ⟨hjc, rfl⟩, fun h => by omega, fun h => h3 (by omega),
          fun h => h4 (by omega)⟩
      · by_cases hje : j = ke
        · obtain ⟨p1, p2, p3⟩ := hr.2.1 hje
          obtain ⟨q1, q2⟩ := h4 (by omega)
          have hst : scanStep path sc j r =
              { sc with normalDeepLen := n, normalMaxDeep := j } := by
            unfold scanStep
            rw [if_pos p1, p2, p3, q1]
            simp [hn]
          rw [hst]
          refine ⟨fun h => h1 (by omega), fun h => h2 (by omega), fun _ => ⟨hje, rfl⟩,
            fun h => by omega⟩
        · have p1 := hr.2.2 hjc hje
          have hst : scanStep path sc j r = sc := by
            unfold scanStep
            rw [p1]
            simp
          rw [hst]
          exact ⟨fun h => h1 (by omega), fun h => h2 (by omega), fun h => h3 (by omega),
            fun h => h4 (by omega)⟩

/-- The segments and the static prefix of a route with the pattern
`/a/:b/:c`. -/
theorem catchRoute_facts (r : Route) (hok : RouteOK r) (hu : r.urlPath = "/a/:b/:c".toList) :
    r.deepPath = ["/a".toList, "/:b".toList, "/:c".toList] ∧ r.prefixStr = "/a".toList := by
  obtain ⟨hD, pfx, hl, hp⟩ := hok
  rw [hu] at hD hl
  have hs : splitPath "/a/:b/:c".toList = ["/a".toList, "/:b".toList, "/:c".toList] := by
    decide
  rw [hs] at hD
  rw [hD] at hl
  have hg : genRouteLoop "/a/:b/:c".toList ["/a".toList, "/:b".toList, "/:c".toList] 0 [] [] =
      .ret ([("b".toList, 1), ("c".toList, 2)], "/a".toList) := rfl
  rw [hg] at hl
  simp only [Outcome.ret.injEq, Prod.mk.injEq] at hl
  rw [← hl.2] at hp
  exact ⟨hD, hp⟩

/-- The segments and the static prefix of a route with the pattern `/a/:y`. -/
theorem exactRoute_facts (r : Route) (hok : RouteOK r) (hu : r.urlPath = "/a/:y".toList) :
    r.deepPath = ["/a".toList, "/:y".toList] ∧ r.prefixStr = "/a".toList := by
  obtain ⟨hD, pfx, hl, hp⟩ := hok
  rw [hu] at hD hl
  have hs : splitPath "/a/:y".toList = ["/a".toList, "/:y".toList] := by decide
  rw [hs] at hD
  rw [hD] at hl
  have hg : genRouteLoop "/a/:y".toList ["/a".toList, "/:y".toList] 0 [] [] =
      .ret ([("y".toList, 1)], "/a".toList) := rfl
  rw [hg] at hl
  simp only [Outcome.ret.injEq, Prod.mk.injEq] at hl
  rw [← hl.2] at hp
  exact ⟨hD, hp⟩

/-- The exact-prefix pass attempts nothing when no route has the path as its
static prefix. -/
theorem exactPass_none (a : FastRouter) (hw : WF a) (method path : Str) (st : St)
    (h : ∀ k r, a.routes.get? k = some r → r.prefixStr ≠ path) :
    exactPass a method path st = (st, .ret (.next false false)) := by
  unfold exactPass
  cases hb : mapGet a.indexRoutes path with
  | none => rfl
  | some ks =>
    cases ks with
    | nil => rfl
    | cons k ks =>
      obtain ⟨r, hr, hp⟩ := hw.sound path (k :: ks) hb k (List.mem_cons_self _ _)
      exact absurd hp (h k r hr)

/-- The catch-all winner of the scan is reached when the exact-prefix pass
attempts nothing and the winner hits the request. -/
theorem reached_catch_winner (a : FastRouter) (c : Ctx) (hlen : c.path.length ≤ PathMaxSize)
    (sc : Scan) (hsc : scan a c.path = sc) (v : Route)
    (hex : exactPass a c.method c.path ⟨c, []⟩ = (⟨c, []⟩, .ret (.next false false)))
    (hd : sc.prefixDeepLen > 0)
    (hk : a.routes.get? sc.prefixMaxDeep = some v) (hok : RouteOK v)
    (hh : Hit v c.method c.path) : Reached a c sc.prefixMaxDeep := by
  obtain ⟨st2, l, ht, hl, hm, hq⟩ := tryWinner_reach a c.method c.path sc.prefixDeepLen
    sc.prefixMaxDeep v hd hk hok hh false false ⟨c, []⟩
  have hrr : routeRequest a c.method c.path ⟨c, []⟩ =
      chainUnit (runChain a sc.prefixMaxDeep v st2) := by
    unfold routeRequest
    rw [hex]
    simp only
    unfold fallbackPass
    simp only [hsc, ht]
    rcases runChain a sc.prefixMaxDeep v st2 with ⟨s, mp | e⟩ <;> rfl
  simp only [List.nil_append] at hl
  exact reached_of_chain a c hlen _ v st2 hrr (by rw [hl]; exact hm)
    (by rw [hl]; exact hq)

/-- The other winner of the scan is reached when the exact-prefix pass
attempts nothing, the catch-all winner (if any) misses the request and the
other winner hits it. -/
theorem reached_normal_winner (a : FastRouter) (c : Ctx) (hlen : c.path.length ≤ PathMaxSize)
    (sc : Scan) (hsc : scan a c.path = sc) (v : Route)
    (hex : exactPass a c.method c.path ⟨c, []⟩ = (⟨c, []⟩, .ret (.next false false)))
    (hpre : sc.prefixDeepLen > 0 →
      ∃ v0, a.routes.get? sc.prefixMaxDeep = some v0 ∧ ¬ Hit v0 c.method c.path)
    (hd : sc.normalDeepLen > 0)
    (hk : a.routes.get? sc.normalMaxDeep = some v) (hok : RouteOK v)
    (hh : Hit v c.method c.path) : Reached a c sc.normalMaxDeep := by
  obtain ⟨st1, m1, p1, ht1, l0, hl0, hq0⟩ := tryWinner_miss a c.method c.path sc.prefixDeepLen
    sc.prefixMaxDeep hpre false false ⟨c, []⟩
  obtain ⟨st2, l, ht, hl, hm, hq⟩ := tryWinner_reach a c.method c.path sc.normalDeepLen
    sc.normalMaxDeep v hd hk hok hh m1 p1 st1
  have hrr : routeRequest a c.method c.path ⟨c, []⟩ =
      chainUnit (runChain a sc.normalMaxDeep v st2) := by
    unfold routeRequest
    rw [hex]
    simp only
    unfold fallbackPass
    simp only [hsc, ht1, ht]
    rcases runChain a sc.normalMaxDeep v st2 with ⟨s, mp | e⟩ <;> rfl
  simp only [List.nil_append] at hl0
  rw [hl0] at hl
  exact reached_of_chain a c hlen _ v st2 hrr
    (by rw [hl]; exact List.mem_append_right _ hm)
    (by rw [hl]; exact reached_props_append hq0 hq)

/-- The scan on `path` when a catch-all route at `kc` and another route at
`ke` have the prefix `/a` and no other route has a prefix that is a string
prefix of `path`. -/
theorem scan_two (a : FastRouter) (path : Str) (kc ke : Nat) (rc re : Route)
    (hkc : a.routes.get? kc = some rc) (hke : a.routes.get? ke = some re)
    (hcp : rc.isPrefixHandler = true) (hep : re.isPrefixHandler = false)
    (hcx : rc.prefixStr = "/a".toList) (hex : re.prefixStr = "/a".toList)
    (hpa : "/a".toList.isPrefixOf path = true)
    (hother : ∀ k r, a.routes.get? k = some r → k ≠ kc → k ≠ ke →
      r.prefixStr.isPrefixOf path = false) :
    scan a path = ⟨ke, 2, kc, 2⟩ := by
  have hne : kc ≠ ke := by
    intro h
    rw [h, hke] at hkc
    cases hkc
    rw [hcp] at hep
    cases hep
  unfold scan
  refine scanLoop_two path kc ke 2 (by decide) hne a.routes 0 _ ?_
    ⟨fun h => by omega, fun _ => ⟨rfl, rfl⟩, fun h => by omega, fun _ => ⟨rfl, rfl⟩⟩
    (by simpa using get?_lt hkc) (by simpa using get?_lt hke)
  intro i r hi
  simp only [Nat.zero_add]
  refine ⟨fun h => ?_, fun h => ?_, fun h1 h2 => hother i r hi h1 h2⟩
  · subst h
    rw [hkc] at hi
    cases hi
    rw [hcx]
    exact ⟨hpa, rfl, hcp⟩
  · subst h
    rw [hke] at hi
    cases hi
    rw [hex]
    exact ⟨hpa, rfl, hep⟩

theorem isPrefixOf_append (p l x : Str) (h : p.isPrefixOf l = true) :
    p.isPrefixOf (l ++ x) = true := by
  rw [List.isPrefixOf_iff_prefix] at h ⊢
  exact h.trans (List.prefix_append l x)

theorem isPrefixOf_self (p : Str) : p.isPrefixOf p = true := by
  rw [List.isPrefixOf_iff_prefix]

/-- C9 (amended): on a built router that has the catch-all route `/a/:b/:c` at
position `kc` and the exact route `/a/:y` at position `ke` for one method, in
either order, and on which no other route has a static prefix that is a
string prefix of `/a/1/2`, the request `/a/1/2` is served by the catch-all
route and the request `/a/1` by the exact route: no other route matches, the
filters and the handler of the route are applied as `Served` says, and
`Handler` returns with the context the handler left. -/
theorem catch_all_precedence (a : FastRouter) (hb : Built a) (M : Str) (kc ke : Nat)
    (rc re : Route) (hkc : a.routes.get? kc = some rc) (hke : a.routes.get? ke = some re)
    (hcu : rc.urlPath = "/a/:b/:c".toList) (hcp : rc.isPrefixHandler = true)
    (hcm : rc.method = M)
    (heu : re.urlPath = "/a/:y".toList) (hep : re.isPrefixHandler = false)
    (hem : re.method = M)
    (hother : ∀ k r, a.routes.get? k = some r → k ≠ kc → k ≠ ke →
      r.prefixStr.isPrefixOf "/a/1/2".toList = false)
    (c12 c1 : Ctx) (h12 : c12.path = "/a/1/2".toList) (h12m : c12.method = M)
    (h1 : c1.path = "/a/1".toList) (h1m : c1.method = M) :
    (Reached a c12 kc ∧ Served a ⟨c12, []⟩ kc rc) ∧
    (Reached a c1 ke ∧ Served a ⟨c1, []⟩ ke re) := by
  have hw := hb.wf
  obtain ⟨hcd, hcx⟩ := catchRoute_facts rc (hw.routeOK kc rc hkc) hcu
  obtain ⟨hed, hex⟩ := exactRoute_facts re (hw.routeOK ke re hke) heu
  have hl12 : c12.path.length ≤ PathMaxSize := by rw [h12]; decide
  have hl1 : c1.path.length ≤ PathMaxSize := by rw [h1]; decide
  have hother1 : ∀ k r, a.routes.get? k = some r → k ≠ kc → k ≠ ke →
      r.prefixStr.isPrefixOf "/a/1".toList = false := by
    intro k r hk h1 h2
    by_contra hc
    have := isPrefixOf_append r.prefixStr "/a/1".toList "/2".toList (by simpa using hc)
    rw [show "/a/1".toList ++ "/2".toList = "/a/1/2".toList by decide, hother k r hk h1 h2] at this
    cases this
  have hno : ∀ (p : Str), "/a".toList ≠ p →
      (∀ k r, a.routes.get? k = some r → k ≠ kc → k ≠ ke → r.prefixStr.isPrefixOf p = false) →
      ∀ k r, a.routes.get? k = some r → r.prefixStr ≠ p := by
    intro p hp ho k r hk he
    by_cases h1 : k = kc
    · subst h1; rw [hkc] at hk; cases hk; exact hp (hcx ▸ he)
    · by_cases h2 : k = ke
      · subst h2; rw [hke] at hk; cases hk; exact hp (hex ▸ he)
      · have := ho k r hk h1 h2
        rw [he, isPrefixOf_self] at this
        cases this
  have hsc12 := scan_two a "/a/1/2".toList kc ke rc re hkc hke hcp hep hcx hex (by decide) hother
  have hsc1 := scan_two a "/a/1".toList kc ke rc re hkc hke hcp hep hcx hex (by decide) hother1
  have hit12 : Hit rc c12.method c12.path := by
    rw [h12, h12m]
    refine ⟨hcm, ?_⟩
    unfold shapeMatch
    rw [hcd, hcp]
    decide
  have hmiss1 : ¬ Hit rc c1.method c1.path := by
    rw [h1]
    refine not_hit_of_shape ?_
    unfold shapeMatch
    rw [hcd, hcp]
    decide
  have hit1 : Hit re c1.method c1.path := by
    rw [h1, h1m]
    refine ⟨hem, ?_⟩
    unfold shapeMatch
    rw [hed, hep]
    decide
  have hr12 : Reached a c12 kc :=
    reached_catch_winner a c12 hl12 ⟨ke, 2, kc, 2⟩ (by rw [h12]; exact hsc12) rc
      (by rw [h12]; exact exactPass_none a hw _ _ _ (hno _ (by decide) hother))
      (by show 0 < 2; decide) hkc (hw.routeOK kc rc hkc) hit12
  have hr1 : Reached a c1 ke :=
    reached_normal_winner a c1 hl1 ⟨ke, 2, kc, 2⟩ (by rw [h1]; exact hsc1) re
      (by rw [h1]; exact exactPass_none a hw _ _ _ (hno _ (by decide) hother1))
      (fun _ => ⟨rc, hkc, hmiss1⟩) (by show 0 < 2; decide) hke (hw.routeOK ke re hke) hit1
  exact ⟨⟨hr12, served_of_matched a hw ⟨c12, []⟩ hl12 rfl kc rc hkc hr12.1 hr12.2.1⟩,
    ⟨hr1, served_of_matched a hw ⟨c1, []⟩ hl1 rfl ke re hke hr1.1 hr1.2.1⟩⟩

theorem built_precedenceRouter : Built precedenceRouter :=
  Built.handle "GET".toList "/a/:y".toList false (tagHandler "exact") []
    (Built.handle "GET".toList "/a/:b/:c".toList true (tagHandler "catch") [] Built.new rfl) rfl

theorem built_thirdRouter : Built thirdRouter :=
  built_reg _ (built_reg _ (built_reg NewRouter Built.new "GET" "/a/:b/:c" true ⟨_, rfl⟩)
    "GET" "/a/:y" false ⟨_, rfl⟩) "GET" "/a/1/:z" false ⟨_, rfl⟩

theorem precedenceRouter_other : ∀ k r, precedenceRouter.routes.get? k = some r → k ≠ 0 → k ≠ 1 →
    r.prefixStr.isPrefixOf "/a/1/2".toList = false := by
  intro k r h h0 h1
  match k, h0, h1 with
  | 0, h0, _ => exact absurd rfl h0
  | 1, _, h1 => exact absurd rfl h1
  | k + 2, _, _ => cases h

theorem catch_all_precedence_witness :
    (Built precedenceRouter ∧
      precedenceRouter.routes.map (fun r => (r.method, r.urlPath, r.isPrefixHandler)) =
        [("GET".toList, "/a/:b/:c".toList, true), ("GET".toList, "/a/:y".toList, false)] ∧
      (Handler precedenceRouter (request "GET".toList "/a/1/2".toList)).1.ctx.body =
        "catch".toList ∧
      (Handler precedenceRouter (request "GET".toList "/a/1".toList)).1.ctx.body =
        "exact".toList ∧
      exampleRouter.routes.map (fun r => (r.urlPath, r.isPrefixHandler)) =
        [("/".toList, false), ("/a".toList, false), ("/:a/:b".toList, false),
          ("/a/:y".toList, false), ("/a/:b/:c".toList, true), ("/a/".toList, true)] ∧
      Event.handler 4 ∈ dispatchLog exampleRouter "GET".toList "/a/1/2".toList ∧
      Event.handler 3 ∈ dispatchLog exampleRouter "GET".toList "/a/1".toList) ∧
    ∃ rc re, precedenceRouter.routes = [rc, re] ∧
      (Reached precedenceRouter (request "GET".toList "/a/1/2".toList).ctx 0 ∧
        Served precedenceRouter ⟨(request "GET".toList "/a/1/2".toList).ctx, []⟩ 0 rc) ∧
      (Reached precedenceRouter (request "GET".toList "/a/1".toList).ctx 1 ∧
        Served precedenceRouter ⟨(request "GET".toList "/a/1".toList).ctx, []⟩ 1 re) :=
  ⟨⟨built_precedenceRouter, by decide, by decide, by decide, by decide, by decide, by decide⟩,
    _, _, rfl,
    catch_all_precedence precedenceRouter built_precedenceRouter "GET".toList 0 1 _ _ rfl rfl
      rfl rfl rfl rfl rfl rfl precedenceRouter_other
      (request "GET".toList "/a/1/2".toList).ctx (request "GET".toList "/a/1".toList).ctx
      rfl rfl rfl rfl⟩

/-- C9 (as stated, for every router with the two routes): with the route
`GET /a/1/:z` registered besides the catch-all `/a/:b/:c` and the exact
`/a/:y`, the request `GET /a/1` gets the not-found outcome.  The path `/a/1` is
the static prefix of the third route, which is the longest static prefix
among the routes that are not catch-all, so this route is the one attempted in
both passes; it has three segments and the request two. -/
theorem longer_prefix_shadows_exact :
    Built thirdRouter ∧
    thirdRouter.routes.map (fun r => (r.method, r.urlPath, r.isPrefixHandler, r.prefixStr)) =
      [("GET".toList, "/a/:b/:c".toList, true, "/a".toList),
        ("GET".toList, "/a/:y".toList, false, "/a".toList),
        ("GET".toList, "/a/1/:z".toList, false, "/a/1".toList)] ∧
    scan thirdRouter "/a/1".toList =
      { normalMaxDeep := 2, normalDeepLen := 4, prefixMaxDeep := 0, prefixDeepLen := 2 } ∧
    dispatchLog thirdRouter "GET".toList "/a/1".toList =
      [Event.attempt 2, Event.setAllow 2 ["GET".toList, "OPTIONS".toList],
        Event.attempt 0, Event.setAllow 0 ["GET".toList, "OPTIONS".toList],
        Event.attempt 2, Event.setAllow 2 ["GET".toList, "OPTIONS".toList],
        Event.notFoundDefault] ∧
    (dispatchCtx thirdRouter "GET".toList "/a/1".toList).statusCode = 404 ∧
    ¬ Reached thirdRouter (request "GET".toList "/a/1".toList).ctx 1 :=
  ⟨built_thirdRouter, by decide, by decide, by decide, by decide,
    fun h => absurd h.1 (by decide)⟩

/-! ## the not-found outcome, on the contexts -/

theorem serve_noShape_ctx (a : FastRouter) (k : Nat) (v : Route) (method path : Str) (st : St)
    (h : shapeMatch v (splitPath path) = false) :
    ∃ st1 m1, serve a k v method path st = (st1, .ret (m1, false)) ∧ Tried st st1 := by
  refine ⟨setAllowHeader k v (st.emit (Event.attempt k)), v.method == method, ?_,
    tried_setAllowHeader k v st⟩
  rw [serve_miss a k v method path st (by simp [h]), h]

theorem passOne_noShape_ctx (a : FastRouter) (method path : Str)
    (hno : ∀ k v, a.routes.get? k = some v → shapeMatch v (splitPath path) = false) :
    ∀ (ks : List Nat) (m0 : Bool) (st : St), (∀ k ∈ ks, ∃ v, a.routes.get? k = some v) →
    ∃ st1 m1, passOne a method path ks m0 false st = (st1, .ret (.next m1 false)) ∧
      Tried st st1 := by
  intro ks
  induction ks with
  | nil => intro m0 st _; exact ⟨st, m0, rfl, tried_refl st⟩
  | cons k ks ih =>
    intro m0 st hv
    obtain ⟨v, hk⟩ := hv k (List.mem_cons_self _ _)
    obtain ⟨st1, m1, hs, hq⟩ := serve_noShape_ctx a k v method path st (hno k v hk)
    obtain ⟨st2, m2, hp, hq2⟩ := ih m1 st1 (fun k1 h1 => hv k1 (List.mem_cons_of_mem _ h1))
    refine ⟨st2, m2, ?_, tried_trans hq hq2⟩
    unfold passOne
    rw [hk]
    simp only [hs, Bool.and_false]
    exact hp

theorem tryWinner_noShape_ctx (a : FastRouter) (method path : Str)
    (hno : ∀ k v, a.routes.get? k = some v → shapeMatch v (splitPath path) = false)
    (deepLen idx : Nat) (m0 : Bool) (st : St)
    (hv : deepLen > 0 → ∃ v, a.routes.get? idx = some v) :
    ∃ st1 m1, tryWinner a method path deepLen idx m0 false st = (st1, .ret (.next m1 false)) ∧
      Tried st st1 := by
  unfold tryWinner
  by_cases hd : deepLen > 0
  · rw [if_pos hd]
    obtain ⟨v, hk⟩ := hv hd
    obtain ⟨st1, m1, hs, hq⟩ := serve_noShape_ctx a idx v method path st (hno idx v hk)
    refine ⟨st1, m1, ?_, hq⟩
    rw [hk]
    simp [hs]
  · rw [if_neg hd]
    exact ⟨st, m0, rfl, tried_refl st⟩

/-- When no route has the path shape of the request, both passes fail and the
tail of `Handler` runs with `p = false` on a context that differs from the
incoming one in the `Allow` header only. -/
theorem routeRequest_noShape_ctx (a : FastRouter) (hw : WF a) (method path : Str) (st : St)
    (hno : ∀ k v, a.routes.get? k = some v → shapeMatch v (splitPath path) = false) :
    ∃ st1 m1, routeRequest a method path st = finish a m1 false st1 ∧ Tried st st1 := by
  have h1 : ∃ st1 m1, exactPass a method path st = (st1, .ret (.next m1 false)) ∧
      Tried st st1 := by
    unfold exactPass
    cases hb : mapGet a.indexRoutes path with
    | none => exact ⟨st, false, rfl, tried_refl st⟩
    | some hs =>
      exact passOne_noShape_ctx a method path hno hs false st (fun k hk => by
        obtain ⟨r, hr, -⟩ := hw.sound _ hs hb k hk
        exact ⟨r, hr⟩)
  obtain ⟨st1, m1, he1, hq1⟩ := h1
  have hsc := scan_ok a path
  obtain ⟨st2, m2, he2, hq2⟩ := tryWinner_noShape_ctx a method path hno
    (scan a path).prefixDeepLen (scan a path).prefixMaxDeep m1 st1
    (fun h => by obtain ⟨r, hr, -⟩ := hsc.1 h; exact ⟨r, hr⟩)
  obtain ⟨st3, m3, he3, hq3⟩ := tryWinner_noShape_ctx a method path hno
    (scan a path).normalDeepLen (scan a path).normalMaxDeep m2 st2
    (fun h => by obtain ⟨r, hr, -⟩ := hsc.2 h; exact ⟨r, hr⟩)
  refine ⟨st3, m3, ?_, tried_trans (tried_trans hq1 hq2) hq3⟩
  unfold routeRequest
  rw [he1]
  simp only
  unfold fallbackPass
  simp only [he2, he3]

theorem notFound_sameButAllow {c c1 : Ctx} (h : SameButAllow c c1) : c1.notFound = c.notFound := by
  unfold SameButAllow at h
  rw [h]
  rfl

/-- C7: when no registered route has the path shape of the request, dispatch
runs no filter and no handler and ends in the not-found outcome.  The failed
attempts leave a context `st1.ctx` that differs from the request context in
the `Allow` header only.  Without a custom hook the response is the default
one of `ctx.NotFound()`, and `Handler` returns with the context
`c.notFound`.  With the custom hook `f`, the hook is applied to `st1.ctx` and
the default is not: `Handler` returns with the context the hook left, or
runs the deferred function on it when the hook failed. -/
theorem dispatch_not_found (a : FastRouter) (hb : Built a) (c : Ctx)
    (hlen : c.path.length ≤ PathMaxSize)
    (hno : ∀ r ∈ a.routes, ¬ ShapeOK r (splitPath c.path)) :
    (∀ e ∈ (Handler a ⟨c, []⟩).1.log, e.isRun = false) ∧
    Event.notAllowedHook ∉ (Handler a ⟨c, []⟩).1.log ∧
    Event.setStatus 405 ∉ (Handler a ⟨c, []⟩).1.log ∧
    (a.NotFound = none →
      Event.notFoundDefault ∈ (Handler a ⟨c, []⟩).1.log ∧
      Event.notFoundHook ∉ (Handler a ⟨c, []⟩).1.log ∧
      (Handler a ⟨c, []⟩).1.ctx.statusCode = 404 ∧ (Handler a ⟨c, []⟩).2 = none ∧
      (Handler a ⟨c, []⟩).1.ctx = c.notFound) ∧
    (∀ f, a.NotFound = some f →
      Event.notFoundHook ∈ (Handler a ⟨c, []⟩).1.log ∧
      Event.notFoundDefault ∉ (Handler a ⟨c, []⟩).1.log ∧
      ∃ st1 : St, Tried ⟨c, []⟩ st1 ∧
        (∀ c2, f st1.ctx = (c2, .ret ()) →
          Handler a ⟨c, []⟩ = ({ ctx := c2, log := st1.log ++ [Event.notFoundHook] }, none)) ∧
        (∀ c2 e, f st1.ctx = (c2, .panic e) →
          Handler a ⟨c, []⟩ =
            recoverFrom a e { ctx := c2, log := st1.log ++ [Event.notFoundHook] })) := by
  have hold := not_found_log a hb c hlen hno
  have hno1 : ∀ k v, a.routes.get? k = some v → shapeMatch v (splitPath c.path) = false := by
    intro k v hv
    have hmem : v ∈ a.routes := List.get?_mem hv
    have := hno v hmem
    rw [← shapeMatch_iff] at this
    simpa using this
  obtain ⟨st1, m1, hrr, ht⟩ := routeRequest_noShape_ctx a hb.wf c.method c.path ⟨c, []⟩ hno1
  have hH := Handler_eq a ⟨c, []⟩ hlen
  simp only at hH
  rw [hrr] at hH
  refine ⟨hold.1, hold.2.1, hold.2.2.1, ?_, ?_⟩
  · intro hnf
    obtain ⟨h1, h2, h3, h4⟩ := hold.2.2.2.1 hnf
    refine ⟨h1, h2, h3, h4, ?_⟩
    have hfin : finish a m1 false st1 =
        ({ ctx := st1.ctx.notFound, log := st1.log ++ [Event.notFoundDefault] }, .ret ()) := by
      unfold finish; simp [hnf]
    rw [hfin] at hH
    simp only at hH
    rw [hH]
    exact notFound_sameButAllow ht.2
  · intro f hnf
    obtain ⟨h1, h2⟩ := hold.2.2.2.2 f hnf
    refine ⟨h1, h2, st1, ht, ?_, ?_⟩
    · intro c2 hf
      have hfin : finish a m1 false st1 =
          ({ ctx := c2, log := st1.log ++ [Event.notFoundHook] }, .ret ()) := by
        unfold finish; simp [hnf, hf]
      rw [hfin] at hH
      exact hH
    · intro c2 e hf
      have hfin : finish a m1 false st1 =
          ({ ctx := c2, log := st1.log ++ [Event.notFoundHook] }, .panic e) := by
        unfold finish; simp [hnf, hf]
      rw [hfin] at hH
      exact hH

theorem built_hookRouter : Built hookRouter :=
  Built.setNotFound (some (tagHandler "nf")) (built_reg NewRouter Built.new "GET" "/a" false ⟨_, rfl⟩)

theorem dispatch_not_found_witness :
    (Built hookRouter ∧ (∀ r ∈ hookRouter.routes, ¬ ShapeOK r (splitPath xyRequest.ctx.path)) ∧
      hookRouter.NotFound = some (tagHandler "nf") ∧
      (Handler hookRouter ⟨xyRequest.ctx, []⟩).1.ctx.body = "nf".toList ∧
      (Handler hookRouter ⟨xyRequest.ctx, []⟩).1.ctx.statusCode = 200 ∧
      (Handler (reg NewRouter "GET" "/a" false) ⟨xyRequest.ctx, []⟩).1.ctx.body =
        "404 Page not found".toList) ∧
    ((∀ e ∈ (Handler hookRouter ⟨xyRequest.ctx, []⟩).1.log, e.isRun = false) ∧
    Event.notAllowedHook ∉ (Handler hookRouter ⟨xyRequest.ctx, []⟩).1.log ∧
    Event.setStatus 405 ∉ (Handler hookRouter ⟨xyRequest.ctx, []⟩).1.log ∧
    (hookRouter.NotFound = none →
      Event.notFoundDefault ∈ (Handler hookRouter ⟨xyRequest.ctx, []⟩).1.log ∧
      Event.notFoundHook ∉ (Handler hookRouter ⟨xyRequest.ctx, []⟩).1.log ∧
      (Handler hookRouter ⟨xyRequest.ctx, []⟩).1.ctx.statusCode = 404 ∧
      (Handler hookRouter ⟨xyRequest.ctx, []⟩).2 = none ∧
      (Handler hookRouter ⟨xyRequest.ctx, []⟩).1.ctx = xyRequest.ctx.notFound) ∧
    (∀ f, hookRouter.NotFound = some f →
      Event.notFoundHook ∈ (Handler hookRouter ⟨xyRequest.ctx, []⟩).1.log ∧
      Event.notFoundDefault ∉ (Handler hookRouter ⟨xyRequest.ctx, []⟩).1.log ∧
      ∃ st1 : St, Tried ⟨xyRequest.ctx, []⟩ st1 ∧
        (∀ c2, f st1.ctx = (c2, .ret ()) →
          Handler hookRouter ⟨xyRequest.ctx, []⟩ =
            ({ ctx := c2, log := st1.log ++ [Event.notFoundHook] }, none)) ∧
        (∀ c2 e, f st1.ctx = (c2, .panic e) →
          Handler hookRouter ⟨xyRequest.ctx, []⟩ =
            recoverFrom hookRouter e { ctx := c2, log := st1.log ++ [Event.notFoundHook] }))) :=
  ⟨⟨built_hookRouter, by decide, rfl, by decide, by decide, by decide⟩,
    dispatch_not_found hookRouter built_hookRouter xyRequest.ctx (by decide) (by decide)⟩

/-! ## the path and its segments -/

/-- On the paths `Handler` receives, the segments determine the path. -/
theorem splitPath_injective (p1 p2 : Str) (h1 : Normalized p1) (h2 : Normalized p2)
    (hseg : splitPath p1 = splitPath p2) : p1 = p2 := by
  obtain ⟨t1, rfl⟩ : ∃ t, p1 = '/' :: t := by
    cases p1 with
    | nil => have := h1.1; simp at this
    | cons c t => have := h1.1; simp only [List.head?_cons, Option.some.injEq] at this; exact ⟨t, by rw [this]⟩
  obtain ⟨t2, rfl⟩ : ∃ t, p2 = '/' :: t := by
    cases p2 with
    | nil => have := h2.1; simp at this
    | cons c t => have := h2.1; simp only [List.head?_cons, Option.some.injEq] at this; exact ⟨t, by rw [this]⟩
  rw [← flatten_splitPath t1 h1.2, ← flatten_splitPath t2 h2.2, hseg]

/-- C23: `Handler` reads the request path from `ctx.Path()`, which is
normalised: it starts with `'/'` and has no repeated separator (a request for
`/a//b` arrives as `/a/b`).  Two such paths with the same segment sequence
are the same path, so dispatch on the one does what dispatch on the other
does: the same routes attempted and matched, the same filters and handler
applied, the same context and panic outcome. -/
theorem same_dispatch_on_same_segments (a : FastRouter) (st : St) (p2 : Str)
    (h1 : Normalized st.ctx.path) (h2 : Normalized p2)
    (hseg : splitPath st.ctx.path = splitPath p2) :
    st.ctx.path = p2 ∧ Handler a (st.withPath p2) = Handler a st := by
  have hp := splitPath_injective st.ctx.path p2 h1 h2 hseg
  refine ⟨hp, ?_⟩
  rw [← hp]
  rfl

theorem normalized_a1 : Normalized "/a/1".toList :=
  ⟨rfl, by unfold NoRepeatedSep; simp⟩

theorem same_dispatch_on_same_segments_witness :
    (Normalized (request "GET".toList "/a/1".toList).ctx.path ∧ ¬ Normalized "/a//1".toList ∧
      Event.handler 1 ∈ (Handler precedenceRouter (request "GET".toList "/a/1".toList)).1.log) ∧
    ((request "GET".toList "/a/1".toList).ctx.path = "/a/1".toList ∧
      Handler precedenceRouter ((request "GET".toList "/a/1".toList).withPath "/a/1".toList) =
        Handler precedenceRouter (request "GET".toList "/a/1".toList)) :=
  ⟨⟨normalized_a1,
      fun h => by have := h.2; unfold NoRepeatedSep at this; simp at this, by decide⟩,
    same_dispatch_on_same_segments precedenceRouter (request "GET".toList "/a/1".toList)
      "/a/1".toList normalized_a1 normalized_a1 rfl⟩

end Fastrouter
